import Mathlib

/-!
# apigw: path index, middleware, tokeninfo cache, error handler, OpenAPI poller and backoff

A shallow embedding of parts of `github.com/mmlt/apigw`:

* `path/index.go`: the path index (`AddPath`, `AddMethodPathScopes`, `Find`, `FindScopes`,
  `FindMethods`, `nodes.find`, `nodes.match`, `split`);
* `mw/oauth2.go`: the OAuth2 middleware (`OAuth2WithConfig`, `extractToken`), the caching
  tokeninfo client (`TokeninfoClient.Call`) and one pass of the cache sweeper (`runGC`);
* `mw/cors.go`, `mw/path.go`: the CORS middleware (`CORSWithConfig`) and the Path middleware
  (`PathWithConfig`);
* `ingress/ingress.go`: the error handler (`customHTTPErrorHandler`);
* `gateway/gateway.go`: the lookup closures `scopesFn` and `allowMethodsFn` of `Gateway.Run`;
* `openapi/parse.go`, `openapi/client.go`: `SpecOAuth2ScopeIter`, `newIndexFromSpec`, `parse`,
  `Client.Get` and the loop of `Client.Poll`;
* `backoff/backoff.go`: `New` and `Backoff.Do`;
* the round-robin balancer that `ingress.NewWithConfig` takes from the `echo` library, which is
  modelled from the specification.

Conventions of the embedding.

* A Go `string` is a Lean `String`; a nil slice and an empty slice are both `[]`.
* A Go `map[string]V` is an association list (`GoMap V`); a map built by writes and deletes has
  pairwise distinct keys. Reading a nil map behaves like reading an empty map. The order of a
  `range` loop is the order of the list; no statement below depends on it.
* Pointer-mutating code becomes a function returning the new value.
* A runtime fault (index out of range, nil function) is the result `none`.
* `time.Time` is an integer number of nanoseconds on the clock line; `Add`, `Before` and `After`
  are exact there, since a clock reading plus a 64 bit duration stays in the range of
  `time.Time`. `time.Duration` is a signed 64 bit number of nanoseconds, and a product of
  durations wraps (`wrap64`).
* A Go `uint` is a natural number below `2 ^ 64`, and `++` on it wraps. A loop without an
  evident bound takes `fuel`; its result `none` means that the fuel ran out.
* Logging (`glog`) is left out.
* Library code is taken by its contract: an `echo` response is a status, a header map and a
  body that has not been written when a middleware runs; a parsed `text/template` is its
  `Execute`, which may have written part of its output when it fails; the template parser and
  the JSON encoder of the error handler, `md5.Sum` and the `go-openapi` loader are parameters.
-/

namespace Apigw

/-! ## Go maps -/

/-- A Go `map[string]V`: an association list, first binding of a key wins. -/
abbrev GoMap (V : Type) := List (String × V)

/-- The read `v, ok := m[key]`. -/
def mapGet {V : Type} : GoMap V → String → Option V
  | [], _ => none
  | (k, v) :: m, key => if k = key then some v else mapGet m key

/-- The write `m[key] = v`: overwrite the binding of `key` or add one. -/
def mapSet {V : Type} : GoMap V → String → V → GoMap V
  | [], key, v => [(key, v)]
  | (k, w) :: m, key, v => if k = key then (k, v) :: m else (k, w) :: mapSet m key v

/-- The builtin `delete(m, key)`. -/
def mapDelete {V : Type} (m : GoMap V) (key : String) : GoMap V :=
  m.filter (fun kv => !(kv.1 == key))

/-- The keys of a map, in the order a `range` loop of this model visits them. -/
def mapKeys {V : Type} (m : GoMap V) : List String := m.map Prod.fst

/-! ## Go strings -/

/-- The loop of `strings.Split(s, sep)` for a non-empty `sep`: cut at the leftmost occurrences of
`sep`, left to right, without overlap. `skip` counts the characters of a separator that was just
recognised and `cur` holds the current piece, reversed. -/
def stringsSplitAux (sep : List Char) : List Char → Nat → List Char → List String
  | [], _, cur => [String.mk cur.reverse]
  | _ :: cs, skip + 1, cur => stringsSplitAux sep cs skip cur
  | c :: cs, 0, cur =>
    if sep.isPrefixOf (c :: cs) then
      String.mk cur.reverse :: stringsSplitAux sep cs (sep.length - 1) []
    else stringsSplitAux sep cs 0 (c :: cur)

/-- Go `strings.Split(s, sep)` for a non-empty separator. -/
def stringsSplit (s sep : String) : List String := stringsSplitAux sep.data s.data 0 []

/-! ## path/index.go -/

namespace path

/-- Go `type Scopes []string`. -/
abbrev Scopes := List String

/-- Go `type node struct`: name, param flag, children and the methods with their scopes. The
root is `&node{}`, whose `Methods` is a nil map; it is only ever read. -/
inductive node where
  | mk (name : String) (param : Bool) (children : List node) (Methods : GoMap Scopes)

/-- Field `name`. -/
def node.name : node → String
  | .mk n _ _ _ => n

/-- Field `param`. -/
def node.param : node → Bool
  | .mk _ p _ _ => p

/-- Field `children`. -/
def node.children : node → List node
  | .mk _ _ cs _ => cs

/-- Field `Methods`. -/
def node.Methods : node → GoMap Scopes
  | .mk _ _ _ ms => ms

/-- Go `type Index struct`. -/
structure Index where
  root : node

/-- Go `NewIndex`: `&Index{root: &node{}}`. -/
def NewIndex : Index := ⟨.mk "" false [] []⟩

/-- Go `split`: optionally remove a leading `/`, then `strings.Split(path, "/")`. -/
def split (path : String) : List String :=
  match path.data with
  | '/' :: rest => stringsSplit (String.mk rest) "/"
  | _ => stringsSplit path "/"

/-- The test `string(e[0]) == "{"` of `AddPath`; `none` is the index-out-of-range fault of
`e[0]` on an empty segment. -/
def isParam (e : String) : Option Bool :=
  match e.data with
  | [] => none
  | c :: _ => some (c == Char.ofNat 123)

/-- The body of the loop of `nodes.find`: does `n` end the search? -/
def findHit (name : String) (param : Bool) (n : node) : Bool :=
  (n.param && param) || n.name == name

/-- Go `nodes.find`: the first node that is a parameter node (when `param`) or has the name. -/
def nodes_find (ns : List node) (name : String) (param : Bool) : Option node :=
  ns.find? (findHit name param)

/-- Write `c` through the pointer that `nodes.find` returned: replace the first hit. -/
def replaceHit (name : String) (param : Bool) (c : node) : List node → List node
  | [] => []
  | n :: ns => if findHit name param n then c :: ns else n :: replaceHit name param c ns

/-- The loop of `nodes.match`; `r` is the variable `r`. -/
def matchLoop (name : String) : List node → Option node → Option node
  | [], r => r
  | n :: ns, r =>
    if n.name = name then some n
    else matchLoop name ns (if n.param then some n else r)

/-- Go `nodes.match`: a node with the name, or else the last parameter node. -/
def nodes_match (ns : List node) (name : String) : Option node := matchLoop name ns none

/-- The loop of `AddPath` from node `n` over the remaining elements, with `upd` applied to the
node the loop ends at (what the caller does through the returned pointer). The result is the
new `n`; `none` is the fault of `e[0]` on an empty element. -/
def addLoop (upd : node → node) : node → List String → Option node
  | n, [] => some (upd n)
  | n, e :: es =>
    match isParam e with
    | none => none
    | some p =>
      match nodes_find n.children e p with
      | some nn =>
        match addLoop upd nn es with
        | none => none
        | some nn' => some (.mk n.name n.param (replaceHit e p nn' n.children) n.Methods)
      | none =>
        match addLoop upd (.mk e p [] []) es with
        | none => none
        | some nn' => some (.mk n.name n.param (n.children ++ [nn']) n.Methods)

/-- Go `Index.AddPath`. -/
def AddPath (idx : Index) (path : String) : Option Index :=
  (addLoop id idx.root (split path)).map Index.mk

/-- The assignment `n.Methods[method] = scopes`. -/
def setMethod (method : String) (scopes : Scopes) (n : node) : node :=
  .mk n.name n.param n.children (mapSet n.Methods method scopes)

/-- Go `Index.AddMethodPathScopes`; its error result is always nil. -/
def AddMethodPathScopes (idx : Index) (method path : String) (scopes : Scopes) : Option Index :=
  (addLoop (setMethod method scopes) idx.root (split path)).map Index.mk

/-- The loop of `Find`: descend by `nodes.match`. -/
def findLoop : node → List String → Except String node
  | n, [] => .ok n
  | n, e :: es =>
    match nodes_match n.children e with
    | none => .error ("no match for " ++ e)
    | some c => findLoop c es

/-- Go `Index.Find`, with the check after the loop (`lastI` is the last index visited). -/
def Find (idx : Index) (path : String) : Except String node :=
  let elems := split path
  match findLoop idx.root elems with
  | .error err => .error err
  | .ok n =>
    let lastI := elems.length - 1
    if lastI + 1 < elems.length then
      .error ("no match for " ++ elems.getD (lastI + 1) "" ++ " in path " ++ path)
    else .ok n

/-- Go `Index.FindScopes`: the pair (scopes, error). -/
def FindScopes (idx : Index) (method path : String) : Scopes × Option String :=
  match Find idx path with
  | .error err => ([], some err)
  | .ok n =>
    match mapGet n.Methods method with
    | none => ([], some ("no " ++ method ++ " " ++ path ++ " in index"))
    | some s => (s, none)

/-- Go `Index.FindMethods`: the pair (methods, error). -/
def FindMethods (idx : Index) (path : String) : List String × Option String :=
  match Find idx path with
  | .error err => ([], some err)
  | .ok n => (mapKeys n.Methods, none)

/-- A sequence of `AddMethodPathScopes` calls (method, path, scopes), applied in order. -/
def build (idx : Index) : List (String × String × Scopes) → Option Index
  | [] => some idx
  | (m, p, s) :: ops =>
    match AddMethodPathScopes idx m p s with
    | none => none
    | some idx' => build idx' ops

end path

/-! ## mw/oauth2.go -/

namespace mw

/-- A Go `error` value: an `*echo.HTTPError` of `github.com/labstack/echo/v4`, the package that
`mw` and `gateway` import (code, message); an `*echo.HTTPError` of `github.com/labstack/echo`,
the package that `ingress` imports, which is another type; or any other error (its text). -/
inductive GoError where
  | http (code : Nat) (message : String)
  | httpV3 (code : Nat) (message : String)
  | plain (text : String)
  deriving DecidableEq, Repr

/-- Go `ErrTokenMissing`. -/
def ErrTokenMissing : GoError := .http 400 "Missing or malformed token"

/-- Go `ErrTokenInvalid`. -/
def ErrTokenInvalid : GoError := .http 401 "Not allowed"

/-- Go `time.Second`, in nanoseconds. -/
def Second : Int := 1000000000

/-- Go `time.Minute`, in nanoseconds. -/
def Minute : Int := 60 * Second

/-- The value a signed 64 bit integer holds after an arithmetic result `x`. -/
def wrap64 (x : Int) : Int := (x + 2 ^ 63) % 2 ^ 64 - 2 ^ 63

/-- Go `type TokeninfoResponse struct`. `Scopes` is a `map[string]struct{}`; `ExpiresIn` is an
`int`; `Timestamp` is a clock reading in nanoseconds. -/
structure TokeninfoResponse where
  ClientID : String
  Scope : List String
  ExpiresIn : Int
  Error : String
  Scopes : GoMap Unit
  Timestamp : Int
  deriving DecidableEq, Repr

/-- The request of an `echo.Context`: method, URL and the first value of each header. -/
structure Request where
  Method : String
  URL : String
  Header : GoMap String
  deriving DecidableEq, Repr

/-- An `echo.Context`: the request and the store written by `c.Set`. -/
structure Context where
  request : Request
  store : GoMap String
  deriving DecidableEq, Repr

/-- Go `Header.Get`: the value of a header, or the empty string. -/
def headerGet (h : GoMap String) (key : String) : String := (mapGet h key).getD ""

/-- Go `c.Set(key, value)`. -/
def Context.Set (c : Context) (key value : String) : Context :=
  { c with store := mapSet c.store key value }

/-- Go `echo.HandlerFunc`: the error it returns (`none` is nil). -/
abbrev HandlerFunc := Context → Option GoError

/-- Go `TokeninfoFunc`: the pair (response pointer, error). -/
abbrev TokeninfoFunc := String → Option TokeninfoResponse × Option GoError

/-- Go `ScopesFunc`: the pair (scopes, error), from method and URL. -/
abbrev ScopesFunc := String → String → List String × Option GoError

/-- Go `type OAuth2Config struct`; `none` is a nil function. -/
structure OAuth2Config where
  Skipper : Option (Context → Bool)
  Tokeninfo : Option TokeninfoFunc
  RequiredScopes : Option ScopesFunc

/-- Go `middleware.DefaultSkipper`. -/
def DefaultSkipper : Context → Bool := fun _ => false

/-- What one run of a handler did: the tokens `Tokeninfo` was called with, the contexts `next`
was called with, and the error returned. -/
structure Handled where
  tokeninfoCalls : List String
  nextCalls : List Context
  err : Option GoError
  deriving DecidableEq, Repr

/-- Go `unicode.IsSpace`. -/
def isSpace (c : Char) : Bool :=
  let n := c.toNat
  (9 ≤ n && n ≤ 13) || n == 32 || n == 133 || n == 160 || n == 5760 ||
    (8192 ≤ n && n ≤ 8202) || n == 8232 || n == 8233 || n == 8239 || n == 8287 || n == 12288

/-- Go `strings.TrimSpace`. -/
def TrimSpace (s : String) : String :=
  String.mk ((s.data.dropWhile isSpace).reverse.dropWhile isSpace).reverse

/-- Go `extractToken`: the pair (token, error). -/
def extractToken (c : Context) : String × Option GoError :=
  let auth := headerGet c.request.Header "Authorization"
  if auth = "" then ("", some ErrTokenMissing)
  else
    let ss := stringsSplit auth "Bearer"
    if ss.length ≠ 2 then ("", some ErrTokenMissing)
    else (TrimSpace (ss.getD 1 ""), none)

/-- The loop over `required` in the handler: is every required scope a key of `allowed`? -/
def scopesLoop (allowed : GoMap Unit) : List String → Bool
  | [] => true
  | r :: rs => if (mapGet allowed r).isSome then scopesLoop allowed rs else false

/-- Go `OAuth2WithConfig`: `none` is the fault on a nil `Tokeninfo`; otherwise the middleware,
a function of `next` and the context. -/
def OAuth2WithConfig (config : OAuth2Config) : Option (HandlerFunc → Context → Handled) :=
  let skipper := config.Skipper.getD DefaultSkipper
  match config.Tokeninfo with
  | none => none
  | some tokeninfo =>
    some (fun next c =>
      if skipper c then ⟨[], [c], next c⟩
      else
        let lookup : List String × Option GoError :=
          match config.RequiredScopes with
          | none => ([], none)
          | some f => f c.request.Method c.request.URL
        match lookup with
        | (_, some err) => ⟨[], [], some err⟩
        | (required, none) =>
          if required.length = 0 then ⟨[], [c], next c⟩
          else
            match extractToken c with
            | (_, some err) => ⟨[], [], some err⟩
            | (token, none) =>
              match tokeninfo token with
              | (_, some _) => ⟨[token], [], some ErrTokenInvalid⟩
              | (none, none) => ⟨[token], [], some ErrTokenInvalid⟩
              | (some ti, none) =>
                if ti.ExpiresIn ≤ 0 then ⟨[token], [], some ErrTokenInvalid⟩
                else if scopesLoop ti.Scopes required then
                  ⟨[token], [c.Set "ClientID" ti.ClientID], next (c.Set "ClientID" ti.ClientID)⟩
                else ⟨[token], [], some ErrTokenInvalid⟩)

/-- What `http.Get`, the read of the body and `json.Unmarshal` yield in `BasicTokeninfo`: a
transport error, or a status code with the outcome of reading and decoding the body. -/
abbrev Introspect := String → Except GoError (Nat × Except GoError TokeninfoResponse)

/-- Go `BasicTokeninfo(url)`, run at clock reading `now` against the endpoint `get`. The Go
function returns either a nil response with an error or a response with a nil error. -/
def BasicTokeninfo (get : Introspect) (url : String) (now : Int) (token : String) :
    Except GoError TokeninfoResponse :=
  match get (url ++ "?access_token=" ++ token) with
  | .error err => .error err
  | .ok (status, decoded) =>
    if status ≠ 200 then
      .error (.plain ("GET " ++ url ++ "?access_token=xxxx status " ++ toString status))
    else
      match decoded with
      | .error err => .error err
      | .ok r =>
        if r.Error ≠ "" then .error (.plain ("tokeninfo response error " ++ r.Error))
        else
          .ok { r with
            Scopes := r.Scope.foldl (fun m s => mapSet m s ()) []
            Timestamp := now }

/-- Go `type tokeninfoCache struct`: the map `data`. -/
structure tokeninfoCache where
  data : GoMap TokeninfoResponse
  deriving DecidableEq, Repr

/-- Go `newTokeninfoCache`. -/
def newTokeninfoCache : tokeninfoCache := ⟨[]⟩

/-- Go `tokeninfoCache.get`. -/
def tokeninfoCache.get (c : tokeninfoCache) (key : String) : Option TokeninfoResponse :=
  mapGet c.data key

/-- Go `tokeninfoCache.set`. -/
def tokeninfoCache.set (c : tokeninfoCache) (key : String) (value : TokeninfoResponse) :
    tokeninfoCache := ⟨mapSet c.data key value⟩

/-- Go `type TokeninfoClient struct`. `basicCall` is only ever `BasicTokeninfo(url)`, so its
result is an `Except`. -/
structure TokeninfoClient where
  cache : tokeninfoCache
  url : String
  basicCall : String → Except GoError TokeninfoResponse

/-- The result of `TokeninfoClient.Call`: the pair (response, error) returned, the client
afterwards, and the tokens `basicCall` was called with. -/
structure CallResult where
  ret : Option TokeninfoResponse × Option GoError
  client : TokeninfoClient
  introspections : List String

/-- The second half of `TokeninfoClient.Call`: call tokeninfo and store the result. -/
def TokeninfoClient.fetch (c : TokeninfoClient) (token : String) : CallResult :=
  match c.basicCall token with
  | .error err => ⟨(none, some err), c, [token]⟩
  | .ok ti => ⟨(some ti, none), { c with cache := c.cache.set token ti }, [token]⟩

/-- Go `TokeninfoClient.Call`, with `now` the reading of `time.Now()`: a cached entry is
returned when `ti.Timestamp.Add(10*time.Second).After(now)`. -/
def TokeninfoClient.Call (c : TokeninfoClient) (now : Int) (token : String) : CallResult :=
  match c.cache.get token with
  | some ti =>
    if ti.Timestamp + 10 * Second > now then ⟨(some ti, none), c, []⟩
    else c.fetch token
  | none => c.fetch token

/-- The test of the sweeper:
`v.Timestamp.Add(time.Duration(v.ExpiresIn) * time.Second).Before(now)`. The product is a 64
bit `time.Duration`. -/
def sweepable (v : TokeninfoResponse) (now : Int) : Bool :=
  decide (v.Timestamp + wrap64 (v.ExpiresIn * Second) < now)

/-- One pass of the sweeper in `runGC` at clock reading `now`: range over the entries and
delete the key of each entry that tests positive. -/
def gcPass (c : tokeninfoCache) (now : Int) : tokeninfoCache :=
  ⟨c.data.foldl (fun d kv => if sweepable kv.2 now then mapDelete d kv.1 else d) c.data⟩

end mw

namespace path

/-! ## Specification vocabulary for the path index -/

/-- The key of a path element: `none` for a parameter element (one that starts with an opening
brace), the element itself otherwise. -/
def segKey (e : String) : Option String :=
  match isParam e with
  | some true => none
  | _ => some e

/-- The key of a node: `none` for a parameter node, its name otherwise. -/
def nodeKey (c : node) : Option String := if c.param then none else some c.name

/-- The key of a path: the keys of its elements (the path up to the names of parameters). -/
def pathKey (p : String) : List (Option String) := (split p).map segKey

/-- The child with a given key. -/
def getChild (cs : List node) (k : Option String) : Option node :=
  cs.find? (fun c => nodeKey c == k)

/-- The node reached from `n` along a list of keys. -/
def walk : node → List (Option String) → Option node
  | n, [] => some n
  | n, k :: ks =>
    match getChild n.children k with
    | none => none
    | some c => walk c ks

/-- The methods stored at the node reached along a list of keys (empty if there is none). -/
def methodsAt (n : node) (ks : List (Option String)) : GoMap Scopes :=
  match walk n ks with
  | some t => t.Methods
  | none => []

/-- Well-formed trees: every child has a non-empty name whose first character decides its
`param` flag, and the keys of the children of a node are pairwise distinct. -/
inductive WF : node → Prop
  | mk (n : node)
      (hname : ∀ c ∈ n.children, isParam c.name = some c.param)
      (hkeys : (n.children.map nodeKey).Nodup)
      (hrec : ∀ c ∈ n.children, WF c) : WF n

/-- An update of a node that changes nothing but its `Methods`. -/
def MethodsOnly (upd : node → node) : Prop :=
  ∀ x, (upd x).name = x.name ∧ (upd x).param = x.param ∧ (upd x).children = x.children

/-- The path elements `es` follow the keys `ks` from `n`: a static key is matched by its own
name, a parameter key by an element that is not the name of a static child. -/
def Follows : node → List (Option String) → List String → Prop
  | _, [], [] => True
  | n, k :: ks, e :: es =>
    (k = some e ∨ (k = none ∧ ∀ c ∈ n.children, c.name = e → c.param = true)) ∧
      ∀ c, getChild n.children k = some c → Follows c ks es
  | _, _, _ => False

/-- The methods map stored under the key `ks` after the insertions `ops`, starting from `acc`:
the insertions at paths with this key, applied in order. -/
def methodsAfter (ks : List (Option String)) :
    GoMap Scopes → List (String × String × Scopes) → GoMap Scopes
  | acc, [] => acc
  | acc, (m, p, s) :: ops =>
    methodsAfter ks (if pathKey p = ks then mapSet acc m s else acc) ops

/-- The concrete elements `xs` match the template elements `es` below the key prefix `pre`,
and no static element inserted at the same position hides a parameter: a static template
element is matched by itself, a parameter element by any element `x` such that no inserted
path continues the prefix with the static element `x`. -/
def MatchesTemplate (ops : List (String × String × Scopes)) :
    List (Option String) → List String → List String → Prop
  | _, [], [] => True
  | pre, e :: es, x :: xs =>
    (segKey e = some x ∨
      (segKey e = none ∧ ∀ op ∈ ops, ¬ (pre ++ [some x]) <+: pathKey op.2.1)) ∧
      MatchesTemplate ops (pre ++ [segKey e]) es xs
  | _, _, _ => False

/-- The concrete elements match the template elements one by one: parameter elements match
anything, static elements only themselves. -/
def matchesSegments : List String → List String → Bool
  | [], [] => true
  | e :: es, x :: xs => (segKey e == none || e == x) && matchesSegments es xs
  | _, _ => false

/-- Five insertions taken from the table of `index_test.go`. -/
def exampleOps : List (String × String × Scopes) :=
  [("GET", "/accounts/\x7baccountNumber\x7d/orders", ["read"]),
   ("POST", "/accounts/\x7baccountNumber\x7d/orders", ["write"]),
   ("GET", "/accounts/\x7baccountNumber\x7d", ["read"]),
   ("GET", "/instruments/lists", ["read"]),
   ("GET", "/instruments/\x7bid\x7d", ["read"])]

/-- The index built from `exampleOps`. -/
def exampleIndex : Index := (build NewIndex exampleOps).getD NewIndex

end path

namespace mw

/-! ## Specification vocabulary and example data for the middleware -/

/-- The token is granted access: `Tokeninfo` returns a response and no error, the response has
`ExpiresIn > 0` and every required scope is a key of its `Scopes`. -/
def granted (tokeninfo : TokeninfoFunc) (token : String) (required : List String) : Prop :=
  ∃ ti, tokeninfo token = (some ti, none) ∧ 0 < ti.ExpiresIn ∧
    ∀ r ∈ required, r ∈ mapKeys ti.Scopes

/-- The request of `oauth2_test.go`: `GET /` with a bearer token. -/
def exampleContext : Context :=
  ⟨⟨"GET", "/", [("Authorization", "Bearer value-not-important")]⟩, []⟩

/-- The same request without an `Authorization` header. -/
def exampleContextNoToken : Context := ⟨⟨"GET", "/", []⟩, []⟩

/-- A `RequiredScopes` function that requires the scope `read` everywhere. -/
def exampleScopes : ScopesFunc := fun _ _ => (["read"], none)

/-- A `RequiredScopes` function that fails with a 404, as in `TestScopesFail`. -/
def exampleScopesFail : ScopesFunc := fun _ _ => (["read"], some (.http 404 "No API"))

/-- A `Tokeninfo` function that grants `read` for ten seconds, as in `TestScopeValidation`. -/
def exampleTokeninfo : TokeninfoFunc :=
  fun _ => (some ⟨"app", ["read"], 10, "", [("read", ())], 0⟩, none)

/-- A `next` handler that succeeds. -/
def exampleNext : HandlerFunc := fun _ => none

/-- The middleware of a configuration, or a handler that does nothing when the configuration
faults. -/
def middlewareOf (config : OAuth2Config) : HandlerFunc → Context → Handled :=
  (OAuth2WithConfig config).getD (fun _ _ => ⟨[], [], none⟩)

/-- An introspection endpoint that answers every token with client `app`, scope `read` and
`expires_in` 5. -/
def exampleIdp : Introspect := fun _ => .ok (200, .ok ⟨"app", ["read"], 5, "", [], 0⟩)

/-- A client with an empty cache whose introspection runs at clock reading 0. -/
def exampleClient : TokeninfoClient :=
  ⟨newTokeninfoCache, "http://idp/tokeninfo", BasicTokeninfo exampleIdp "http://idp/tokeninfo" 0⟩

/-- The client after a first `Call` for token `t` at clock reading 0. -/
def exampleClientWarm : TokeninfoClient := (exampleClient.Call 0 "t").client

/-- A request for token `t`. -/
def exampleContextT : Context := ⟨⟨"GET", "/read", [("Authorization", "Bearer t")]⟩, []⟩

end mw

/-! ## Go strings, continued -/

/-- Go `strings.HasPrefix`. -/
def HasPrefix (s pre : String) : Bool := pre.data.isPrefixOf s.data

/-- Go `strings.TrimPrefix`. -/
def TrimPrefix (s pre : String) : String :=
  if HasPrefix s pre then String.mk (s.data.drop pre.data.length) else s

namespace mw

/-! ## mw/cors.go -/

/-- An `echo.Response` that has not been written yet: the status that was written (0 for
none), the header map and the body. -/
structure Response where
  Status : Nat
  Header : GoMap (List String)
  Body : String
  deriving DecidableEq, Repr

/-- Go `res.Header().Set(key, value)`. -/
def Response.Set (res : Response) (key value : String) : Response :=
  { res with Header := mapSet res.Header key [value] }

/-- Go `res.Header().Add(key, value)`. -/
def Response.Add (res : Response) (key value : String) : Response :=
  { res with Header := mapSet res.Header key ((mapGet res.Header key).getD [] ++ [value]) }

/-- Go `c.NoContent(code)`: write the status without a body; the error returned is nil. -/
def NoContent (res : Response) (code : Nat) : Response := { res with Status := code }

/-- Go `AllowOriginsFunc`: the pair (origins, error). -/
abbrev AllowOriginsFunc := Unit → List String × Option GoError

/-- Go `AllowMethodsFunc`: the pair (methods, error), from the path. -/
abbrev AllowMethodsFunc := String → List String × Option GoError

/-- Go `type CORSConfig struct`; `none` is a nil function. -/
structure CORSConfig where
  Skipper : Option (Context → Bool)
  AllowOriginsFn : Option AllowOriginsFunc
  AllowMethodsFn : Option AllowMethodsFunc
  AllowOrigins : List String
  AllowMethods : List String

/-- An `echo.HandlerFunc` seen with the response it may write: the response afterwards and the
error returned. -/
abbrev ResponseHandlerFunc := Context → Response → Response × Option GoError

/-- What one run of a handler that writes the response did: the response afterwards, the
contexts and responses `next` was called with, and the error returned. -/
structure Served where
  res : Response
  nextCalls : List (Context × Response)
  err : Option GoError
  deriving DecidableEq, Repr

/-- The default of `CORSWithConfig` for a nil `AllowOriginsFn`: the configured origins. -/
def CORSConfig.originsFn (config : CORSConfig) : AllowOriginsFunc :=
  config.AllowOriginsFn.getD (fun _ => (config.AllowOrigins, none))

/-- The default of `CORSWithConfig` for a nil `AllowMethodsFn`: the configured methods. -/
def CORSConfig.methodsFn (config : CORSConfig) : AllowMethodsFunc :=
  config.AllowMethodsFn.getD (fun _ => (config.AllowMethods, none))

/-- The statement `return next(c)`. -/
def callNext (next : ResponseHandlerFunc) (c : Context) (res : Response) : Served :=
  ⟨(next c res).1, [(c, res)], (next c res).2⟩

/-- The loop over the allowed origins in the CORS handler: the value of `allowOrigin`. -/
def allowOriginLoop (origin : String) : List String → String
  | [] => ""
  | o :: os => if o = "*" ∨ o = origin then o else allowOriginLoop origin os

/-- Go `stringInSlice`. -/
def stringInSlice (a : String) : List String → Bool
  | [] => false
  | b :: list => if b = a then true else stringInSlice a list

/-- Go `CORSWithConfig`: the middleware, a function of `next`, the context and its response. -/
def CORSWithConfig (config : CORSConfig) (next : ResponseHandlerFunc) (c : Context)
    (res : Response) : Served :=
  let skipper := config.Skipper.getD DefaultSkipper
  if skipper c then callNext next c res
  else
    let supportsCredentials := headerGet c.request.Header "Authorization" != ""
    let origin := headerGet c.request.Header "Origin"
    if origin = "" then callNext next c res
    else
      match config.originsFn () with
      | (_, some err) => ⟨res, [], some err⟩
      | (ao, none) =>
        if allowOriginLoop origin ao = "" then callNext next c res
        else if c.request.Method = "OPTIONS" then
          let method := headerGet c.request.Header "Access-Control-Request-Method"
          if method = "" then ⟨NoContent res 204, [], none⟩
          else
            let headerFieldNames := headerGet c.request.Header "Access-Control-Request-Headers"
            match config.methodsFn c.request.URL with
            | (_, some err) => ⟨res, [], some err⟩
            | (allowMethods, none) =>
              if !stringInSlice method allowMethods then ⟨NoContent res 204, [], none⟩
              else
                let res1 := res.Set "Access-Control-Allow-Origin" origin
                let res2 :=
                  if supportsCredentials then res1.Set "Access-Control-Allow-Credentials" "true"
                  else res1
                let res3 := res2.Set "Access-Control-Allow-Methods" method
                let b := if !(headerFieldNames == "") then headerFieldNames ++ "," else headerFieldNames
                let res4 := res3.Set "Access-Control-Allow-Headers" (b ++ "Content-Type")
                let res5 := res4.Add "Vary" "Origin"
                ⟨NoContent res5 200, [], none⟩
        else
          let res1 := res.Set "Access-Control-Allow-Origin" origin
          let res2 :=
            if supportsCredentials then res1.Set "Access-Control-Allow-Credentials" "true"
            else res1
          let res3 := res2.Add "Vary" "Origin"
          callNext next c res3

/-! ## mw/path.go -/

/-- Go `type PathConfig struct`. -/
structure PathConfig where
  Skipper : Option (Context → Bool)
  RequirePrefix : String
  TrimPrefix : String

/-- What one run of the Path handler did: the context afterwards (its URL path may be
rewritten), the contexts `next` was called with, and the error returned. -/
structure PathHandled where
  c : Context
  nextCalls : List Context
  err : Option GoError
  deriving DecidableEq, Repr

/-- The assignment `url.Path = path`. -/
def Context.setPath (c : Context) (path : String) : Context :=
  { c with request := { c.request with URL := path } }

/-- Go `PathWithConfig`: the middleware, a function of `next` and the context. -/
def PathWithConfig (config : PathConfig) (next : HandlerFunc) (c : Context) : PathHandled :=
  let skipper := config.Skipper.getD DefaultSkipper
  if skipper c then ⟨c, [c], next c⟩
  else if !HasPrefix c.request.URL config.RequirePrefix then
    ⟨c, [], some (.http 404 "Not found")⟩
  else
    ⟨c.setPath (TrimPrefix c.request.URL config.TrimPrefix),
      [c.setPath (TrimPrefix c.request.URL config.TrimPrefix)],
      next (c.setPath (TrimPrefix c.request.URL config.TrimPrefix))⟩

end mw

/-! ## ingress/ingress.go -/

namespace ingress

open mw

/-- The anonymous struct of `customHTTPErrorHandler`: `Status` and `Message`. -/
structure ErrorData where
  Status : Nat
  Message : String
  deriving DecidableEq, Repr

/-- A parsed `*template.Template`: `Execute` yields the output written to the writer, which on
failure is the output up to the point of failure, and the error. -/
structure Template where
  Execute : ErrorData → String × Option GoError

/-- Go `template.New("error").Parse`: a template or a parse error. -/
abbrev TemplateParse := String → Except GoError Template

/-- The body `c.JSON(status, e)` writes for the struct. -/
abbrev JSONEncode := ErrorData → String

/-- Go `error.Error()`; for an `*echo.HTTPError` of either package the text
`code=..., message=...`. -/
def errorText : GoError → String
  | .plain text => text
  | .http code message => "code=" ++ toString code ++ ", message=" ++ message
  | .httpV3 code message => "code=" ++ toString code ++ ", message=" ++ message

/-- The struct `e` of the handler: status 500 and the error text, replaced by code and message
when the type assertion `in.(*echo.HTTPError)` holds. The package `ingress` imports
`github.com/labstack/echo`, so the assertion holds for the errors of that package only; an
`*echo.HTTPError` of `github.com/labstack/echo/v4` keeps status 500 and its error text. -/
def errorData (err : GoError) : ErrorData :=
  let e : ErrorData := ⟨500, errorText err⟩
  match err with
  | .httpV3 code message => { e with Status := code, Message := message }
  | .http _ _ => e
  | .plain _ => e

/-- Go `customHTTPErrorHandler`: a parse error, or the handler, a function of the error and
the response it writes. -/
def customHTTPErrorHandler (parse : TemplateParse) (json : JSONEncode) (tmpl : String) :
    Except GoError (GoError → Response → Response) :=
  match parse tmpl with
  | .error err => .error err
  | .ok t =>
    .ok (fun err res =>
      let e := errorData err
      let res1 : Response := { res with Status := e.Status }
      match t.Execute e with
      | (out, none) => { res1 with Body := res1.Body ++ out }
      | (out, some _) => { res1 with Body := res1.Body ++ out ++ json e })

/-- A node of a template: literal text or a field action. -/
inductive TemplateNode where
  | text (s : String)
  | field (name : String)
  deriving DecidableEq, Repr

/-- Execution of a list of nodes as Go `text/template` does it on the struct of the handler:
text is written as it is, the fields `Status` and `Message` are written as their values, and
any other field stops the execution with an error after what was written before. -/
def executeNodes : List TemplateNode → ErrorData → String × Option GoError
  | [], _ => ("", none)
  | .text s :: ns, e => (s ++ (executeNodes ns e).1, (executeNodes ns e).2)
  | .field name :: ns, e =>
    if name = "Status" then
      (toString e.Status ++ (executeNodes ns e).1, (executeNodes ns e).2)
    else if name = "Message" then
      (e.Message ++ (executeNodes ns e).1, (executeNodes ns e).2)
    else ("", some (.plain ("can't evaluate field " ++ name)))

/-- The nodes of one piece that follows an opening delimiter: a field action up to the closing
delimiter, then text. -/
def parseAction (part : String) : Except GoError (List TemplateNode) :=
  match stringsSplit part "\x7d\x7d" with
  | [action, rest] =>
    match action.data with
    | '.' :: name => .ok [.field (String.mk name), .text rest]
    | _ => .error (.plain ("unsupported action " ++ action))
  | _ => .error (.plain "unclosed action")

/-- The nodes of the pieces that follow the opening delimiters. -/
def parseActions : List String → Except GoError (List TemplateNode)
  | [] => .ok []
  | part :: parts =>
    match parseAction part, parseActions parts with
    | .ok ns, .ok ms => .ok (ns ++ ms)
    | .error err, _ => .error err
    | _, .error err => .error err

/-- A parser for the fragment of Go `text/template` made of text and field actions. -/
def parseFields : TemplateParse := fun tmpl =>
  match stringsSplit tmpl "\x7b\x7b" with
  | [] => .ok ⟨executeNodes []⟩
  | first :: parts =>
    match parseActions parts with
    | .ok ns => .ok ⟨executeNodes (.text first :: ns)⟩
    | .error err => .error err

/-- The JSON text of the struct for a message without characters that JSON escapes. -/
def plainJSON : JSONEncode := fun e =>
  "\x7b\"Status\":" ++ toString e.Status ++ ",\"Message\":\"" ++ e.Message ++ "\"\x7d"

/-- The handler for a template text, or a handler that writes nothing when the template does
not parse. -/
def handlerOf (parse : TemplateParse) (json : JSONEncode) (tmpl : String) :
    GoError → Response → Response :=
  match customHTTPErrorHandler parse json tmpl with
  | .ok h => h
  | .error _ => fun _ res => res

end ingress

/-! ## gateway/gateway.go -/

namespace gateway

open mw

/-- The closure `scopesFn` of `Gateway.Run`, with `index` the variable it reads (`none` is
nil, no index published yet). -/
def scopesFn (index : Option path.Index) (method url : String) : List String × Option GoError :=
  match index with
  | none => ([], some (.plain "No OpenAPI definition read (yet)."))
  | some idx =>
    match path.FindScopes idx method url with
    | (ss, some err) => (ss, some (.http 404 err))
    | (ss, none) => (ss, none)

/-- The closure `allowMethodsFn` of `Gateway.Run`, with `index` the variable it reads. -/
def allowMethodsFn (index : Option path.Index) (p : String) : List String × Option GoError :=
  match index with
  | none => ([], some (.plain "No OpenAPI definition read (yet)."))
  | some idx =>
    match path.FindMethods idx p with
    | (ss, some err) => (ss, some (.http 404 err))
    | (ss, none) => (ss, none)

end gateway

/-! ## openapi/parse.go, openapi/client.go -/

namespace openapi

open path

/-- A `spec.Operation`: its security requirements, each a map from scheme name to scopes. -/
structure Operation where
  Security : List (GoMap (List String))
  deriving DecidableEq, Repr

/-- A `spec.PathItem`: the seven operations, `none` for a nil pointer. -/
structure PathItem where
  Get : Option Operation
  Put : Option Operation
  Post : Option Operation
  Delete : Option Operation
  Options : Option Operation
  Head : Option Operation
  Patch : Option Operation
  deriving DecidableEq, Repr

/-- A `spec.Swagger` with non-nil `Paths`: the map `Paths.Paths`, in the order the `range` loop
visits it. -/
structure Swagger where
  Paths : GoMap PathItem
  deriving DecidableEq, Repr

/-- The closure `op` of `SpecOAuth2ScopeIter`: the calls of `fn` it makes, as (path, method,
scopes). -/
def op (p method : String) (prop : Option Operation) : List (String × String × List String) :=
  match prop with
  | none => []
  | some prop =>
    match prop.Security with
    | [] => [(p, method, [])]
    | first :: _ =>
      match mapGet first "oauth2" with
      | none => [(p, method, [])]
      | some scopes => [(p, method, scopes)]

/-- The body of the loop of `SpecOAuth2ScopeIter` for one path. -/
def opsOfPath (p : String) (prop : PathItem) : List (String × String × List String) :=
  op p "GET" prop.Get ++ op p "PUT" prop.Put ++ op p "POST" prop.Post ++
    op p "DELETE" prop.Delete ++ op p "OPTIONS" prop.Options ++ op p "HEAD" prop.Head ++
    op p "PATCH" prop.Patch

/-- Go `SpecOAuth2ScopeIter`: the calls of `fn` it makes, in order. -/
def SpecOAuth2ScopeIter (specification : Swagger) : List (String × String × List String) :=
  specification.Paths.flatMap (fun kv => opsOfPath kv.1 kv.2)

/-- The loop of the callback of `newIndexFromSpec` that removes empty strings. -/
def removeEmpty : List String → List String
  | [] => []
  | str :: scopes => if str ≠ "" then str :: removeEmpty scopes else removeEmpty scopes

/-- Go `newIndexFromSpec`: the index after the callback ran for every call of the iteration;
`none` is a runtime fault of `AddMethodPathScopes`. The error result is always nil. -/
def newIndexFromSpec (specification : Swagger) : Option Index :=
  build NewIndex
    ((SpecOAuth2ScopeIter specification).map (fun call => (call.2.1, call.1, removeEmpty call.2.2)))

end openapi

namespace mw

/-! ## Specification vocabulary and example data for CORS and Path -/

/-- The origin matches the allow list: some entry is the wildcard or the origin itself. -/
def originAllowed (origin : String) (ao : List String) : Prop :=
  ∃ o ∈ ao, o = "*" ∨ o = origin

/-- The CORS configuration of the gateway on the example index: every origin is allowed and
the allowed methods of a path are looked up in the index. -/
def exampleCORS : CORSConfig :=
  ⟨none, none, some (gateway.allowMethodsFn (some path.exampleIndex)), ["*"], []⟩

/-- A response that has not been written. -/
def freshResponse : Response := ⟨0, [], ""⟩

/-- A `next` handler that answers 200 with a body. -/
def exampleUpstream : ResponseHandlerFunc :=
  fun _ res => ({ res with Status := 200, Body := res.Body ++ "upstream1" }, none)

/-- A preflight request with credentials, as `th01` of `apigw_test.go`. -/
def examplePreflight : Context :=
  ⟨⟨"OPTIONS", "/instruments/lists",
    [("Origin", "localhost"), ("Authorization", "Bearer readabcdef"),
     ("Access-Control-Request-Method", "GET"),
     ("Access-Control-Request-Headers", "authorization")]⟩, []⟩

/-- A preflight request for a method the path does not have. -/
def examplePreflightPut : Context :=
  ⟨⟨"OPTIONS", "/instruments/lists",
    [("Origin", "localhost"), ("Access-Control-Request-Method", "PUT")]⟩, []⟩

/-- A cross-origin request without credentials, as `th08` of `apigw_test.go`. -/
def exampleCrossOrigin : Context :=
  ⟨⟨"GET", "/instruments/lists", [("Origin", "localhost")]⟩, []⟩

/-- A request of `TestPath`. -/
def examplePathContext : Context := ⟨⟨"GET", "/api/v1/doc/swagger.json", []⟩, []⟩

end mw

/-! ## Specification vocabulary for strings and the OpenAPI adapter -/

/-- The text `sep` occurs in `s`. -/
def Occurs (sep s : String) : Prop := sep.data <:+: s.data

/-- The text `s` is `pre`, then `sep`, then `post`, and `sep` does not start earlier in `s`. -/
def FirstOccurrence (sep s pre post : String) : Prop :=
  s.data = pre.data ++ sep.data ++ post.data ∧
    ∀ pre' post' : List Char, s.data = pre' ++ sep.data ++ post' → pre.data.length ≤ pre'.length

namespace openapi

open path

/-- The operation of a path item for a method name, for the seven methods of the iteration. -/
def operationOf (item : PathItem) (method : String) : Option Operation :=
  if method = "GET" then item.Get
  else if method = "PUT" then item.Put
  else if method = "POST" then item.Post
  else if method = "DELETE" then item.Delete
  else if method = "OPTIONS" then item.Options
  else if method = "HEAD" then item.Head
  else if method = "PATCH" then item.Patch
  else none

/-- The scopes the specification gives an operation: the `oauth2` list of its first security
requirement without empty strings, and the empty list when there is no requirement or the
first one has no `oauth2` key. -/
def expectedScopes (o : Operation) : List String :=
  match o.Security.head? with
  | none => []
  | some first =>
    match mapGet first "oauth2" with
    | none => []
    | some scopes => scopes.filter (fun s => s ≠ "")

/-- A path item with only a GET operation that requires the given `oauth2` scopes. -/
def getOnly (scopes : List String) : PathItem :=
  ⟨some ⟨[[("oauth2", scopes)]]⟩, none, none, none, none, none, none⟩

/-- A document with an account path (GET with scope `read` and an empty string, POST with
scope `write`) and a version path whose GET has no security requirement. -/
def exampleSwagger : Swagger :=
  ⟨[("/accounts/\x7baccountNumber\x7d/orders",
      ⟨some ⟨[[("oauth2", ["read", ""])]]⟩, none, some ⟨[[("oauth2", ["write"])]]⟩, none, none,
        none, none⟩),
    ("/version", ⟨some ⟨[]⟩, none, none, none, none, none, none⟩)]⟩

/-- The index of `exampleSwagger`. -/
def exampleSwaggerIndex : Index := (newIndexFromSpec exampleSwagger).getD NewIndex

end openapi

/-! ## backoff/backoff.go -/

namespace backoff

open mw

/-- Go `type Backoff struct`, without its context (which `Do` never reads): `MaxTries` and
`retry` are `uint` values (64 bit), `Duration` is a `time.Duration`. -/
structure Backoff where
  MaxTries : Nat
  Duration : Int
  retry : Nat
  deriving DecidableEq, Repr

/-- Go `New`: the retry counter starts at zero. -/
def New (maxTries : Nat) (duration : Int) : Backoff := ⟨maxTries, duration, 0⟩

/-- Go `type BackoffFunc func() error`, a closure: the error its call number `i` (from 0) within
one `Do` returns; `none` is nil. -/
abbrev BackoffFunc := Nat → Option GoError

/-- What one `Do` did: the receiver afterwards, the number of calls of `fn`, the durations
`TimeSleep` was called with, in order, and the error returned. -/
structure DoResult where
  b : Backoff
  calls : Nat
  sleeps : List Int
  err : Option GoError
  deriving DecidableEq, Repr

/-- The loop of `Do`, with the variable `err`. `fuel` bounds the number of times the loop
condition is evaluated; `none` means the bound was reached. The shift `b.Duration << m` is a 64
bit `time.Duration` and `b.retry++` is a 64 bit `uint`. -/
def doLoop (fn : BackoffFunc) :
    Nat → Backoff → Nat → List Int → Option GoError → Option DoResult
  | 0, _, _, _, _ => none
  | fuel + 1, b, calls, sleeps, err =>
    if b.retry ≤ b.MaxTries then
      match fn calls with
      | none => some ⟨b, calls + 1, sleeps, none⟩
      | some e =>
        let m := if b.retry > 8 then 8 else b.retry
        let delay := wrap64 (b.Duration * 2 ^ m)
        doLoop fn fuel { b with retry := (b.retry + 1) % 2 ^ 64 } (calls + 1)
          (sleeps ++ [delay]) (some e)
    else some ⟨b, calls, sleeps, err⟩

/-- Go `Backoff.Do`. -/
def Backoff.Do (b : Backoff) (fn : BackoffFunc) (fuel : Nat) : Option DoResult :=
  doLoop fn fuel b 0 [] none

end backoff

/-! ## openapi/client.go -/

namespace openapi

open path mw backoff

/-- Go `ErrNoPathInSpec`. -/
def ErrNoPathInSpec : GoError := .plain "openapi definition doesn\x27t contain paths"

/-- Go `parse`. `SpecFromRaw` is a parameter (it runs the `go-openapi` loader): it returns an
error, a document whose `Paths` is nil (`none`), or a document with paths. The outer `none` is
a runtime fault of `newIndexFromSpec`. -/
def parse (SpecFromRaw : String → Except GoError (Option Swagger)) (json : String) :
    Option (Except GoError Index) :=
  match SpecFromRaw json with
  | .error err => some (.error err)
  | .ok none => some (.error ErrNoPathInSpec)
  | .ok (some specification) =>
    if specification.Paths.length = 0 then some (.error ErrNoPathInSpec)
    else (newIndexFromSpec specification).map .ok

/-- Go `type Client struct`, without its context. -/
structure Client where
  url : String
  backoff : Backoff
  deriving DecidableEq, Repr

/-- Go `NewClient`. -/
def NewClient (url : String) : Client := ⟨url, New 8 Second⟩

/-- Go `Client.Get`: `Do` on a copy of the backoff of the client, so the client is unchanged.
`http i` is the result of call number `i` of `httpGetReadAll(c.url)`; the named results
`(b, err)` hold what the last call assigned, and are `(nil, nil)` without a call. -/
def Client.Get (c : Client) (http : Nat → Except GoError String) (fuel : Nat) :
    Option (Except GoError String) :=
  let bo := c.backoff
  (bo.Do (fun i => match http i with
      | .ok _ => none
      | .error err => some err) fuel).map
    (fun r => if r.calls = 0 then .ok "" else http (r.calls - 1))

/-- A `[16]byte` checksum, as a list of bytes. -/
abbrev Checksum := List Nat

/-- The zero value of `var checksum [16]byte`. -/
def zeroChecksum : Checksum := List.replicate 16 0

/-- The state of the loop of `Poll`: the variable `checksum`, and the calls of `fn` made so
far, each index paired with the body it was parsed from. -/
structure PollState where
  checksum : Checksum
  published : List (String × Index)

/-- One iteration of the loop of `Poll`, given what `c.Get()` returned. `md5` is `md5.Sum`;
`none` is a runtime fault of `parse`. -/
def pollIteration (md5 : String → Checksum)
    (SpecFromRaw : String → Except GoError (Option Swagger))
    (st : PollState) (got : Except GoError String) : Option PollState :=
  match got with
  | .error _ => some st
  | .ok b =>
    let cs := md5 b
    if cs = st.checksum then some st
    else
      match parse SpecFromRaw b with
      | none => none
      | some (.error _) => some st
      | some (.ok idx) => some ⟨cs, st.published ++ [(b, idx)]⟩

/-- The iterations of the loop of `Poll` from state `st`, one for each result of `c.Get()`. -/
def pollLoop (md5 : String → Checksum)
    (SpecFromRaw : String → Except GoError (Option Swagger)) :
    PollState → List (Except GoError String) → Option PollState
  | st, [] => some st
  | st, got :: gets =>
    match pollIteration md5 SpecFromRaw st got with
    | none => none
    | some st' => pollLoop md5 SpecFromRaw st' gets

/-- Go `Client.Poll`, run for as many iterations as `gets` has results of `c.Get()`. -/
def Poll (md5 : String → Checksum) (SpecFromRaw : String → Except GoError (Option Swagger))
    (gets : List (Except GoError String)) : Option PollState :=
  pollLoop md5 SpecFromRaw ⟨zeroChecksum, []⟩ gets

end openapi

/-! ## The round-robin balancer of the reverse proxy -/

namespace ingress

/-- Modelled from the spec: the round-robin balancer that `NewWithConfig` obtains from
`middleware.NewRoundRobinBalancer(targets)`, a cursor over the configured targets. -/
structure RoundRobinBalancer where
  targets : List String
  cursor : Nat
  deriving DecidableEq, Repr

/-- Modelled from the spec: a new balancer, with the cursor at the first target. -/
def NewRoundRobinBalancer (targets : List String) : RoundRobinBalancer := ⟨targets, 0⟩

/-- Modelled from the spec: the selection for one request, the target at the cursor modulo the
target count, and the balancer with the cursor advanced by one; `none` without targets. -/
def RoundRobinBalancer.Next (b : RoundRobinBalancer) : Option (String × RoundRobinBalancer) :=
  match b.targets.get? (b.cursor % b.targets.length) with
  | none => none
  | some t => some (t, { b with cursor := b.cursor + 1 })

/-- Modelled from the spec: the targets that `k` requests, served one after another, are
forwarded to. -/
def forwards : RoundRobinBalancer → Nat → Option (List String)
  | _, 0 => some []
  | b, k + 1 =>
    match b.Next with
    | none => none
    | some (t, b') => (forwards b' k).map (fun ts => t :: ts)

end ingress

namespace openapi

open path mw

/-! ## Specification vocabulary and example data for the poller -/

/-- The stored checksum is all zero before the first call of the callback and the MD5 of the
body of the last call afterwards; every call passes the index parsed from its body. -/
def PollInv (md5 : String → Checksum) (sfr : String → Except GoError (Option Swagger))
    (st : PollState) : Prop :=
  st.checksum = (match st.published.getLast? with
    | none => zeroChecksum
    | some c => md5 c.1) ∧
  ∀ c ∈ st.published, parse sfr c.1 = some (.ok c.2)

/-- A stand-in for `md5.Sum` on the example bodies: sixteen bytes that hold the length of the
body. -/
def exampleMd5 : String → Checksum := fun b => b.length :: List.replicate 15 0

/-- A stand-in for `SpecFromRaw` on the example bodies: the body `v1` is `exampleSwagger`, the
body `empty` is a document without paths, every other body is not a document. -/
def exampleSpecFromRaw : String → Except GoError (Option Swagger) := fun b =>
  if b = "v1" then .ok (some exampleSwagger)
  else if b = "empty" then .ok (some ⟨[]⟩)
  else .error (.plain "invalid character")

end openapi

namespace backoff

/-! ## Specification vocabulary for the backoff -/

/-- The sum `2^0 + 2^1 + … + 2^min(M-1,8)`. -/
def claimedSum (M : Nat) : Int :=
  ((List.range (min (M - 1) 8 + 1)).map (fun j => (2 : Int) ^ j)).sum

/-- The sum of `2^min(k,8)` over the failed attempts `k = 0, …, M-1`. -/
def cappedSum (M : Nat) : Int :=
  ((List.range M).map (fun k => (2 : Int) ^ min k 8)).sum

/-- A function that fails on its first `n` calls and succeeds afterwards, as in
`backoff_test.go`. -/
def failFirst (n : Nat) : BackoffFunc :=
  fun i => if i < n then some (.plain "test error") else none

end backoff

namespace path

/-! ## Specification vocabulary for sequences of insertions -/

/-- A call that adds to an index: `AddPath(path)` or
`AddMethodPathScopes(method, path, scopes)`. -/
inductive IndexCall where
  | addPath (path : String)
  | addMethodPathScopes (method path : String) (scopes : Scopes)

/-- The path argument of a call. -/
def IndexCall.path : IndexCall → String
  | .addPath p => p
  | .addMethodPathScopes _ p _ => p

/-- The index after a call; `none` is a runtime fault. -/
def IndexCall.run (idx : Index) : IndexCall → Option Index
  | .addPath p => AddPath idx p
  | .addMethodPathScopes m p s => AddMethodPathScopes idx m p s

/-- A sequence of calls, applied in order. -/
def runCalls (idx : Index) : List IndexCall → Option Index
  | [] => some idx
  | call :: calls =>
    match call.run idx with
    | none => none
    | some idx' => runCalls idx' calls

/-- The error of a result of `Find`, or `none` for a node. -/
def errorOf : Except String node → Option String
  | .error err => some err
  | .ok _ => none

/-- The nodes of a tree: the root and the nodes of its children. -/
inductive Inside : node → node → Prop
  | root (n : node) : Inside n n
  | child (n c d : node) : c ∈ n.children → Inside c d → Inside n d

end path

end Apigw

/-! ## Lemmas -/

namespace Apigw

namespace path

theorem WF.hname {n : node} (h : WF n) : ∀ c ∈ n.children, isParam c.name = some c.param := by
  cases h; assumption

theorem WF.hkeys {n : node} (h : WF n) : (n.children.map nodeKey).Nodup := by
  cases h; assumption

theorem WF.hrec {n : node} (h : WF n) : ∀ c ∈ n.children, WF c := by
  cases h; assumption

theorem nodeKey_eq_segKey {c : node} (h : isParam c.name = some c.param) :
    nodeKey c = segKey c.name := by
  unfold nodeKey segKey
  rw [h]
  cases c.param <;> simp

theorem findHit_eq_key {e : String} {p : Bool} (he : isParam e = some p) {c : node}
    (hc : isParam c.name = some c.param) :
    findHit e p c = (nodeKey c == segKey e) := by
  have hk : segKey e = if p then none else some e := by
    unfold segKey; rw [he]; cases p <;> simp
  rw [hk]
  unfold findHit nodeKey
  by_cases hn : c.name = e
  · subst hn
    rw [hc] at he
    cases Option.some.inj he
    cases c.param <;> simp
  · cases p <;> cases c.param <;> simp [hn]

theorem find_eq_getChild {e : String} {p : Bool} (he : isParam e = some p) (cs : List node)
    (hcs : ∀ c ∈ cs, isParam c.name = some c.param) :
    nodes_find cs e p = getChild cs (segKey e) := by
  unfold nodes_find getChild
  induction cs with
  | nil => rfl
  | cons c cs ih =>
    have h1 := findHit_eq_key he (hcs c (List.mem_cons_self _ _))
    simp only [List.find?_cons, h1]
    rw [ih (fun c hc => hcs c (List.mem_cons_of_mem _ hc))]

theorem getChild_some {cs : List node} {k : Option String} {c : node}
    (h : getChild cs k = some c) : c ∈ cs ∧ nodeKey c = k := by
  unfold getChild at h
  exact ⟨List.mem_of_find?_eq_some h, by simpa using List.find?_some h⟩

theorem getChild_of_mem {cs : List node} (hk : (cs.map nodeKey).Nodup) {c : node} (hc : c ∈ cs) :
    getChild cs (nodeKey c) = some c := by
  cases h : getChild cs (nodeKey c) with
  | none =>
    unfold getChild at h
    have := List.find?_eq_none.1 h c hc
    simp at this
  | some d =>
    obtain ⟨hd, hkd⟩ := getChild_some h
    rw [List.inj_on_of_nodup_map hk hd hc hkd]

theorem getChild_none {cs : List node} {k : Option String} (h : getChild cs k = none) :
    k ∉ cs.map nodeKey := by
  unfold getChild at h
  intro hm
  obtain ⟨c, hc, hkc⟩ := List.mem_map.1 hm
  have := List.find?_eq_none.1 h c hc
  simp [hkc] at this

theorem getChild_append_single (cs : List node) (c : node) (k : Option String) :
    getChild (cs ++ [c]) k =
      match getChild cs k with
      | some d => some d
      | none => if nodeKey c = k then some c else none := by
  unfold getChild
  rw [List.find?_append]
  cases h : List.find? (fun c => nodeKey c == k) cs with
  | some d => simp
  | none =>
    by_cases hk : nodeKey c = k <;> simp [List.find?_cons, hk]

theorem replaceHit_keys {e : String} {p : Bool} (he : isParam e = some p) (c' : node)
    (hc' : nodeKey c' = segKey e) (cs : List node)
    (hcs : ∀ c ∈ cs, isParam c.name = some c.param) :
    (replaceHit e p c' cs).map nodeKey = cs.map nodeKey := by
  induction cs with
  | nil => rfl
  | cons c cs ih =>
    have h1 := findHit_eq_key he (hcs c (List.mem_cons_self _ _))
    unfold replaceHit
    by_cases hk : nodeKey c = segKey e
    · simp [h1, hk, hc']
    · simp [h1, hk, ih (fun c hc => hcs c (List.mem_cons_of_mem _ hc))]

theorem replaceHit_mem {e : String} {p : Bool} (c' : node) (cs : List node) {x : node}
    (hx : x ∈ replaceHit e p c' cs) : x = c' ∨ x ∈ cs := by
  induction cs with
  | nil => simp [replaceHit] at hx
  | cons c cs ih =>
    unfold replaceHit at hx
    split at hx
    · rcases List.mem_cons.1 hx with h | h
      · exact Or.inl h
      · exact Or.inr (List.mem_cons_of_mem _ h)
    · rcases List.mem_cons.1 hx with h | h
      · exact Or.inr (h ▸ List.mem_cons_self _ _)
      · rcases ih h with h | h
        · exact Or.inl h
        · exact Or.inr (List.mem_cons_of_mem _ h)

theorem replaceHit_getChild {e : String} {p : Bool} (he : isParam e = some p) (c' : node)
    (hc' : nodeKey c' = segKey e) (cs : List node)
    (hcs : ∀ c ∈ cs, isParam c.name = some c.param) {c : node}
    (hfind : getChild cs (segKey e) = some c) (k : Option String) :
    getChild (replaceHit e p c' cs) k =
      if k = segKey e then some c' else getChild cs k := by
  induction cs with
  | nil => simp [getChild] at hfind
  | cons d cs ih =>
    have h1 := findHit_eq_key he (hcs d (List.mem_cons_self _ _))
    unfold replaceHit
    by_cases hk : nodeKey d = segKey e
    · by_cases hkk : k = segKey e
      · simp [h1, hk, hkk, getChild, List.find?_cons, hc']
      · have hkk' : ¬ segKey e = k := fun h => hkk h.symm
        simp [h1, hk, hkk, hkk', getChild, List.find?_cons, hc']
    · have hfind' : getChild cs (segKey e) = some c := by
        simpa [getChild, List.find?_cons, hk] using hfind
      have ih' := ih (fun c hc => hcs c (List.mem_cons_of_mem _ hc)) hfind'
      by_cases hkk : k = segKey e
      · subst hkk
        simp only [h1, beq_iff_eq, hk, if_false, Bool.false_eq_true] at ih' ⊢
        simpa [getChild, List.find?_cons, hk] using ih'
      · simp only [h1, beq_iff_eq, hk, if_false, Bool.false_eq_true, hkk] at ih' ⊢
        by_cases hd : nodeKey d = k
        · simp [getChild, List.find?_cons, hd]
        · simpa [getChild, List.find?_cons, hd] using ih'

theorem setMethod_methodsOnly (m : String) (s : Scopes) : MethodsOnly (setMethod m s) :=
  fun _ => ⟨rfl, rfl, rfl⟩

theorem id_methodsOnly : MethodsOnly id := fun _ => ⟨rfl, rfl, rfl⟩

theorem addLoop_shape {upd : node → node} (hu : MethodsOnly upd) {n n' : node} {es : List String}
    (h : addLoop upd n es = some n') : n'.name = n.name ∧ n'.param = n.param := by
  cases es with
  | nil =>
    simp only [addLoop, Option.some.injEq] at h
    subst h
    exact ⟨(hu n).1, (hu n).2.1⟩
  | cons e es =>
    unfold addLoop at h
    split at h
    · cases h
    · split at h
      · split at h
        · cases h
        · cases h; exact ⟨rfl, rfl⟩
      · split at h
        · cases h
        · cases h; exact ⟨rfl, rfl⟩

theorem nodeKey_congr {a b : node} (h1 : a.name = b.name) (h2 : a.param = b.param) :
    nodeKey a = nodeKey b := by
  unfold nodeKey; rw [h1, h2]

theorem WF_fresh (e : String) (p : Bool) : WF (.mk e p [] []) :=
  WF.mk _ (fun c hc => by simp [node.children] at hc) (by simp [node.children])
    (fun c hc => by simp [node.children] at hc)

/-- One step of the loop of `AddPath`, read off the definition. -/
theorem addLoop_cons {upd : node → node} (hu : MethodsOnly upd) {n n' : node} (hn : WF n)
    {e : String} {es : List String} (h : addLoop upd n (e :: es) = some n') :
    ∃ p c c', isParam e = some p ∧ addLoop upd c es = some c' ∧ WF c ∧
      isParam c.name = some c.param ∧ nodeKey c = segKey e ∧ nodeKey c' = segKey e ∧
      isParam c'.name = some c'.param ∧
      n'.name = n.name ∧ n'.param = n.param ∧ n'.Methods = n.Methods ∧
      ((getChild n.children (segKey e) = some c ∧ n'.children = replaceHit e p c' n.children) ∨
       (getChild n.children (segKey e) = none ∧ c = .mk e p [] [] ∧
          n'.children = n.children ++ [c'])) := by
  unfold addLoop at h
  cases he : isParam e with
  | none => simp [he] at h
  | some p =>
    simp only [he] at h
    rw [find_eq_getChild he _ hn.hname] at h
    cases hf : getChild n.children (segKey e) with
    | some c =>
      simp only [hf] at h
      cases hc' : addLoop upd c es with
      | none => simp [hc'] at h
      | some c' =>
        simp only [hc', Option.some.injEq] at h
        subst h
        obtain ⟨hmem, hkey⟩ := getChild_some hf
        obtain ⟨s1, s2⟩ := addLoop_shape hu hc'
        refine ⟨p, c, c', rfl, hc', hn.hrec c hmem, hn.hname c hmem, hkey, ?_, ?_, rfl, rfl, rfl,
          Or.inl ⟨rfl, rfl⟩⟩
        · rw [nodeKey_congr s1 s2, hkey]
        · rw [s1, s2]; exact hn.hname c hmem
    | none =>
      simp only [hf] at h
      cases hc' : addLoop upd (.mk e p [] []) es with
      | none => simp [hc'] at h
      | some c' =>
        simp only [hc', Option.some.injEq] at h
        subst h
        obtain ⟨s1, s2⟩ := addLoop_shape hu hc'
        have hfr : isParam (node.mk e p [] []).name = some (node.mk e p [] []).param := he
        refine ⟨p, _, c', rfl, hc', WF_fresh e p, hfr, nodeKey_eq_segKey hfr, ?_, ?_, rfl, rfl, rfl,
          Or.inr ⟨rfl, rfl, rfl⟩⟩
        · rw [nodeKey_congr s1 s2]; exact nodeKey_eq_segKey hfr
        · rw [s1, s2]; exact hfr

/-- The children after one step: the child with the key of the element is the new one, the
others are as before. -/
theorem addLoop_cons_getChild {n n' c c' : node} (hn : WF n) {e : String} {p : Bool}
    (he : isParam e = some p) (hc' : nodeKey c' = segKey e)
    (h : (getChild n.children (segKey e) = some c ∧ n'.children = replaceHit e p c' n.children) ∨
       (getChild n.children (segKey e) = none ∧ c = .mk e p [] [] ∧
          n'.children = n.children ++ [c'])) (k : Option String) :
    getChild n'.children k = if k = segKey e then some c' else getChild n.children k := by
  rcases h with ⟨hf, hch⟩ | ⟨hf, -, hch⟩
  · rw [hch]; exact replaceHit_getChild he c' hc' _ hn.hname hf k
  · rw [hch, getChild_append_single]
    by_cases hk : k = segKey e
    · subst hk; simp [hf, hc']
    · have hk' : ¬ nodeKey c' = k := fun h => hk (h ▸ hc')
      cases hg : getChild n.children k <;> simp [hk, hk']

theorem addLoop_cons_mem {n n' c c' : node} {e : String} {p : Bool}
    (h : (getChild n.children (segKey e) = some c ∧ n'.children = replaceHit e p c' n.children) ∨
       (getChild n.children (segKey e) = none ∧ c = .mk e p [] [] ∧
          n'.children = n.children ++ [c'])) {x : node} (hx : x ∈ n'.children) :
    x = c' ∨ x ∈ n.children := by
  rcases h with ⟨-, hch⟩ | ⟨-, -, hch⟩
  · rw [hch] at hx; exact replaceHit_mem c' _ hx
  · rw [hch] at hx
    rcases List.mem_append.1 hx with h | h
    · exact Or.inr h
    · exact Or.inl (by simpa using h)

theorem addLoop_cons_keys {n n' c c' : node} (hn : WF n) {e : String} {p : Bool}
    (he : isParam e = some p) (hc' : nodeKey c' = segKey e)
    (h : (getChild n.children (segKey e) = some c ∧ n'.children = replaceHit e p c' n.children) ∨
       (getChild n.children (segKey e) = none ∧ c = .mk e p [] [] ∧
          n'.children = n.children ++ [c'])) :
    (n'.children.map nodeKey).Nodup := by
  rcases h with ⟨-, hch⟩ | ⟨hf, -, hch⟩
  · rw [hch, replaceHit_keys he c' hc' _ hn.hname]; exact hn.hkeys
  · rw [hch, List.map_append, List.nodup_append]
    refine ⟨hn.hkeys, by simp, ?_⟩
    intro a ha hb
    simp only [List.map_cons, List.map_nil, List.mem_singleton] at hb
    subst hb
    rw [hc'] at ha
    exact getChild_none hf ha

theorem addLoop_WF {upd : node → node} (hu : MethodsOnly upd) (es : List String) :
    ∀ {n n' : node}, WF n → addLoop upd n es = some n' → WF n' := by
  induction es with
  | nil =>
    intro n n' hn h
    simp only [addLoop, Option.some.injEq] at h
    subst h
    have hc := (hu n).2.2
    exact WF.mk _ (by rw [hc]; exact hn.hname) (by rw [hc]; exact hn.hkeys)
      (by rw [hc]; exact hn.hrec)
  | cons e es ih =>
    intro n n' hn h
    obtain ⟨p, c, c', he, hadd, hwc, -, -, hkc', hnc', -, -, -, hcase⟩ := addLoop_cons hu hn h
    have hwc' : WF c' := ih hwc hadd
    refine WF.mk _ ?_ (addLoop_cons_keys hn he hkc' hcase) ?_
    · intro x hx
      rcases addLoop_cons_mem hcase hx with rfl | hx
      · exact hnc'
      · exact hn.hname x hx
    · intro x hx
      rcases addLoop_cons_mem hcase hx with rfl | hx
      · exact hwc'
      · exact hn.hrec x hx

theorem walk_cons (n : node) (k : Option String) (ks : List (Option String)) :
    walk n (k :: ks) =
      match getChild n.children k with
      | none => none
      | some c => walk c ks := rfl

theorem walk_congr_children {a b : node} (h : a.children = b.children)
    (k : Option String) (ks : List (Option String)) : walk a (k :: ks) = walk b (k :: ks) := by
  rw [walk_cons, walk_cons, h]

theorem walk_fresh (e : String) (p : Bool) (k : Option String) (ks : List (Option String)) :
    walk (.mk e p [] []) (k :: ks) = none := rfl

/-- After `AddPath` the key of the path leads to the updated end node. -/
theorem addLoop_walk_target {upd : node → node} (hu : MethodsOnly upd) (es : List String) :
    ∀ {n n' : node}, WF n → addLoop upd n es = some n' →
      ∃ t, walk n' (es.map segKey) = some (upd t) ∧
        (walk n (es.map segKey) = some t ∨
          (walk n (es.map segKey) = none ∧ t.Methods = [])) := by
  induction es with
  | nil =>
    intro n n' _ h
    simp only [addLoop, Option.some.injEq] at h
    subst h
    exact ⟨n, rfl, Or.inl rfl⟩
  | cons e es ih =>
    intro n n' hn h
    obtain ⟨p, c, c', he, hadd, hwc, -, -, hkc', -, -, -, -, hcase⟩ := addLoop_cons hu hn h
    obtain ⟨t, ht, hold⟩ := ih hwc hadd
    refine ⟨t, ?_, ?_⟩
    · rw [List.map_cons, walk_cons, addLoop_cons_getChild hn he hkc' hcase]
      simpa using ht
    · rw [List.map_cons, walk_cons]
      rcases hcase with ⟨hf, -⟩ | ⟨hf, hfresh, -⟩
      · rw [hf]; exact hold
      · rw [hf]
        right
        refine ⟨rfl, ?_⟩
        subst hfresh
        rcases hold with hold | ⟨-, hm⟩
        · cases es with
          | nil =>
            simp only [List.map_nil, walk, Option.some.injEq] at hold
            subst hold; rfl
          | cons e2 es2 => rw [List.map_cons, walk_fresh] at hold; cases hold
        · exact hm

theorem methodsAt_cons (n : node) (k : Option String) (ks : List (Option String)) :
    methodsAt n (k :: ks) =
      match getChild n.children k with
      | none => []
      | some c => methodsAt c ks := by
  unfold methodsAt
  rw [walk_cons]
  cases getChild n.children k <;> rfl

theorem methodsAt_fresh (e : String) (p : Bool) (ks : List (Option String)) :
    methodsAt (.mk e p [] []) ks = [] := by
  cases ks <;> rfl

/-- After `AddPath` the methods stored under every other key are as before. -/
theorem addLoop_methodsAt_frame {upd : node → node} (hu : MethodsOnly upd) (es : List String) :
    ∀ {n n' : node}, WF n → addLoop upd n es = some n' →
      ∀ ks, ks ≠ es.map segKey → methodsAt n' ks = methodsAt n ks := by
  induction es with
  | nil =>
    intro n n' _ h ks hks
    simp only [addLoop, Option.some.injEq] at h
    subst h
    cases ks with
    | nil => exact absurd rfl hks
    | cons k ks =>
      unfold methodsAt
      rw [walk_congr_children (hu n).2.2]
  | cons e es ih =>
    intro n n' hn h ks hks
    obtain ⟨p, c, c', he, hadd, hwc, -, -, hkc', -, -, -, hm, hcase⟩ := addLoop_cons hu hn h
    cases ks with
    | nil => exact hm
    | cons k ks =>
      rw [methodsAt_cons, methodsAt_cons, addLoop_cons_getChild hn he hkc' hcase]
      by_cases hk : k = segKey e
      · subst hk
        have hks' : ks ≠ es.map segKey := fun h => hks (by rw [h, List.map_cons])
        simp only [if_true]
        rw [ih hwc hadd ks hks']
        rcases hcase with ⟨hf, -⟩ | ⟨hf, hfresh, -⟩
        · rw [hf]
        · rw [hf, hfresh, methodsAt_fresh]
      · simp only [hk, if_false]

/-- After `AddPath` every key that leads to a node led to one before or is a prefix of the key
of the added path. -/
theorem addLoop_walk_reach {upd : node → node} (hu : MethodsOnly upd) (es : List String) :
    ∀ {n n' : node}, WF n → addLoop upd n es = some n' →
      ∀ ks, (walk n' ks).isSome = true →
        (walk n ks).isSome = true ∨ ks <+: es.map segKey := by
  induction es with
  | nil =>
    intro n n' _ h ks hks
    simp only [addLoop, Option.some.injEq] at h
    subst h
    cases ks with
    | nil => exact Or.inl rfl
    | cons k ks =>
      rw [walk_congr_children (hu n).2.2] at hks
      exact Or.inl hks
  | cons e es ih =>
    intro n n' hn h ks hks
    obtain ⟨p, c, c', he, hadd, hwc, -, -, hkc', -, -, -, -, hcase⟩ := addLoop_cons hu hn h
    cases ks with
    | nil => exact Or.inl rfl
    | cons k ks =>
      rw [walk_cons, addLoop_cons_getChild hn he hkc' hcase] at hks
      rw [walk_cons]
      by_cases hk : k = segKey e
      · subst hk
        simp only [if_true] at hks
        rcases ih hwc hadd ks hks with h1 | h1
        · rcases hcase with ⟨hf, -⟩ | ⟨hf, hfresh, -⟩
          · left; rw [hf]; exact h1
          · right
            subst hfresh
            cases ks with
            | nil => simp [List.map_cons]
            | cons k2 ks2 => rw [walk_fresh] at h1; cases h1
        · right
          rw [List.map_cons]
          exact (List.prefix_cons_inj _).2 h1
      · simp only [hk, if_false] at hks
        exact Or.inl hks

/-- The loop of `nodes.match` returns the first node with the name; without one it returns the
last parameter node, or else the initial `r`. -/
theorem matchLoop_spec (name : String) (ns : List node) (r : Option node) :
    matchLoop name ns r =
      match ns.find? (fun c => c.name == name) with
      | some c => some c
      | none =>
        match (ns.filter (fun c => c.param)).getLast? with
        | some p => some p
        | none => r := by
  induction ns generalizing r with
  | nil => rfl
  | cons n ns ih =>
    unfold matchLoop
    by_cases hn : n.name = name
    · simp [hn]
    · rw [if_neg hn, ih]
      have hn' : (n.name == name) = false := by simpa using hn
      simp only [List.find?_cons, hn']
      cases hf : List.find? (fun c => c.name == name) ns with
      | some c => rfl
      | none =>
        by_cases hp : n.param = true
        · simp only [hp, if_true, List.filter_cons]
          cases hl : (ns.filter (fun c => c.param)) with
          | nil => simp
          | cons a l =>
            cases h2 : (a :: l).getLast? with
            | none => simp [List.getLast?_eq_none_iff] at h2
            | some b => simp [List.getLast?_cons_cons, h2]
        · simp only [hp, if_false, List.filter_cons, Bool.false_eq_true]

theorem nodes_match_spec (ns : List node) (name : String) :
    nodes_match ns name =
      match ns.find? (fun c => c.name == name) with
      | some c => some c
      | none => (ns.filter (fun c => c.param)).getLast? := by
  unfold nodes_match
  rw [matchLoop_spec]
  cases ns.find? (fun c => c.name == name) with
  | some c => rfl
  | none => cases (ns.filter (fun c => c.param)).getLast? <;> rfl

/-- In a well-formed child list `nodes.match` returns the child with key `k` when the element is
the static name `k`, or when `k` is the parameter key and no static child has the element as its
name. -/
theorem match_of_getChild {cs : List node} (hname : ∀ c ∈ cs, isParam c.name = some c.param)
    (hkeys : (cs.map nodeKey).Nodup) {k : Option String} {t : node} {e : String}
    (hget : getChild cs k = some t)
    (hcompat : k = some e ∨ (k = none ∧ ∀ c ∈ cs, c.name = e → c.param = true)) :
    nodes_match cs e = some t := by
  obtain ⟨htm, htk⟩ := getChild_some hget
  rw [nodes_match_spec]
  cases hf : cs.find? (fun c => c.name == e) with
  | some c =>
    have hcm : c ∈ cs := List.mem_of_find?_eq_some hf
    have hce : c.name = e := by simpa using List.find?_some hf
    simp only
    congr 1
    apply List.inj_on_of_nodup_map hkeys hcm htm
    rw [htk]
    rcases hcompat with hk | ⟨hk, hall⟩
    · subst hk
      have htp : t.param = false ∧ t.name = e := by
        unfold nodeKey at htk
        by_cases hp : t.param = true
        · simp [hp] at htk
        · simpa [hp] using htk
      have h1 := hname t htm
      have h2 := hname c hcm
      rw [hce] at h2
      rw [htp.2, h2, htp.1] at h1
      have hcp : c.param = false := Option.some.inj h1
      unfold nodeKey
      simp [hcp, hce]
    · subst hk
      have := hall c hcm hce
      unfold nodeKey
      simp [this]
  | none =>
    simp only
    have hnone := List.find?_eq_none.1 hf
    rcases hcompat with hk | ⟨hk, -⟩
    · subst hk
      exfalso
      have htn : t.name = e := by
        unfold nodeKey at htk
        by_cases hp : t.param = true
        · simp [hp] at htk
        · simpa [hp] using htk
      have := hnone t htm
      simp [htn] at this
    · subst hk
      have htp : t.param = true := by
        unfold nodeKey at htk
        by_cases hp : t.param = true
        · exact hp
        · simp [hp] at htk
      have hmem : t ∈ cs.filter (fun c => c.param) := List.mem_filter.2 ⟨htm, htp⟩
      cases hl : (cs.filter (fun c => c.param)).getLast? with
      | none =>
        rw [List.getLast?_eq_none_iff] at hl
        rw [hl] at hmem
        cases hmem
      | some p =>
        have hpm : p ∈ cs.filter (fun c => c.param) := List.mem_of_getLast?_eq_some hl
        obtain ⟨hpc, hpp⟩ := List.mem_filter.1 hpm
        congr 1
        apply List.inj_on_of_nodup_map hkeys hpc htm
        rw [htk]
        unfold nodeKey
        simp [hpp]

theorem findLoop_of_walk : ∀ (ks : List (Option String)) (es : List String) {n t : node},
    WF n → walk n ks = some t → Follows n ks es → findLoop n es = .ok t := by
  intro ks
  induction ks with
  | nil =>
    intro es n t _ hw hf
    cases es with
    | nil => simp only [walk, Option.some.injEq] at hw; subst hw; rfl
    | cons e es => exact absurd hf (by simp [Follows])
  | cons k ks ih =>
    intro es n t hn hw hf
    cases es with
    | nil => exact absurd hf (by simp [Follows])
    | cons e es =>
      rw [walk_cons] at hw
      cases hg : getChild n.children k with
      | none => rw [hg] at hw; cases hw
      | some c =>
        rw [hg] at hw
        obtain ⟨hc, hrest⟩ := hf
        have hm := match_of_getChild hn.hname hn.hkeys hg hc
        unfold findLoop
        rw [hm]
        exact ih es (hn.hrec c (getChild_some hg).1) hw (hrest c hg)

end path

theorem mapGet_mapSet {V : Type} (m : GoMap V) (k : String) (v : V) (k' : String) :
    mapGet (mapSet m k v) k' = if k = k' then some v else mapGet m k' := by
  induction m with
  | nil => simp [mapSet, mapGet]
  | cons kv m ih =>
    obtain ⟨a, w⟩ := kv
    by_cases h : a = k
    · subst h
      by_cases h' : a = k' <;> simp [mapSet, mapGet, h']
    · by_cases h' : a = k'
      · subst h'
        have : ¬ k = a := fun e => h e.symm
        simp [mapSet, mapGet, h, this]
      · simp [mapSet, mapGet, h, h', ih]

theorem mapKeys_mapSet_mem {V : Type} (m : GoMap V) (k : String) (v : V) (k' : String) :
    k' ∈ mapKeys (mapSet m k v) ↔ k' = k ∨ k' ∈ mapKeys m := by
  induction m with
  | nil => simp [mapSet, mapKeys]
  | cons kv m ih =>
    obtain ⟨a, w⟩ := kv
    by_cases h : a = k
    · subst h
      simp [mapSet, mapKeys]
    · simp only [mapKeys] at ih
      simp only [mapSet, h, if_false, mapKeys, List.map_cons, List.mem_cons, ih]
      tauto

theorem mapKeys_mapSet_nodup {V : Type} (m : GoMap V) (k : String) (v : V)
    (h : (mapKeys m).Nodup) : (mapKeys (mapSet m k v)).Nodup := by
  induction m with
  | nil => simp [mapSet, mapKeys]
  | cons kv m ih =>
    obtain ⟨a, w⟩ := kv
    by_cases hk : a = k
    · subst hk
      simpa [mapSet, mapKeys] using h
    · have h' : a ∉ mapKeys m ∧ (mapKeys m).Nodup := by
        simpa [mapKeys] using h
      have hmem := mapKeys_mapSet_mem m k v a
      have : a ∉ mapKeys (mapSet m k v) := by
        rw [hmem]; rintro (e | e)
        · exact hk e
        · exact h'.1 e
      simp only [mapSet, hk, if_false, mapKeys, List.map_cons, List.nodup_cons]
      exact ⟨this, ih h'.2⟩

theorem mapGet_isSome_iff {V : Type} (m : GoMap V) (k : String) :
    (mapGet m k).isSome = true ↔ k ∈ mapKeys m := by
  induction m with
  | nil => simp [mapGet, mapKeys]
  | cons kv m ih =>
    obtain ⟨k', v⟩ := kv
    by_cases h : k' = k
    · simp [mapGet, mapKeys, h]
    · have h' : ¬ k = k' := fun e => h e.symm
      simpa [mapGet, mapKeys, h, h'] using ih

theorem mapGet_mapDelete {V : Type} (m : GoMap V) (k k' : String) :
    mapGet (mapDelete m k) k' = if k = k' then none else mapGet m k' := by
  induction m with
  | nil => simp [mapDelete, mapGet]
  | cons kv m ih =>
    obtain ⟨a, w⟩ := kv
    unfold mapDelete at ih ⊢
    by_cases h : a = k
    · subst h
      by_cases h' : a = k'
      · simpa [List.filter_cons, mapGet, h'] using ih
      · simpa [List.filter_cons, mapGet, h'] using ih
    · by_cases h' : a = k'
      · subst h'
        have : ¬ k = a := fun e => h e.symm
        simp [List.filter_cons, mapGet, h, this]
      · simp [List.filter_cons, mapGet, h, h', ih]

namespace path

theorem Find_eq (idx : Index) (path : String) : Find idx path = findLoop idx.root (split path) := by
  unfold Find
  simp only
  cases h : findLoop idx.root (split path) with
  | error e => rfl
  | ok n =>
    simp only
    rw [if_neg]
    omega

theorem add_spec {idx idx' : Index} {m p : String} {s : Scopes} (hw : WF idx.root)
    (h : AddMethodPathScopes idx m p s = some idx') :
    WF idx'.root ∧
    (∀ ks, methodsAt idx'.root ks =
      if pathKey p = ks then mapSet (methodsAt idx.root ks) m s else methodsAt idx.root ks) ∧
    (∀ ks, (walk idx'.root ks).isSome = true →
      (walk idx.root ks).isSome = true ∨ ks <+: pathKey p) := by
  unfold AddMethodPathScopes at h
  cases ha : addLoop (setMethod m s) idx.root (split p) with
  | none => simp [ha] at h
  | some r =>
    simp only [ha, Option.map_some', Option.some.injEq] at h
    subst h
    have hu := setMethod_methodsOnly m s
    refine ⟨addLoop_WF hu _ hw ha, ?_, addLoop_walk_reach hu _ hw ha⟩
    intro ks
    by_cases hk : pathKey p = ks
    · subst hk
      rw [if_pos rfl]
      obtain ⟨t, ht, hold⟩ := addLoop_walk_target hu _ hw ha
      unfold methodsAt pathKey
      rw [ht]
      rcases hold with h1 | ⟨h1, h2⟩
      · rw [h1]; rfl
      · rw [h1]
        show mapSet t.Methods m s = mapSet [] m s
        rw [h2]
    · rw [if_neg hk]
      exact addLoop_methodsAt_frame hu _ hw ha ks (fun e => hk e.symm)

theorem build_spec (ops : List (String × String × Scopes)) :
    ∀ {idx idx' : Index}, WF idx.root → build idx ops = some idx' →
      WF idx'.root ∧
      (∀ ks, methodsAt idx'.root ks = methodsAfter ks (methodsAt idx.root ks) ops) ∧
      (∀ ks, (walk idx'.root ks).isSome = true →
        (walk idx.root ks).isSome = true ∨ ∃ op ∈ ops, ks <+: pathKey op.2.1) := by
  induction ops with
  | nil =>
    intro idx idx' hw h
    simp only [build, Option.some.injEq] at h
    subst h
    exact ⟨hw, fun _ => rfl, fun _ h => Or.inl h⟩
  | cons op ops ih =>
    intro idx idx' hw h
    obtain ⟨m, p, s⟩ := op
    unfold build at h
    cases ha : AddMethodPathScopes idx m p s with
    | none => simp [ha] at h
    | some idx1 =>
      simp only [ha] at h
      obtain ⟨hw1, hm1, hr1⟩ := add_spec hw ha
      obtain ⟨hw2, hm2, hr2⟩ := ih hw1 h
      refine ⟨hw2, ?_, ?_⟩
      · intro ks
        rw [hm2, hm1]
        rfl
      · intro ks hks
        rcases hr2 ks hks with h1 | ⟨op, hop, hpre⟩
        · rcases hr1 ks h1 with h0 | h0
          · exact Or.inl h0
          · exact Or.inr ⟨(m, p, s), List.mem_cons_self _ _, h0⟩
        · exact Or.inr ⟨op, List.mem_cons_of_mem _ hop, hpre⟩

theorem WF_NewIndex : WF NewIndex.root :=
  WF.mk _ (fun c hc => by simp [NewIndex, node.children] at hc) (by simp [NewIndex, node.children])
    (fun c hc => by simp [NewIndex, node.children] at hc)

theorem methodsAfter_append (ks : List (Option String)) (acc : GoMap Scopes)
    (l1 l2 : List (String × String × Scopes)) :
    methodsAfter ks acc (l1 ++ l2) = methodsAfter ks (methodsAfter ks acc l1) l2 := by
  induction l1 generalizing acc with
  | nil => rfl
  | cons op l1 ih =>
    obtain ⟨m, p, s⟩ := op
    simp only [List.cons_append, methodsAfter]
    exact ih _

theorem methodsAfter_get_frame (ks : List (Option String)) (m : String)
    (post : List (String × String × Scopes)) :
    ∀ acc, (∀ op ∈ post, op.1 = m → pathKey op.2.1 ≠ ks) →
      mapGet (methodsAfter ks acc post) m = mapGet acc m := by
  induction post with
  | nil => intro acc _; rfl
  | cons op post ih =>
    intro acc h
    obtain ⟨m', p, s⟩ := op
    simp only [methodsAfter]
    rw [ih _ (fun op hop => h op (List.mem_cons_of_mem _ hop))]
    by_cases hk : pathKey p = ks
    · have hm : ¬ m' = m := fun e => h (m', p, s) (List.mem_cons_self _ _) e hk
      rw [if_pos hk, mapGet_mapSet, if_neg hm]
    · rw [if_neg hk]

theorem methodsAfter_keys (ks : List (Option String)) (ops : List (String × String × Scopes)) :
    ∀ acc, (mapKeys acc).Nodup →
      (mapKeys (methodsAfter ks acc ops)).Nodup ∧
      ∀ m, m ∈ mapKeys (methodsAfter ks acc ops) ↔
        m ∈ mapKeys acc ∨ ∃ op ∈ ops, op.1 = m ∧ pathKey op.2.1 = ks := by
  induction ops with
  | nil => intro acc h; exact ⟨h, fun m => by simp [methodsAfter]⟩
  | cons op ops ih =>
    intro acc h
    obtain ⟨m', p, s⟩ := op
    simp only [methodsAfter]
    by_cases hk : pathKey p = ks
    · rw [if_pos hk]
      obtain ⟨h1, h2⟩ := ih (mapSet acc m' s) (mapKeys_mapSet_nodup _ _ _ h)
      refine ⟨h1, fun m => ?_⟩
      rw [h2, mapKeys_mapSet_mem]
      constructor
      · rintro ((rfl | h3) | ⟨op, hop, h3⟩)
        · exact Or.inr ⟨(m, p, s), List.mem_cons_self _ _, rfl, hk⟩
        · exact Or.inl h3
        · exact Or.inr ⟨op, List.mem_cons_of_mem _ hop, h3⟩
      · rintro (h3 | ⟨op, hop, h3, h4⟩)
        · exact Or.inl (Or.inr h3)
        · rcases List.mem_cons.1 hop with rfl | hop
          · exact Or.inl (Or.inl h3.symm)
          · exact Or.inr ⟨op, hop, h3, h4⟩
    · rw [if_neg hk]
      obtain ⟨h1, h2⟩ := ih acc h
      refine ⟨h1, fun m => ?_⟩
      rw [h2]
      constructor
      · rintro (h3 | ⟨op, hop, h3⟩)
        · exact Or.inl h3
        · exact Or.inr ⟨op, List.mem_cons_of_mem _ hop, h3⟩
      · rintro (h3 | ⟨op, hop, h3, h4⟩)
        · exact Or.inl h3
        · rcases List.mem_cons.1 hop with rfl | hop
          · exact absurd h4 hk
          · exact Or.inr ⟨op, hop, h3, h4⟩

theorem walk_WF : ∀ (ks : List (Option String)) {n t : node}, WF n → walk n ks = some t → WF t := by
  intro ks
  induction ks with
  | nil => intro n t hn h; simp only [walk, Option.some.injEq] at h; subst h; exact hn
  | cons k ks ih =>
    intro n t hn h
    rw [walk_cons] at h
    cases hg : getChild n.children k with
    | none => rw [hg] at h; cases h
    | some c => rw [hg] at h; exact ih (hn.hrec c (getChild_some hg).1) h

theorem walk_append : ∀ (ks ks' : List (Option String)) {n t : node}, walk n ks = some t →
    walk n (ks ++ ks') = walk t ks' := by
  intro ks
  induction ks with
  | nil => intro ks' n t h; simp only [walk, Option.some.injEq] at h; subst h; rfl
  | cons k ks ih =>
    intro ks' n t h
    rw [walk_cons] at h
    rw [List.cons_append, walk_cons]
    cases hg : getChild n.children k with
    | none => rw [hg] at h; cases h
    | some c => rw [hg] at h; exact ih ks' h

theorem segKey_cases (e : String) :
    (segKey e = some e ∧ isParam e ≠ some true) ∨ (segKey e = none ∧ isParam e = some true) := by
  unfold segKey
  cases h : isParam e with
  | none => left; simp
  | some b => cases b <;> simp

/-- A path follows its own key in a well-formed tree. -/
theorem follows_self : ∀ (es : List String) {n : node}, WF n →
    (walk n (es.map segKey)).isSome = true → Follows n (es.map segKey) es := by
  intro es
  induction es with
  | nil => intro n _ _; trivial
  | cons e es ih =>
    intro n hn hw
    rw [List.map_cons, walk_cons] at hw
    refine ⟨?_, ?_⟩
    · rcases segKey_cases e with ⟨h, -⟩ | ⟨h, hp⟩
      · exact Or.inl h
      · refine Or.inr ⟨h, fun c hc hce => ?_⟩
        have := hn.hname c hc
        rw [hce, hp] at this
        exact (Option.some.inj this).symm
    · intro c hc
      rw [hc] at hw
      exact ih (hn.hrec c (getChild_some hc).1) hw

/-- A concrete path that matches a template without being hidden follows the template's key. -/
theorem follows_of_matchesTemplate {ops : List (String × String × Scopes)} {root : node}
    (hreach : ∀ ks, ks ≠ [] → (walk root ks).isSome = true → ∃ op ∈ ops, ks <+: pathKey op.2.1) :
    ∀ (es xs : List String) (pre : List (Option String)) {n : node}, WF n →
      walk root pre = some n → (walk n (es.map segKey)).isSome = true →
      MatchesTemplate ops pre es xs → Follows n (es.map segKey) xs := by
  intro es
  induction es with
  | nil =>
    intro xs pre n _ _ _ hm
    cases xs with
    | nil => trivial
    | cons x xs => exact absurd hm (by simp [MatchesTemplate])
  | cons e es ih =>
    intro xs pre n hn hpre hw hm
    cases xs with
    | nil => exact absurd hm (by simp [MatchesTemplate])
    | cons x xs =>
      obtain ⟨hhead, htail⟩ := hm
      rw [List.map_cons, walk_cons] at hw
      refine ⟨?_, ?_⟩
      · rcases hhead with h | ⟨h, hno⟩
        · exact Or.inl h
        · refine Or.inr ⟨h, fun c hc hcx => ?_⟩
          by_contra hcp
          have hkey : nodeKey c = some x := by
            unfold nodeKey; simp [hcp, hcx]
          have hget := getChild_of_mem hn.hkeys hc
          rw [hkey] at hget
          have hwalk : walk root (pre ++ [some x]) = some c := by
            rw [walk_append pre [some x] hpre, walk_cons, hget]; rfl
          obtain ⟨op, hop, hpref⟩ := hreach (pre ++ [some x]) (by simp) (by rw [hwalk]; rfl)
          exact hno op hop hpref
      · intro c hc
        rw [hc] at hw
        have hwalk : walk root (pre ++ [segKey e]) = some c := by
          rw [walk_append pre [segKey e] hpre, walk_cons, hc]; rfl
        exact ih xs (pre ++ [segKey e]) (hn.hrec c (getChild_some hc).1) hwalk hw htail

theorem methodsAt_NewIndex (ks : List (Option String)) : methodsAt NewIndex.root ks = [] :=
  methodsAt_fresh "" false ks

theorem walk_NewIndex (ks : List (Option String)) (h : ks ≠ []) :
    (walk NewIndex.root ks).isSome = false := by
  cases ks with
  | nil => exact absurd rfl h
  | cons k ks => rfl

/-- What a successful build from the empty index yields. -/
theorem build_NewIndex {ops : List (String × String × Scopes)} {idx : Index}
    (hb : build NewIndex ops = some idx) :
    WF idx.root ∧
    (∀ ks, methodsAt idx.root ks = methodsAfter ks [] ops) ∧
    (∀ ks, ks ≠ [] → (walk idx.root ks).isSome = true → ∃ op ∈ ops, ks <+: pathKey op.2.1) := by
  obtain ⟨h1, h2, h3⟩ := build_spec ops WF_NewIndex hb
  refine ⟨h1, fun ks => by rw [h2, methodsAt_NewIndex], fun ks hks hw => ?_⟩
  rcases h3 ks hw with h | h
  · rw [walk_NewIndex ks hks] at h; cases h
  · exact h

theorem walk_of_methodsAt {n : node} {ks : List (Option String)} {m : String}
    (h : m ∈ mapKeys (methodsAt n ks)) : ∃ t, walk n ks = some t ∧ t.Methods = methodsAt n ks := by
  unfold methodsAt at h ⊢
  cases hw : walk n ks with
  | none => rw [hw] at h; simp [mapKeys] at h
  | some t => exact ⟨t, rfl, rfl⟩

end path

theorem stringsSplitAux_length (sep : List Char) :
    ∀ (l : List Char) (skip : Nat) (cur : List Char),
      ∀ s ∈ stringsSplitAux sep l skip cur, s.length ≤ l.length + cur.length := by
  intro l
  induction l with
  | nil =>
    intro skip cur s hs
    simp only [stringsSplitAux, List.mem_singleton] at hs
    subst hs
    simp [String.length]
  | cons c cs ih =>
    intro skip cur s hs
    cases skip with
    | succ k =>
      simp only [stringsSplitAux] at hs
      have := ih k cur s hs
      simp only [List.length_cons]
      omega
    | zero =>
      simp only [stringsSplitAux] at hs
      split at hs
      · rcases List.mem_cons.1 hs with h | h
        · subst h
          simp [String.length]
        · have := ih _ [] s h
          simp only [List.length_cons, List.length_nil] at this ⊢
          omega
      · have := ih 0 (c :: cur) s hs
        simp only [List.length_cons] at this ⊢
        omega

theorem stringsSplit_length (s sep : String) : ∀ e ∈ stringsSplit s sep, e.length ≤ s.length := by
  intro e he
  have := stringsSplitAux_length sep.data s.data 0 [] e he
  simp only [String.length, List.length_nil, Nat.add_zero] at this ⊢
  exact this

namespace path

theorem split_length (p : String) : ∀ e ∈ split p, e.length ≤ p.length := by
  intro e he
  unfold split at he
  split at he
  · rename_i rest hp
    have := stringsSplit_length _ _ e he
    have hl : p.length = rest.length + 1 := by
      simp [String.length, hp]
    simp only [String.length] at this hl ⊢
    omega
  · exact stringsSplit_length _ _ e he

/-- The two error texts of `FindScopes` differ for the elements of the path looked up. -/
theorem errors_differ (method p e : String) (he : e.length ≤ p.length) :
    "no match for " ++ e ≠ "no " ++ method ++ " " ++ p ++ " in index" := by
  intro h
  have hd := congrArg String.data h
  simp only [String.data_append] at hd
  have hlen := congrArg List.length hd
  simp only [List.length_append] at hlen
  have h1 : "no match for ".data.length = 13 := by decide
  have h2 : "no ".data.length = 3 := by decide
  have h3 : " ".data.length = 1 := by decide
  have h4 : " in index".data.length = 9 := by decide
  rw [h1, h2, h3, h4] at hlen
  simp only [String.length] at he
  have hm : method.data = [] := List.length_eq_zero.1 (by omega)
  rw [hm] at hd
  simp at hd

theorem nodes_match_none_iff (ns : List node) (e : String) :
    nodes_match ns e = none ↔ ∀ c ∈ ns, c.name ≠ e ∧ c.param = false := by
  rw [nodes_match_spec]
  constructor
  · intro h
    cases hf : ns.find? (fun c => c.name == e) with
    | some c => rw [hf] at h; cases h
    | none =>
      rw [hf] at h
      simp only [List.getLast?_eq_none_iff] at h
      intro c hc
      refine ⟨?_, ?_⟩
      · have := List.find?_eq_none.1 hf c hc
        simpa using this
      · by_contra hp
        have : c ∈ ns.filter (fun c => c.param) := List.mem_filter.2 ⟨hc, by simpa using hp⟩
        rw [h] at this
        cases this
  · intro h
    have hf : ns.find? (fun c => c.name == e) = none := by
      rw [List.find?_eq_none]
      intro c hc
      simpa using (h c hc).1
    rw [hf]
    simp only [List.getLast?_eq_none_iff, List.filter_eq_nil_iff]
    intro c hc
    simp [(h c hc).2]

theorem findLoop_append (pre rest : List String) : ∀ n : node,
    findLoop n (pre ++ rest) =
      match findLoop n pre with
      | .ok m => findLoop m rest
      | .error err => .error err := by
  induction pre with
  | nil => intro n; rfl
  | cons e pre ih =>
    intro n
    simp only [List.cons_append, findLoop]
    cases nodes_match n.children e with
    | none => rfl
    | some c => exact ih c

theorem findLoop_total (es : List String) : ∀ n : node,
    (∃ t, findLoop n es = .ok t) ∨
    ∃ pre e post m, es = pre ++ e :: post ∧ findLoop n pre = .ok m ∧
      nodes_match m.children e = none ∧ findLoop n es = .error ("no match for " ++ e) := by
  induction es with
  | nil => intro n; exact Or.inl ⟨n, rfl⟩
  | cons e es ih =>
    intro n
    cases hm : nodes_match n.children e with
    | none =>
      right
      exact ⟨[], e, es, n, rfl, rfl, hm, by simp only [findLoop, hm]⟩
    | some c =>
      rcases ih c with ⟨t, ht⟩ | ⟨pre, e', post, m, h1, h2, h3, h4⟩
      · left; exact ⟨t, by simp only [findLoop, hm, ht]⟩
      · right
        refine ⟨e :: pre, e', post, m, by rw [h1]; rfl, ?_, h3, ?_⟩
        · simp only [findLoop, hm, h2]
        · simp only [findLoop, hm, h4]

end path

namespace mw

theorem scopesLoop_iff (allowed : GoMap Unit) (required : List String) :
    scopesLoop allowed required = true ↔ ∀ r ∈ required, r ∈ mapKeys allowed := by
  induction required with
  | nil => simp [scopesLoop]
  | cons r rs ih =>
    by_cases h : (mapGet allowed r).isSome = true
    · have hr := (mapGet_isSome_iff allowed r).1 h
      simp [scopesLoop, h, ih, hr]
    · have hr : r ∉ mapKeys allowed := fun hm => h ((mapGet_isSome_iff allowed r).2 hm)
      simp [scopesLoop, h, hr]

theorem wrap64_of_range {x : Int} (h1 : -2 ^ 63 ≤ x) (h2 : x < 2 ^ 63) : wrap64 x = x := by
  unfold wrap64
  have e63 : (2 : Int) ^ 63 = 9223372036854775808 := by norm_num
  have e64 : (2 : Int) ^ 64 = 18446744073709551616 := by norm_num
  rw [e63] at h1 h2 ⊢
  rw [e64]
  omega

theorem gcPass_loop (now : Int) (k : String) (l : List (String × TokeninfoResponse)) :
    ∀ d : GoMap TokeninfoResponse,
      mapGet (l.foldl (fun d kv => if sweepable kv.2 now then mapDelete d kv.1 else d) d) k =
        if l.any (fun kv => kv.1 == k && sweepable kv.2 now) then none else mapGet d k := by
  induction l with
  | nil => intro d; rfl
  | cons kv l ih =>
    intro d
    obtain ⟨a, v⟩ := kv
    simp only [List.foldl_cons, List.any_cons]
    rw [ih]
    by_cases hs : sweepable v now = true
    · by_cases ha : a = k
      · subst ha; simp [hs, mapGet_mapDelete]
      · have ha' : (a == k) = false := by simpa using ha
        simp only [hs, if_true, mapGet_mapDelete, ha, if_false, ha', Bool.false_and,
          Bool.false_or]
    · have hs' : sweepable v now = false := by simpa using hs
      simp only [hs', Bool.and_false, Bool.false_or, if_false, Bool.false_eq_true]

theorem any_key_of_nodup (now : Int) (k : String) (d : GoMap TokeninfoResponse)
    (hnd : (mapKeys d).Nodup) :
    d.any (fun kv => kv.1 == k && sweepable kv.2 now) =
      match mapGet d k with
      | some v => sweepable v now
      | none => false := by
  induction d with
  | nil => rfl
  | cons kv d ih =>
    obtain ⟨a, v⟩ := kv
    have hnd' : a ∉ mapKeys d ∧ (mapKeys d).Nodup := by simpa [mapKeys] using hnd
    by_cases ha : a = k
    · subst ha
      have hrest : d.any (fun kv => kv.1 == a && sweepable kv.2 now) = false := by
        rw [List.any_eq_false]
        intro kv hkv
        have : kv.1 ≠ a := fun e => hnd'.1 (e ▸ List.mem_map_of_mem Prod.fst hkv)
        simp [this]
      simp [List.any_cons, mapGet, hrest]
    · simp [List.any_cons, mapGet, ha, ih hnd'.2]

/-- One pass of the sweeper keeps exactly the entries that do not test positive, with their
values. -/
theorem gcPass_get (c : tokeninfoCache) (now : Int) (hnd : (mapKeys c.data).Nodup) (k : String) :
    (gcPass c now).get k = (c.get k).filter (fun v => !sweepable v now) := by
  unfold gcPass tokeninfoCache.get
  rw [gcPass_loop, any_key_of_nodup now k c.data hnd]
  cases hg : mapGet c.data k with
  | none => simp
  | some v => cases hs : sweepable v now <;> simp [Option.filter, hs]

/-- As long as `ExpiresIn` seconds fit a 64 bit duration, the test of the sweeper is
`Timestamp + ExpiresIn seconds < now`. -/
theorem sweepable_of_range (v : TokeninfoResponse) (now : Int)
    (h1 : -2 ^ 63 ≤ v.ExpiresIn * Second) (h2 : v.ExpiresIn * Second < 2 ^ 63) :
    sweepable v now = decide (v.Timestamp + v.ExpiresIn * Second < now) := by
  unfold sweepable
  rw [wrap64_of_range h1 h2]

end mw

theorem stringsSplitAux_skip (sep : List Char) (xs rest cur : List Char) :
    stringsSplitAux sep (xs ++ rest) xs.length cur = stringsSplitAux sep rest 0 cur := by
  induction xs with
  | nil => rfl
  | cons x xs ih =>
    simp only [List.cons_append, List.length_cons, stringsSplitAux]
    exact ih

theorem stringsSplitAux_cons_zero (sep : List Char) (c : Char) (cs cur : List Char) :
    stringsSplitAux sep (c :: cs) 0 cur =
      if sep.isPrefixOf (c :: cs) then
        String.mk cur.reverse :: stringsSplitAux sep cs (sep.length - 1) []
      else stringsSplitAux sep cs 0 (c :: cur) := rfl

theorem stringsSplitAux_ne_nil (sep : List Char) :
    ∀ (l : List Char) (skip : Nat) (cur : List Char), stringsSplitAux sep l skip cur ≠ [] := by
  intro l
  induction l with
  | nil => intro skip cur; simp [stringsSplitAux]
  | cons c cs ih =>
    intro skip cur
    cases skip with
    | succ k => simp only [stringsSplitAux]; exact ih k cur
    | zero =>
      simp only [stringsSplitAux]
      split
      · simp
      · exact ih 0 _

theorem stringsSplitAux_no_occurrence (sep : List Char) :
    ∀ (l cur : List Char), ¬ sep <:+: l →
      stringsSplitAux sep l 0 cur = [String.mk (cur.reverse ++ l)] := by
  intro l
  induction l with
  | nil => intro cur _; simp [stringsSplitAux]
  | cons c cs ih =>
    intro cur h
    have hp : sep.isPrefixOf (c :: cs) = false := by
      cases hb : sep.isPrefixOf (c :: cs) with
      | false => rfl
      | true => exact absurd (List.isPrefixOf_iff_prefix.1 hb).isInfix h
    have hcs : ¬ sep <:+: cs := fun hi => h (List.infix_cons hi)
    simp only [stringsSplitAux, hp, if_false, Bool.false_eq_true]
    rw [ih (c :: cur) hcs]
    simp

theorem stringsSplitAux_first (sep : List Char) (hsep : sep ≠ []) (post : List Char) :
    ∀ (pre cur : List Char),
      (∀ pre' post' : List Char, pre ++ sep ++ post = pre' ++ sep ++ post' →
        pre.length ≤ pre'.length) →
      stringsSplitAux sep (pre ++ sep ++ post) 0 cur =
        String.mk (cur.reverse ++ pre) :: stringsSplitAux sep post 0 [] := by
  intro pre
  induction pre with
  | nil =>
    intro cur _
    cases sep with
    | nil => exact absurd rfl hsep
    | cons s ss =>
      have hp : (s :: ss).isPrefixOf (s :: (ss ++ post)) = true :=
        List.isPrefixOf_iff_prefix.2 ⟨post, by simp⟩
      show stringsSplitAux (s :: ss) (s :: (ss ++ post)) 0 cur = _
      rw [stringsSplitAux_cons_zero, if_pos hp]
      simp only [List.length_cons, Nat.add_sub_cancel, List.append_nil]
      rw [stringsSplitAux_skip]
  | cons c pre ih =>
    intro cur hfirst
    have hp : sep.isPrefixOf (c :: (pre ++ sep ++ post)) = false := by
      cases hb : sep.isPrefixOf (c :: (pre ++ sep ++ post)) with
      | false => rfl
      | true =>
        obtain ⟨t, ht⟩ := List.isPrefixOf_iff_prefix.1 hb
        have := hfirst [] t (by simp [ht])
        simp at this
    have hfirst' : ∀ pre' post' : List Char, pre ++ sep ++ post = pre' ++ sep ++ post' →
        pre.length ≤ pre'.length := by
      intro pre' post' h
      have := hfirst (c :: pre') post' (by simp [h])
      simpa using this
    show stringsSplitAux sep (c :: (pre ++ sep ++ post)) 0 cur = _
    rw [stringsSplitAux_cons_zero, hp, if_neg (by simp), ih (c :: cur) hfirst']
    simp

theorem exists_first_occurrence (sep : List Char) :
    ∀ l : List Char, sep <:+: l →
      ∃ pre post, l = pre ++ sep ++ post ∧
        ∀ pre' post' : List Char, l = pre' ++ sep ++ post' → pre.length ≤ pre'.length := by
  intro l
  induction l with
  | nil =>
    intro h
    have : sep = [] := List.eq_nil_of_infix_nil h
    exact ⟨[], [], by simp [this], fun _ _ _ => Nat.zero_le _⟩
  | cons c cs ih =>
    intro h
    by_cases hp : sep <+: c :: cs
    · obtain ⟨t, ht⟩ := hp
      exact ⟨[], t, by simp [ht], fun _ _ _ => Nat.zero_le _⟩
    · have hcs : sep <:+: cs := by
        rcases List.infix_cons_iff.1 h with h1 | h1
        · exact absurd h1 hp
        · exact h1
      obtain ⟨pre, post, hl, hmin⟩ := ih hcs
      refine ⟨c :: pre, post, by simp [hl], ?_⟩
      intro pre' post' h'
      cases pre' with
      | nil => exact absurd ⟨post', by simpa using h'.symm⟩ hp
      | cons d pre'' =>
        simp only [List.cons_append, List.cons.injEq] at h'
        have := hmin pre'' post' h'.2
        simp only [List.length_cons]
        omega

/-- The parts of `strings.Split`: without an occurrence of the separator the text itself, else
the text before the first occurrence, followed by the parts of the text after it. -/
theorem stringsSplit_spec (s sep : String) (hsep : sep.data ≠ []) :
    (¬ Occurs sep s → stringsSplit s sep = [s]) ∧
    (∀ pre post, FirstOccurrence sep s pre post →
      stringsSplit s sep = pre :: stringsSplit post sep) := by
  refine ⟨?_, ?_⟩
  · intro h
    unfold stringsSplit
    rw [stringsSplitAux_no_occurrence sep.data s.data [] h]
    simp
  · rintro pre post ⟨hs, hfirst⟩
    unfold stringsSplit
    rw [hs, stringsSplitAux_first sep.data hsep post.data pre.data [] (by rw [← hs]; exact hfirst)]
    simp

theorem stringsSplit_length_one_iff (s sep : String) (hsep : sep.data ≠ []) :
    (stringsSplit s sep).length = 1 ↔ ¬ Occurs sep s := by
  constructor
  · intro hlen hocc
    obtain ⟨pre, post, hl, hmin⟩ := exists_first_occurrence sep.data s.data hocc
    have hf : FirstOccurrence sep s ⟨pre⟩ ⟨post⟩ := ⟨hl, hmin⟩
    rw [(stringsSplit_spec s sep hsep).2 _ _ hf] at hlen
    have hne : stringsSplit ⟨post⟩ sep ≠ [] := stringsSplitAux_ne_nil _ _ _ _
    cases hsp : stringsSplit ⟨post⟩ sep with
    | nil => exact hne hsp
    | cons a l => rw [hsp] at hlen; simp at hlen
  · intro h
    rw [(stringsSplit_spec s sep hsep).1 h]
    rfl

namespace mw

theorem allowOriginLoop_eq_empty_iff {origin : String} (ho : origin ≠ "") (ao : List String) :
    allowOriginLoop origin ao = "" ↔ ¬ originAllowed origin ao := by
  induction ao with
  | nil => simp [allowOriginLoop, originAllowed]
  | cons o os ih =>
    unfold allowOriginLoop
    by_cases h : o = "*" ∨ o = origin
    · rw [if_pos h]
      constructor
      · intro he
        rcases h with h | h
        · rw [h] at he; exact absurd he (by decide)
        · rw [h] at he; exact absurd he ho
      · intro hn
        exact absurd ⟨o, List.mem_cons_self _ _, h⟩ hn
    · rw [if_neg h, ih]
      constructor
      · rintro hn ⟨o', ho', h'⟩
        rcases List.mem_cons.1 ho' with rfl | hm
        · exact h h'
        · exact hn ⟨o', hm, h'⟩
      · rintro hn ⟨o', ho', h'⟩
        exact hn ⟨o', List.mem_cons_of_mem _ ho', h'⟩

theorem stringInSlice_iff (a : String) (list : List String) :
    stringInSlice a list = true ↔ a ∈ list := by
  induction list with
  | nil => simp [stringInSlice]
  | cons b list ih =>
    unfold stringInSlice
    by_cases h : b = a
    · simp [h]
    · have h' : ¬ a = b := fun e => h e.symm
      simp [h, h', ih]

end mw

namespace ingress

open mw

/-- When the execution of the template fails, the body is what the template wrote before it
failed, followed by the JSON text. -/
theorem errorHandler_fallback (parse : TemplateParse) (json : JSONEncode) (tmpl : String)
    (t : Template) (h : GoError → Response → Response) (err : GoError) (res : Response)
    (out : String) (e : GoError)
    (hparse : parse tmpl = .ok t)
    (hh : customHTTPErrorHandler parse json tmpl = .ok h)
    (hexec : t.Execute (errorData err) = (out, some e)) :
    h err res =
      ⟨(errorData err).Status, res.Header, res.Body ++ out ++ json (errorData err)⟩ := by
  unfold customHTTPErrorHandler at hh
  rw [hparse] at hh
  have hh' : h = _ := (Except.ok.inj hh).symm
  subst hh'
  simp only [hexec]

/-- The handler on an error for which the template executes successfully: it writes the
status of the struct of the error and the output of the template on that struct. -/
theorem errorHandler_success (parse : TemplateParse) (json : JSONEncode) (tmpl : String)
    (t : Template) (h : GoError → Response → Response) (err : GoError) (res : Response)
    (out : String)
    (hparse : parse tmpl = .ok t)
    (hh : customHTTPErrorHandler parse json tmpl = .ok h)
    (hexec : t.Execute (errorData err) = (out, none)) :
    h err res = ⟨(errorData err).Status, res.Header, res.Body ++ out⟩ := by
  unfold customHTTPErrorHandler at hh
  rw [hparse] at hh
  have hh' : h = _ := (Except.ok.inj hh).symm
  subst hh'
  simp only [hexec]

/-- The struct of the handler by the type of the error: code and message for an
`*echo.HTTPError` of the package the handler imports, 500 and the error text otherwise. -/
theorem errorData_cases (code : Nat) (message : String) :
    errorData (.httpV3 code message) = ⟨code, message⟩ ∧
    errorData (.http code message) =
      ⟨500, "code=" ++ toString code ++ ", message=" ++ message⟩ ∧
    errorData (.plain message) = ⟨500, message⟩ :=
  ⟨rfl, rfl, rfl⟩

end ingress

namespace path

/-- If every insertion of a method under a key carries the same scopes, these are the scopes
of the method under the key, once one such insertion was made. -/
theorem methodsAfter_get_same (ks : List (Option String)) (m : String) (s0 : Scopes)
    (ops : List (String × String × Scopes))
    (hsame : ∀ op ∈ ops, op.1 = m → pathKey op.2.1 = ks → op.2.2 = s0) :
    ∀ acc, (mapGet acc m = some s0 ∨ ∃ op ∈ ops, op.1 = m ∧ pathKey op.2.1 = ks) →
      mapGet (methodsAfter ks acc ops) m = some s0 := by
  induction ops with
  | nil =>
    intro acc h
    rcases h with h | ⟨op, hop, -⟩
    · exact h
    · cases hop
  | cons op ops ih =>
    intro acc h
    obtain ⟨m', q, s⟩ := op
    simp only [methodsAfter]
    apply ih (fun op hop => hsame op (List.mem_cons_of_mem _ hop))
    by_cases hk : pathKey q = ks
    · rw [if_pos hk, mapGet_mapSet]
      by_cases hm : m' = m
      · left
        rw [if_pos hm]
        exact congrArg some (hsame (m', q, s) (List.mem_cons_self _ _) hm hk)
      · rw [if_neg hm]
        rcases h with h | ⟨op, hop, h1, h2⟩
        · exact Or.inl h
        · rcases List.mem_cons.1 hop with rfl | hop
          · exact absurd h1 hm
          · exact Or.inr ⟨op, hop, h1, h2⟩
    · rw [if_neg hk]
      rcases h with h | ⟨op, hop, h1, h2⟩
      · exact Or.inl h
      · rcases List.mem_cons.1 hop with rfl | hop
        · exact absurd h2 hk
        · exact Or.inr ⟨op, hop, h1, h2⟩

/-- In a well-formed index, the scopes stored for a method under the key of a path are what
`FindScopes` returns for the method and the path. -/
theorem findScopes_of_methodsAt {idx : Index} (hw : WF idx.root) {m p : String} {s : Scopes}
    (hget : mapGet (methodsAt idx.root (pathKey p)) m = some s) :
    FindScopes idx m p = (s, none) := by
  have hkey : m ∈ mapKeys (methodsAt idx.root (pathKey p)) :=
    (mapGet_isSome_iff _ _).1 (by rw [hget]; rfl)
  obtain ⟨t, ht, htm⟩ := walk_of_methodsAt hkey
  have hfind : findLoop idx.root (split p) = .ok t := by
    apply findLoop_of_walk (pathKey p) (split p) hw ht
    apply follows_self _ hw
    show (walk idx.root (pathKey p)).isSome = true
    rw [ht]; rfl
  unfold FindScopes
  rw [Find_eq, hfind]
  simp only [htm, hget]

end path

namespace openapi

open path

theorem removeEmpty_eq_filter (l : List String) :
    removeEmpty l = l.filter (fun s => s ≠ "") := by
  induction l with
  | nil => rfl
  | cons s l ih =>
    unfold removeEmpty
    by_cases h : s = ""
    · simp [h, ih]
    · simp [h, ih]

/-- The insertion the callback makes for a call of `op`: none for a nil operation, else one
with the expected scopes of the operation. -/
theorem op_eq (p method : String) (prop : Option Operation) :
    (op p method prop).map (fun call => (call.2.1, call.1, removeEmpty call.2.2)) =
      match prop with
      | none => []
      | some o => [(method, p, expectedScopes o)] := by
  cases prop with
  | none => rfl
  | some o =>
    obtain ⟨sec⟩ := o
    cases sec with
    | nil => rfl
    | cons first rest =>
      simp only [op, expectedScopes, List.head?_cons]
      cases hg : mapGet first "oauth2" with
      | none => rfl
      | some scopes => simp [removeEmpty_eq_filter]

theorem opsOfPath_mem (p : String) (item : PathItem) (x : String × String × Scopes) :
    x ∈ (opsOfPath p item).map (fun call => (call.2.1, call.1, removeEmpty call.2.2)) ↔
      ∃ o, operationOf item x.1 = some o ∧ x = (x.1, p, expectedScopes o) := by
  unfold opsOfPath
  simp only [List.map_append, op_eq, List.mem_append]
  constructor
  · intro h
    rcases h with (((((h | h) | h) | h) | h) | h) | h
    · cases hg : item.Get with
      | none => rw [hg] at h; cases h
      | some o =>
        rw [hg] at h
        simp only [List.mem_singleton] at h
        subst h
        exact ⟨o, by simp [operationOf, hg], rfl⟩
    · cases hg : item.Put with
      | none => rw [hg] at h; cases h
      | some o =>
        rw [hg] at h
        simp only [List.mem_singleton] at h
        subst h
        exact ⟨o, by simp [operationOf, hg], rfl⟩
    · cases hg : item.Post with
      | none => rw [hg] at h; cases h
      | some o =>
        rw [hg] at h
        simp only [List.mem_singleton] at h
        subst h
        exact ⟨o, by simp [operationOf, hg], rfl⟩
    · cases hg : item.Delete with
      | none => rw [hg] at h; cases h
      | some o =>
        rw [hg] at h
        simp only [List.mem_singleton] at h
        subst h
        exact ⟨o, by simp [operationOf, hg], rfl⟩
    · cases hg : item.Options with
      | none => rw [hg] at h; cases h
      | some o =>
        rw [hg] at h
        simp only [List.mem_singleton] at h
        subst h
        exact ⟨o, by simp [operationOf, hg], rfl⟩
    · cases hg : item.Head with
      | none => rw [hg] at h; cases h
      | some o =>
        rw [hg] at h
        simp only [List.mem_singleton] at h
        subst h
        exact ⟨o, by simp [operationOf, hg], rfl⟩
    · cases hg : item.Patch with
      | none => rw [hg] at h; cases h
      | some o =>
        rw [hg] at h
        simp only [List.mem_singleton] at h
        subst h
        exact ⟨o, by simp [operationOf, hg], rfl⟩
  · rintro ⟨o, ho, hx⟩
    obtain ⟨m, q, s⟩ := x
    simp only [Prod.mk.injEq, true_and] at hx
    obtain ⟨rfl, rfl⟩ := hx
    unfold operationOf at ho
    simp only at ho
    split_ifs at ho with h1 h2 h3 h4 h5 h6 h7
    · subst h1; rw [ho]; simp
    · subst h2; rw [ho]; simp
    · subst h3; rw [ho]; simp
    · subst h4; rw [ho]; simp
    · subst h5; rw [ho]; simp
    · subst h6; rw [ho]; simp
    · subst h7; rw [ho]; simp

theorem calls_mem (specification : Swagger) (x : String × String × Scopes) :
    x ∈ (SpecOAuth2ScopeIter specification).map
        (fun call => (call.2.1, call.1, removeEmpty call.2.2)) ↔
      ∃ kv ∈ specification.Paths, ∃ o, operationOf kv.2 x.1 = some o ∧
        x = (x.1, kv.1, expectedScopes o) := by
  unfold SpecOAuth2ScopeIter
  rw [List.map_flatMap]
  simp only [List.mem_flatMap]
  constructor
  · rintro ⟨kv, hkv, h⟩
    exact ⟨kv, hkv, (opsOfPath_mem kv.1 kv.2 x).1 h⟩
  · rintro ⟨kv, hkv, h⟩
    exact ⟨kv, hkv, (opsOfPath_mem kv.1 kv.2 x).2 h⟩

end openapi

namespace backoff

open mw

/-- The loop of `Do` from retry counter `r0` with `rem` attempts left: it stops at the first
call that succeeds or after `rem` failed calls, and requests one sleep after each failed call. -/
theorem doLoop_spec (fn : BackoffFunc) (N : Nat) (d : Int) (hN : N + 1 < 2 ^ 64) :
    ∀ (rem r0 c : Nat) (sl : List Int) (err0 : Option GoError) (fuel : Nat),
      r0 + rem = N + 1 → rem + 1 ≤ fuel →
      ∃ k, k ≤ rem ∧ (∀ i, i < k → fn (c + i) ≠ none) ∧
        ((k < rem ∧ fn (c + k) = none ∧
            doLoop fn fuel ⟨N, d, r0⟩ c sl err0 =
              some ⟨⟨N, d, r0 + k⟩, c + k + 1,
                sl ++ (List.range k).map (fun i => wrap64 (d * 2 ^ min (r0 + i) 8)), none⟩) ∨
          (k = rem ∧
            doLoop fn fuel ⟨N, d, r0⟩ c sl err0 =
              some ⟨⟨N, d, N + 1⟩, c + rem,
                sl ++ (List.range rem).map (fun i => wrap64 (d * 2 ^ min (r0 + i) 8)),
                if rem = 0 then err0 else fn (c + rem - 1)⟩)) := by
  intro rem
  induction rem with
  | zero =>
    intro r0 c sl err0 fuel hr hf
    refine ⟨0, le_refl _, fun i hi => absurd hi (Nat.not_lt_zero i), Or.inr ⟨rfl, ?_⟩⟩
    obtain ⟨f, rfl⟩ : ∃ f, fuel = f + 1 := ⟨fuel - 1, by omega⟩
    have h1 : ¬ r0 ≤ N := by omega
    have h2 : r0 = N + 1 := by omega
    simp [doLoop, h1, h2]
  | succ rem ih =>
    intro r0 c sl err0 fuel hr hf
    obtain ⟨f, rfl⟩ : ∃ f, fuel = f + 1 := ⟨fuel - 1, by omega⟩
    have h1 : r0 ≤ N := by omega
    cases hfn : fn c with
    | none =>
      refine ⟨0, Nat.zero_le _, fun i hi => absurd hi (Nat.not_lt_zero i),
        Or.inl ⟨Nat.succ_pos _, hfn, ?_⟩⟩
      simp [doLoop, h1, hfn]
    | some e =>
      have hmod : (r0 + 1) % 2 ^ 64 = r0 + 1 := Nat.mod_eq_of_lt (by omega)
      have hm : (if r0 > 8 then 8 else r0) = min r0 8 := by
        split <;> omega
      have hstep : doLoop fn (f + 1) ⟨N, d, r0⟩ c sl err0 =
          doLoop fn f ⟨N, d, r0 + 1⟩ (c + 1) (sl ++ [wrap64 (d * 2 ^ min r0 8)]) (some e) := by
        simp only [doLoop, h1, if_true, hfn, hmod, hm]
      have hrange : ∀ k, (List.range (k + 1)).map (fun i => wrap64 (d * 2 ^ min (r0 + i) 8)) =
          wrap64 (d * 2 ^ min r0 8) ::
            (List.range k).map (fun i => wrap64 (d * 2 ^ min (r0 + 1 + i) 8)) := by
        intro k
        rw [List.range_succ_eq_map, List.map_cons, List.map_map]
        refine congrArg₂ _ rfl (List.map_congr_left ?_)
        intro i _
        simp only [Function.comp, Nat.succ_eq_add_one]
        congr 3
        omega
      obtain ⟨k, hk, hfail, hres⟩ := ih (r0 + 1) (c + 1) (sl ++ [wrap64 (d * 2 ^ min r0 8)])
        (some e) f (by omega) (by omega)
      refine ⟨k + 1, by omega, ?_, ?_⟩
      · intro i hi
        cases i with
        | zero => simp [hfn]
        | succ i =>
          have := hfail i (by omega)
          rwa [show c + (i + 1) = c + 1 + i by omega]
      · rcases hres with ⟨h3, h4, h5⟩ | ⟨h3, h5⟩
        · refine Or.inl ⟨by omega, ?_, ?_⟩
          · rwa [show c + (k + 1) = c + 1 + k by omega]
          · rw [hstep, h5, hrange]
            simp only [List.append_assoc, List.singleton_append]
            congr 3 <;> omega
        · refine Or.inr ⟨by omega, ?_⟩
          rw [hstep, h5, hrange]
          simp only [List.append_assoc, List.singleton_append]
          have herr : (if rem = 0 then some e else fn (c + 1 + rem - 1)) =
              (if rem + 1 = 0 then err0 else fn (c + (rem + 1) - 1)) := by
            by_cases h0 : rem = 0
            · subst h0; simp [hfn]
            · simp only [h0, if_false, Nat.succ_ne_zero]
              congr 1
              omega
          rw [herr]
          congr 2
          omega

end backoff

namespace backoff

open mw

/-- `Do` on an instance with retry counter `r0` at most `N + 1`, the general form: `k` is the
number of failed calls. -/
theorem Do_spec (fn : BackoffFunc) (N : Nat) (d : Int) (hN : N + 1 < 2 ^ 64) (r0 fuel : Nat)
    (hr0 : r0 ≤ N + 1) (hfuel : N + 2 ≤ fuel) :
    ∃ k, r0 + k ≤ N + 1 ∧ (∀ i, i < k → fn i ≠ none) ∧
      ((r0 + k ≤ N ∧ fn k = none ∧
          (⟨N, d, r0⟩ : Backoff).Do fn fuel =
            some ⟨⟨N, d, r0 + k⟩, k + 1,
              (List.range k).map (fun i => wrap64 (d * 2 ^ min (r0 + i) 8)), none⟩) ∨
        (r0 + k = N + 1 ∧
          (⟨N, d, r0⟩ : Backoff).Do fn fuel =
            some ⟨⟨N, d, N + 1⟩, k,
              (List.range k).map (fun i => wrap64 (d * 2 ^ min (r0 + i) 8)),
              if k = 0 then none else fn (k - 1)⟩)) := by
  obtain ⟨k, hk, hfail, hres⟩ :=
    doLoop_spec fn N d hN (N + 1 - r0) r0 0 [] none fuel (by omega) (by omega)
  refine ⟨k, by omega, ?_, ?_⟩
  · intro i hi
    have := hfail i hi
    rwa [Nat.zero_add] at this
  · rcases hres with ⟨h1, h2, h3⟩ | ⟨h1, h3⟩
    · refine Or.inl ⟨by omega, by rwa [Nat.zero_add] at h2, ?_⟩
      rw [Backoff.Do, h3]
      simp
    · refine Or.inr ⟨by omega, ?_⟩
      rw [Backoff.Do, h3, ← h1]
      simp

theorem cappedSum_succ (M : Nat) : cappedSum (M + 1) = cappedSum M + 2 ^ min M 8 := by
  simp [cappedSum, List.range_succ]

theorem claimedSum_of_nine_le (M : Nat) (h : 9 ≤ M) : claimedSum M = 511 := by
  have h1 : min (M - 1) 8 = 8 := by omega
  simp only [claimedSum, h1]
  decide

/-- The total of the sleeps in closed form: the claimed sum, and 256 more for each failed
attempt after the ninth. -/
theorem cappedSum_eq (M : Nat) (h : 1 ≤ M) :
    cappedSum M = claimedSum M + 256 * ((M - 9 : Nat) : Int) := by
  induction M with
  | zero => omega
  | succ M ih =>
    by_cases h9 : M < 9
    · interval_cases M <;> decide
    · have h9' : 9 ≤ M := by omega
      rw [cappedSum_succ, ih (by omega), claimedSum_of_nine_le M h9',
        claimedSum_of_nine_le (M + 1) (by omega)]
      have h1 : min M 8 = 8 := by omega
      have h2 : ((M + 1 - 9 : Nat) : Int) = ((M - 9 : Nat) : Int) + 1 := by
        have : M + 1 - 9 = (M - 9) + 1 := by omega
        rw [this]; push_cast; ring
      rw [h1, h2]
      norm_num
      ring

theorem sum_map_mul_left (base : Int) (f : Nat → Int) (l : List Nat) :
    (l.map (fun i => base * f i)).sum = base * (l.map f).sum := by
  induction l with
  | nil => simp
  | cons a l ih => simp [ih, mul_add]

theorem shift_in_range {base : Int} (hlo : -2 ^ 63 ≤ base * 256) (hhi : base * 256 < 2 ^ 63)
    (k : Nat) : -2 ^ 63 ≤ base * 2 ^ min k 8 ∧ base * 2 ^ min k 8 < 2 ^ 63 := by
  have hk : min k 8 ≤ 8 := Nat.min_le_right _ _
  have hp1 : (1 : Int) ≤ 2 ^ min k 8 := one_le_pow₀ (by norm_num)
  have hp2 : (2 : Int) ^ min k 8 ≤ 256 := by
    calc (2 : Int) ^ min k 8 ≤ 2 ^ 8 := pow_le_pow_right₀ (by norm_num) hk
      _ = 256 := by norm_num
  have e63 : (2 : Int) ^ 63 = 9223372036854775808 := by norm_num
  rw [e63] at hlo hhi ⊢
  constructor
  · by_cases hb : 0 ≤ base
    · have : 0 ≤ base * 2 ^ min k 8 := mul_nonneg hb (by positivity)
      omega
    · have hb' : base ≤ 0 := by omega
      have : base * 256 ≤ base * 2 ^ min k 8 := mul_le_mul_of_nonpos_left hp2 hb'
      omega
  · by_cases hb : 0 ≤ base
    · have : base * 2 ^ min k 8 ≤ base * 256 := mul_le_mul_of_nonneg_left hp2 hb
      omega
    · have hb' : base ≤ 0 := by omega
      have : base * 2 ^ min k 8 ≤ 0 := mul_nonpos_of_nonpos_of_nonneg hb' (by positivity)
      omega

/-- The sleeps of a fresh instance, with `k` the number of failed attempts (the first `k`
calls fail and call `k` succeeds unless `k = N + 1`): `Do` requests `k` sleeps, the one after
failure `i` being the 64 bit value of `d * 2 ^ min i 8`, which is the product itself when
`256 * d` is a 64 bit duration. -/
theorem do_sleeps_in_range (N : Nat) (d : Int) (fn : BackoffFunc) (fuel : Nat)
    (hN : N + 1 < 2 ^ 64) (hfuel : N + 2 ≤ fuel) :
    ∃ r k, (New N d).Do fn fuel = some r ∧ k ≤ N + 1 ∧ (∀ i, i < k → fn i ≠ none) ∧
      (k ≤ N → fn k = none) ∧ r.sleeps.length = k ∧
      (∀ i, i < k → r.sleeps[i]? = some (wrap64 (d * 2 ^ min i 8))) ∧
      (-2 ^ 63 ≤ d * 256 → d * 256 < 2 ^ 63 →
        ∀ i, i < k → r.sleeps[i]? = some (d * 2 ^ min i 8)) := by
  obtain ⟨k, hk, hfail, hres⟩ := Do_spec fn N d hN 0 fuel (Nat.zero_le _) hfuel
  have hget : ∀ i, i < k →
      ((List.range k).map (fun i => wrap64 (d * 2 ^ min (0 + i) 8)))[i]? =
        some (wrap64 (d * 2 ^ min i 8)) := by
    intro i hi
    simp [List.getElem?_map, List.getElem?_range hi]
  have hexact : -2 ^ 63 ≤ d * 256 → d * 256 < 2 ^ 63 → ∀ i, i < k →
      ((List.range k).map (fun i => wrap64 (d * 2 ^ min (0 + i) 8)))[i]? =
        some (d * 2 ^ min i 8) := by
    intro hlo hhi i hi
    rw [hget i hi, wrap64_of_range (shift_in_range hlo hhi i).1 (shift_in_range hlo hhi i).2]
  rcases hres with ⟨h1, h2, h3⟩ | ⟨h1, h3⟩
  · exact ⟨_, k, h3, by omega, hfail, fun _ => h2, by simp, hget, hexact⟩
  · exact ⟨_, k, h3, by omega, hfail, fun h => by omega, by simp, hget, hexact⟩

end backoff

namespace ingress

theorem forwards_spec (targets : List String) (hN : 0 < targets.length) :
    ∀ (K c : Nat), ∃ ts, forwards ⟨targets, c⟩ K = some ts ∧ ts.length = K ∧
      ∀ i, i < K → ts[i]? = targets[(c + i) % targets.length]? := by
  intro K
  induction K with
  | zero =>
    intro c
    exact ⟨[], rfl, rfl, fun i hi => absurd hi (Nat.not_lt_zero i)⟩
  | succ K ih =>
    intro c
    have hlt : c % targets.length < targets.length := Nat.mod_lt _ hN
    obtain ⟨ts, h1, h2, h3⟩ := ih (c + 1)
    refine ⟨targets[c % targets.length] :: ts, ?_, by simp [h2], ?_⟩
    · simp [forwards, RoundRobinBalancer.Next, List.getElem?_eq_getElem hlt, h1]
    · intro i hi
      cases i with
      | zero => simp [List.getElem?_eq_getElem hlt]
      | succ i =>
        rw [List.getElem?_cons_succ, h3 i (by omega)]
        congr 2
        omega

/-- The number of `i < K` with `i % N = j`. -/
theorem count_mod (N : Nat) (hN : 0 < N) (j : Nat) (hj : j < N) (K : Nat) :
    ((List.range K).filter (fun i => decide (i % N = j))).length =
      K / N + if j < K % N then 1 else 0 := by
  have h := @Nat.count_modEq_card K N hN j
  rw [Nat.mod_eq_of_lt hj] at h
  rw [← h]
  clear h
  induction K with
  | zero => simp
  | succ K ih =>
    rw [List.range_succ, List.filter_append, List.length_append, ih, Nat.count_succ]
    congr 1
    have hiff : K ≡ j [MOD N] ↔ K % N = j := by
      unfold Nat.ModEq
      rw [Nat.mod_eq_of_lt hj]
    by_cases hK : K % N = j
    · simp [hK, hiff.2 hK]
    · have : ¬ K ≡ j [MOD N] := fun h => hK (hiff.1 h)
      simp [hK, this]

end ingress

namespace openapi

open mw path

theorem pollLoop_append (md5 : String → Checksum)
    (sfr : String → Except GoError (Option Swagger)) (gets : List (Except GoError String))
    (got : Except GoError String) : ∀ st : PollState,
    pollLoop md5 sfr st (gets ++ [got]) =
      match pollLoop md5 sfr st gets with
      | none => none
      | some st' => pollIteration md5 sfr st' got := by
  induction gets with
  | nil =>
    intro st
    simp only [List.nil_append, pollLoop]
    cases pollIteration md5 sfr st got <;> rfl
  | cons g gs ih =>
    intro st
    simp only [List.cons_append, pollLoop]
    cases pollIteration md5 sfr st g with
    | none => rfl
    | some st1 => exact ih st1

/-- What one iteration of `Poll` does, by cases. -/
theorem pollIteration_cases (md5 : String → Checksum)
    (sfr : String → Except GoError (Option Swagger)) (st : PollState)
    (got : Except GoError String) :
    (∃ b idx, got = .ok b ∧ md5 b ≠ st.checksum ∧ parse sfr b = some (.ok idx) ∧
      pollIteration md5 sfr st got = some ⟨md5 b, st.published ++ [(b, idx)]⟩) ∨
    ((¬ ∃ b idx, got = .ok b ∧ md5 b ≠ st.checksum ∧ parse sfr b = some (.ok idx)) ∧
      pollIteration md5 sfr st got = some st) ∨
    ((¬ ∃ b idx, got = .ok b ∧ md5 b ≠ st.checksum ∧ parse sfr b = some (.ok idx)) ∧
      (∃ b, got = .ok b ∧ md5 b ≠ st.checksum ∧ parse sfr b = none) ∧
      pollIteration md5 sfr st got = none) := by
  cases got with
  | error err =>
    right; left
    refine ⟨?_, rfl⟩
    rintro ⟨b, idx, h, -⟩
    cases h
  | ok b =>
    by_cases hcs : md5 b = st.checksum
    · right; left
      refine ⟨?_, by simp [pollIteration, hcs]⟩
      rintro ⟨b', idx, h, h2, -⟩
      cases h
      exact h2 hcs
    · cases hp : parse sfr b with
      | none =>
        right; right
        refine ⟨?_, ⟨b, rfl, hcs, hp⟩, by simp [pollIteration, hcs, hp]⟩
        rintro ⟨b', idx, h, -, h3⟩
        cases h
        rw [hp] at h3
        cases h3
      | some res =>
        cases res with
        | error err =>
          right; left
          refine ⟨?_, by simp [pollIteration, hcs, hp]⟩
          rintro ⟨b', idx, h, -, h3⟩
          cases h
          rw [hp] at h3
          cases h3
        | ok idx =>
          left
          exact ⟨b, idx, rfl, hcs, hp, by simp [pollIteration, hcs, hp]⟩

theorem pollIteration_inv (md5 : String → Checksum)
    (sfr : String → Except GoError (Option Swagger)) (st st' : PollState)
    (got : Except GoError String) (hinv : PollInv md5 sfr st)
    (h : pollIteration md5 sfr st got = some st') : PollInv md5 sfr st' := by
  rcases pollIteration_cases md5 sfr st got with ⟨b, idx, -, -, hp, h1⟩ | ⟨-, h1⟩ | ⟨-, -, h1⟩
  · rw [h1] at h
    cases h
    refine ⟨by simp, ?_⟩
    intro c hc
    rcases List.mem_append.1 hc with hc | hc
    · exact hinv.2 c hc
    · simp only [List.mem_singleton] at hc
      subst hc
      exact hp
  · rw [h1] at h
    cases h
    exact hinv
  · rw [h1] at h
    cases h

theorem pollLoop_inv (md5 : String → Checksum)
    (sfr : String → Except GoError (Option Swagger)) (gets : List (Except GoError String)) :
    ∀ st st' : PollState, PollInv md5 sfr st → pollLoop md5 sfr st gets = some st' →
      PollInv md5 sfr st' := by
  induction gets with
  | nil =>
    intro st st' hinv h
    simp only [pollLoop, Option.some.injEq] at h
    subst h
    exact hinv
  | cons g gs ih =>
    intro st st' hinv h
    simp only [pollLoop] at h
    cases hg : pollIteration md5 sfr st g with
    | none => rw [hg] at h; cases h
    | some st1 =>
      rw [hg] at h
      exact ih st1 st' (pollIteration_inv md5 sfr st st1 g hinv hg) h

end openapi

namespace path

theorem isParam_eq_none_iff (e : String) : isParam e = none ↔ e = "" := by
  unfold isParam
  constructor
  · intro h
    cases hd : e.data with
    | nil => exact String.ext hd
    | cons c cs => rw [hd] at h; cases h
  · intro h
    subst h
    rfl

/-- `AddPath` returns exactly on element lists without an empty element. -/
theorem addLoop_isSome_iff (upd : node → node) (es : List String) :
    ∀ n : node, (addLoop upd n es).isSome = true ↔ "" ∉ es := by
  induction es with
  | nil => intro n; simp [addLoop]
  | cons e es ih =>
    intro n
    rw [List.mem_cons, not_or]
    cases he : isParam e with
    | none =>
      have : e = "" := (isParam_eq_none_iff e).1 he
      simp only [addLoop, he]
      simp [this]
    | some p =>
      have hne : ¬ "" = e := by
        intro h
        rw [← h, (isParam_eq_none_iff "").2 rfl] at he
        cases he
      cases hf : nodes_find n.children e p with
      | some nn =>
        have := ih nn
        cases hr : addLoop upd nn es with
        | none =>
          rw [hr] at this
          simp only [addLoop, he, hf, hr]
          simp only [Option.isSome_none, Bool.false_eq_true, false_iff, not_not] at this
          simp [this]
        | some r =>
          rw [hr] at this
          simp only [addLoop, he, hf, hr]
          simp only [Option.isSome_some, true_iff] at this
          simp [this, hne]
      | none =>
        have := ih (.mk e p [] [])
        cases hr : addLoop upd (.mk e p [] []) es with
        | none =>
          rw [hr] at this
          simp only [addLoop, he, hf, hr]
          simp only [Option.isSome_none, Bool.false_eq_true, false_iff, not_not] at this
          simp [this]
        | some r =>
          rw [hr] at this
          simp only [addLoop, he, hf, hr]
          simp only [Option.isSome_some, true_iff] at this
          simp [this, hne]

theorem replaceHit_self (e : String) (p : Bool) (c : node) (cs : List node)
    (h : nodes_find cs e p = some c) : replaceHit e p c cs = cs := by
  induction cs with
  | nil => rfl
  | cons x xs ih =>
    unfold nodes_find at h
    rw [List.find?_cons] at h
    unfold replaceHit
    cases hx : findHit e p x with
    | true =>
      rw [hx] at h
      simp only [Option.some.injEq] at h
      simp [h]
    | false =>
      rw [hx] at h
      simp only [Bool.false_eq_true, if_false]
      rw [ih h]

theorem node_eta (n : node) : node.mk n.name n.param n.children n.Methods = n := by
  cases n; rfl

/-- Adding a path whose key already leads to a node leaves the tree as it is. -/
theorem addLoop_id_of_walk (es : List String) : ∀ {n t : node}, WF n →
    walk n (es.map segKey) = some t → addLoop id n es = some n := by
  induction es with
  | nil => intro n t _ _; rfl
  | cons e es ih =>
    intro n t hn hw
    rw [List.map_cons, walk_cons] at hw
    cases hg : getChild n.children (segKey e) with
    | none => rw [hg] at hw; cases hw
    | some c =>
      rw [hg] at hw
      simp only at hw
      obtain ⟨hc, hk⟩ := getChild_some hg
      have hcn := hn.hname c hc
      cases he : isParam e with
      | none =>
        exfalso
        have he' : e = "" := (isParam_eq_none_iff e).1 he
        unfold segKey at hk
        rw [he] at hk
        unfold nodeKey at hk
        split at hk
        · cases hk
        · simp only [Option.some.injEq] at hk
          rw [hk, he] at hcn
          cases hcn
      | some p =>
        have hf : nodes_find n.children e p = some c := by
          rw [find_eq_getChild he _ hn.hname, hg]
        have hrec := ih (hn.hrec c hc) hw
        simp only [addLoop, he, hf, hrec, replaceHit_self e p c _ hf, node_eta]

theorem walk_prefix : ∀ (ks ks' : List (Option String)) (n : node),
    (walk n (ks ++ ks')).isSome = true → (walk n ks).isSome = true := by
  intro ks
  induction ks with
  | nil => intro _ _ _; rfl
  | cons k ks ih =>
    intro ks' n h
    rw [List.cons_append, walk_cons] at h
    rw [walk_cons]
    cases hg : getChild n.children k with
    | none => rw [hg] at h; cases h
    | some c =>
      rw [hg] at h
      exact ih ks' c h

/-- What `AddPath` could reach stays reachable. -/
theorem addLoop_walk_mono {upd : node → node} (hu : MethodsOnly upd) (es : List String) :
    ∀ {n n' : node}, WF n → addLoop upd n es = some n' →
      ∀ ks, (walk n ks).isSome = true → (walk n' ks).isSome = true := by
  induction es with
  | nil =>
    intro n n' _ h ks hks
    simp only [addLoop, Option.some.injEq] at h
    subst h
    cases ks with
    | nil => rfl
    | cons k ks =>
      rw [walk_congr_children (hu n).2.2]
      exact hks
  | cons e es ih =>
    intro n n' hn h ks hks
    obtain ⟨p, c, c', he, hadd, hwc, -, -, hkc', -, -, -, -, hcase⟩ := addLoop_cons hu hn h
    cases ks with
    | nil => rfl
    | cons k ks =>
      rw [walk_cons, addLoop_cons_getChild hn he hkc' hcase]
      rw [walk_cons] at hks
      by_cases hk : k = segKey e
      · subst hk
        simp only [if_true]
        rcases hcase with ⟨hf, -⟩ | ⟨hf, -, -⟩
        · rw [hf] at hks
          exact ih hwc hadd ks hks
        · rw [hf] at hks
          cases hks
      · simp only [hk, if_false]
        exact hks

theorem WF_inside {n d : node} (hn : WF n) (h : Inside n d) : WF d := by
  induction h with
  | root n => exact hn
  | child n c d hc _ ih => exact ih (hn.hrec c hc)

theorem length_le_one_of_nodup_const {α : Type} (a : α) :
    ∀ l : List α, l.Nodup → (∀ x ∈ l, x = a) → l.length ≤ 1 := by
  intro l hnd hall
  match l, hnd, hall with
  | [], _, _ => simp
  | [_], _, _ => simp
  | x :: y :: _, hnd, hall =>
    exfalso
    have hx := hall x (by simp)
    have hy := hall y (by simp)
    rw [List.nodup_cons] at hnd
    exact hnd.1 (by rw [hx, ← hy]; simp)

/-- A well-formed node has at most one parameter child. -/
theorem WF_params {n : node} (hn : WF n) :
    (n.children.filter (fun c => c.param)).length ≤ 1 := by
  have hsub : ((n.children.filter (fun c => c.param)).map nodeKey).Nodup :=
    (hn.hkeys).sublist ((List.filter_sublist _).map nodeKey)
  have hall : ∀ x ∈ (n.children.filter (fun c => c.param)).map nodeKey, x = none := by
    intro x hx
    obtain ⟨c, hc, rfl⟩ := List.mem_map.1 hx
    have hp : c.param = true := by simpa using (List.mem_filter.1 hc).2
    simp [nodeKey, hp]
  have := length_le_one_of_nodup_const none _ hsub hall
  simpa using this

/-- The children of a well-formed node have pairwise distinct names. -/
theorem WF_names {n : node} (hn : WF n) : (n.children.map node.name).Nodup := by
  have hnd : n.children.Nodup := List.Nodup.of_map nodeKey hn.hkeys
  refine List.Nodup.map_on ?_ hnd
  intro x hx y hy hxy
  have hxk : nodeKey x = nodeKey y := by
    rw [nodeKey_eq_segKey (hn.hname x hx), nodeKey_eq_segKey (hn.hname y hy), hxy]
  exact List.inj_on_of_nodup_map hn.hkeys hx hy hxk

/-- The children of a well-formed node have non-empty names. -/
theorem WF_name_ne {n : node} (hn : WF n) : ∀ c ∈ n.children, c.name ≠ "" := by
  intro c hc h
  have := hn.hname c hc
  rw [h, (isParam_eq_none_iff "").2 rfl] at this
  cases this

end path

namespace path

theorem run_eq {call : IndexCall} {idx idx' : Index} (h : call.run idx = some idx') :
    ∃ upd, MethodsOnly upd ∧ addLoop upd idx.root (split call.path) = some idx'.root := by
  cases call with
  | addPath p =>
    refine ⟨id, id_methodsOnly, ?_⟩
    simp only [IndexCall.run, AddPath] at h
    cases ha : addLoop id idx.root (split p) with
    | none => rw [ha] at h; cases h
    | some r =>
      rw [ha] at h
      simp only [Option.map_some', Option.some.injEq] at h
      subst h
      exact ha
  | addMethodPathScopes m p s =>
    refine ⟨setMethod m s, setMethod_methodsOnly m s, ?_⟩
    simp only [IndexCall.run, AddMethodPathScopes] at h
    cases ha : addLoop (setMethod m s) idx.root (split p) with
    | none => rw [ha] at h; cases h
    | some r =>
      rw [ha] at h
      simp only [Option.map_some', Option.some.injEq] at h
      subst h
      exact ha

theorem run_isSome_iff (call : IndexCall) (idx : Index) :
    (call.run idx).isSome = true ↔ "" ∉ split call.path := by
  cases call with
  | addPath p =>
    simp only [IndexCall.run, AddPath, Option.isSome_map', IndexCall.path]
    exact addLoop_isSome_iff id (split p) idx.root
  | addMethodPathScopes m p s =>
    simp only [IndexCall.run, AddMethodPathScopes, Option.isSome_map', IndexCall.path]
    exact addLoop_isSome_iff (setMethod m s) (split p) idx.root

/-- A sequence of calls that return keeps the tree well-formed, keeps every key reachable and
makes the key of every added path reachable. -/
theorem runCalls_spec (calls : List IndexCall) : ∀ {idx idx' : Index}, WF idx.root →
    runCalls idx calls = some idx' →
    WF idx'.root ∧
    (∀ ks, (walk idx.root ks).isSome = true → (walk idx'.root ks).isSome = true) ∧
    ∀ call ∈ calls, (walk idx'.root (pathKey call.path)).isSome = true := by
  induction calls with
  | nil =>
    intro idx idx' hw h
    simp only [runCalls, Option.some.injEq] at h
    subst h
    exact ⟨hw, fun _ h => h, fun _ hc => absurd hc (List.not_mem_nil _)⟩
  | cons call calls ih =>
    intro idx idx' hw h
    simp only [runCalls] at h
    cases hr : call.run idx with
    | none => rw [hr] at h; cases h
    | some idx1 =>
      rw [hr] at h
      obtain ⟨upd, hu, hadd⟩ := run_eq hr
      have hw1 : WF idx1.root := addLoop_WF hu _ hw hadd
      obtain ⟨hw', hmono, hreach⟩ := ih hw1 h
      refine ⟨hw', fun ks hks => hmono ks (addLoop_walk_mono hu _ hw hadd ks hks), ?_⟩
      intro c hc
      rcases List.mem_cons.1 hc with rfl | hc
      · obtain ⟨t, ht, -⟩ := addLoop_walk_target hu _ hw hadd
        apply hmono
        unfold pathKey
        rw [ht]
        rfl
      · exact hreach c hc

theorem runCalls_total (calls : List IndexCall) (hcalls : ∀ call ∈ calls, "" ∉ split call.path) :
    ∀ idx : Index, ∃ idx', runCalls idx calls = some idx' := by
  induction calls with
  | nil => intro idx; exact ⟨idx, rfl⟩
  | cons call calls ih =>
    intro idx
    have h1 := (run_isSome_iff call idx).2 (hcalls call (List.mem_cons_self _ _))
    cases hr : call.run idx with
    | none => rw [hr] at h1; cases h1
    | some idx1 =>
      obtain ⟨idx', h2⟩ := ih (fun c hc => hcalls c (List.mem_cons_of_mem _ hc)) idx1
      exact ⟨idx', by simp only [runCalls, hr, h2]⟩

/-- In a well-formed index, adding a path whose key is reachable changes nothing with `AddPath`
and changes no reachable key with `AddMethodPathScopes`. -/
theorem add_existing {idx : Index} (hw : WF idx.root) (q : String)
    (hq : (walk idx.root (pathKey q)).isSome = true) :
    AddPath idx q = some idx ∧
    ∀ (m : String) (s : Scopes), ∃ idx', AddMethodPathScopes idx m q s = some idx' ∧
      ∀ ks, (walk idx'.root ks).isSome = (walk idx.root ks).isSome := by
  obtain ⟨t, ht⟩ := Option.isSome_iff_exists.1 hq
  have hid : addLoop id idx.root (split q) = some idx.root := addLoop_id_of_walk _ hw ht
  refine ⟨by simp [AddPath, hid], ?_⟩
  intro m s
  have hne : "" ∉ split q := (addLoop_isSome_iff id (split q) idx.root).1 (by rw [hid]; rfl)
  have hsome := (addLoop_isSome_iff (setMethod m s) (split q) idx.root).2 hne
  obtain ⟨r, hr⟩ := Option.isSome_iff_exists.1 hsome
  refine ⟨⟨r⟩, by simp [AddMethodPathScopes, hr], ?_⟩
  intro ks
  rw [Bool.eq_iff_iff]
  constructor
  · intro h
    rcases addLoop_walk_reach (setMethod_methodsOnly m s) _ hw hr ks h with h1 | h1
    · exact h1
    · obtain ⟨rest, hrest⟩ := h1
      apply walk_prefix ks rest
      rw [hrest]
      exact hq
  · exact addLoop_walk_mono (setMethod_methodsOnly m s) _ hw hr ks

end path

namespace path

theorem stringsSplitAux_slash_snoc : ∀ (l cur : List Char),
    stringsSplitAux ['/'] (l ++ ['/']) 0 cur = stringsSplitAux ['/'] l 0 cur ++ [""] := by
  intro l
  induction l with
  | nil =>
    intro cur
    simp [stringsSplitAux]
  | cons c cs ih =>
    intro cur
    by_cases hc : c = '/'
    · subst hc
      simp [stringsSplitAux, ih]
    · have hc' : ¬ '/' = c := fun h => hc h.symm
      simp [stringsSplitAux, hc', ih]

/-- A trailing slash adds one empty element to the elements of a non-empty path. -/
theorem split_trailing_slash (p : String) (hp : p ≠ "") : split (p ++ "/") = split p ++ [""] := by
  have hdata : (p ++ "/").data = p.data ++ ['/'] := rfl
  cases hd : p.data with
  | nil => exact absurd (String.ext hd) hp
  | cons c cs =>
    by_cases hc : c = '/'
    · subst hc
      simp only [split, hdata, hd, List.cons_append, stringsSplit]
      exact stringsSplitAux_slash_snoc cs []
    · have h1 : split p = stringsSplit p "/" := by
        unfold split
        rw [hd]
        split
        · rename_i rest heq
          cases heq
          exact absurd rfl hc
        · rfl
      have h2 : split (p ++ "/") = stringsSplit (p ++ "/") "/" := by
        unfold split
        rw [hdata, hd]
        split
        · rename_i rest heq
          cases heq
          exact absurd rfl hc
        · rfl
      rw [h1, h2]
      simp only [stringsSplit, hdata]
      exact stringsSplitAux_slash_snoc p.data []

theorem nodes_match_mem {ns : List node} {e : String} {c : node}
    (h : nodes_match ns e = some c) : c ∈ ns := by
  rw [nodes_match_spec] at h
  cases hf : ns.find? (fun x => x.name == e) with
  | some d =>
    rw [hf] at h
    simp only [Option.some.injEq] at h
    subst h
    exact List.mem_of_find?_eq_some hf
  | none =>
    rw [hf] at h
    simp only at h
    exact (List.mem_filter.1 (List.mem_of_getLast?_eq_some h)).1

theorem findLoop_WF (es : List String) : ∀ {n t : node}, WF n → findLoop n es = .ok t →
    WF t := by
  induction es with
  | nil =>
    intro n t hn h
    simp only [findLoop, Except.ok.injEq] at h
    subst h
    exact hn
  | cons e es ih =>
    intro n t hn h
    simp only [findLoop] at h
    cases hm : nodes_match n.children e with
    | none => rw [hm] at h; cases h
    | some c =>
      rw [hm] at h
      exact ih (hn.hrec c (nodes_match_mem hm)) h

theorem findLoop_inside (es : List String) : ∀ {n t : node}, findLoop n es = .ok t →
    Inside n t := by
  induction es with
  | nil =>
    intro n t h
    simp only [findLoop, Except.ok.injEq] at h
    subst h
    exact Inside.root n
  | cons e es ih =>
    intro n t h
    simp only [findLoop] at h
    cases hm : nodes_match n.children e with
    | none => rw [hm] at h; cases h
    | some c =>
      rw [hm] at h
      exact Inside.child n c t (nodes_match_mem hm) (ih h)

/-- In a well-formed node the empty element is matched by the parameter child, if there is
one, and by nothing else. -/
theorem match_empty {n : node} (hn : WF n) (c : node) :
    nodes_match n.children "" = some c ↔ c ∈ n.children ∧ c.param = true := by
  have hnone : n.children.find? (fun x => x.name == "") = none := by
    rw [List.find?_eq_none]
    intro x hx
    simpa using WF_name_ne hn x hx
  rw [nodes_match_spec, hnone]
  simp only
  have hlen := WF_params hn
  constructor
  · intro h
    have := List.mem_filter.1 (List.mem_of_getLast?_eq_some h)
    exact ⟨this.1, by simpa using this.2⟩
  · rintro ⟨hc, hp⟩
    have hmem : c ∈ n.children.filter (fun c => c.param) :=
      List.mem_filter.2 ⟨hc, by simpa using hp⟩
    cases hl : n.children.filter (fun c => c.param) with
    | nil => rw [hl] at hmem; cases hmem
    | cons x xs =>
      rw [hl] at hmem hlen
      cases xs with
      | nil =>
        simp only [List.mem_singleton] at hmem
        subst hmem
        rfl
      | cons y ys =>
        simp only [List.length_cons] at hlen
        omega

/-- An insertion on a path with an empty element does not return. -/
theorem addMethodPathScopes_empty_element (idx : Index) (m p : String) (s : Scopes)
    (h : "" ∈ split p) : AddMethodPathScopes idx m p s = none := by
  have := (addLoop_isSome_iff (setMethod m s) (split p) idx.root).not.2 (not_not.2 h)
  cases ha : addLoop (setMethod m s) idx.root (split p) with
  | none => simp [AddMethodPathScopes, ha]
  | some r => rw [ha] at this; exact absurd rfl this

end path

namespace openapi

open mw backoff

/-- `Get` on a new client returns after at most nine calls of `httpGetReadAll`: the result of
the first call that succeeds, or the error of the ninth call. -/
theorem Get_NewClient (url : String) (http : Nat → Except GoError String) (fuel : Nat)
    (hfuel : 10 ≤ fuel) :
    ∃ k, k ≤ 8 ∧ (∀ i, i < k → ∃ err, http i = .error err) ∧
      (NewClient url).Get http fuel = some (http k) := by
  have key : ∀ fn : BackoffFunc, (∀ i, fn i ≠ none → ∃ err, http i = .error err) →
      ∃ k, k ≤ 8 ∧ (∀ i, i < k → ∃ err, http i = .error err) ∧
        Option.map (fun r : DoResult => if r.calls = 0 then Except.ok "" else http (r.calls - 1))
          ((New 8 Second).Do fn fuel) = some (http k) := by
    intro fn hfn
    obtain ⟨k, hk, hfail, hres⟩ :=
      Do_spec fn 8 Second (by norm_num) 0 fuel (by norm_num) (by omega)
    rcases hres with ⟨h1, -, h3⟩ | ⟨h1, h3⟩
    · refine ⟨k, by omega, fun i hi => hfn i (hfail i hi), ?_⟩
      rw [show New 8 Second = ⟨8, Second, 0⟩ from rfl, h3]
      simp
    · have hk9 : k = 9 := by omega
      subst hk9
      refine ⟨8, le_refl _, fun i hi => hfn i (hfail i (by omega)), ?_⟩
      rw [show New 8 Second = ⟨8, Second, 0⟩ from rfl, h3]
      simp
  refine key _ ?_
  intro i h
  cases hh : http i with
  | ok b =>
    exfalso
    apply h
    simp only [hh]
  | error err => exact ⟨err, rfl⟩

end openapi

end Apigw

/-! ## The claims -/

namespace Apigw

namespace mw

/-- C1: for a request that is not skipped, whose `RequiredScopes` lookup succeeds with a
non-empty list and whose `Authorization` header yields a token, `next` is invoked if and only if
`Tokeninfo` returns a response without error that has `ExpiresIn > 0` and holds every required
scope; it is then invoked once, with `ClientID` set, and its result is returned. In every other
such case the middleware returns the 401 error "Not allowed" and `next` is not invoked. -/
theorem oauth2_token_decision (skipper : Option (Context → Bool)) (tokeninfo : TokeninfoFunc)
    (scopesFn : ScopesFunc) (h : HandlerFunc → Context → Handled) (next : HandlerFunc)
    (c : Context) (required : List String) (token : String)
    (hmw : OAuth2WithConfig ⟨skipper, some tokeninfo, some scopesFn⟩ = some h)
    (hskip : skipper.getD DefaultSkipper c = false)
    (hreq : scopesFn c.request.Method c.request.URL = (required, none))
    (hne : required ≠ [])
    (htok : extractToken c = (token, none)) :
    ((h next c).nextCalls ≠ [] ↔ granted tokeninfo token required) ∧
    (granted tokeninfo token required →
      ∃ ti, tokeninfo token = (some ti, none) ∧
        h next c = ⟨[token], [c.Set "ClientID" ti.ClientID],
          next (c.Set "ClientID" ti.ClientID)⟩) ∧
    (¬ granted tokeninfo token required →
      h next c = ⟨[token], [], some ErrTokenInvalid⟩ ∧
        ErrTokenInvalid = .http 401 "Not allowed") := by
  have hh : h = _ := (Option.some.inj hmw).symm
  have hlen : required.length ≠ 0 := by
    intro h0; exact hne (List.length_eq_zero.mp h0)
  have key : (granted tokeninfo token required ∧
      ∃ ti, tokeninfo token = (some ti, none) ∧
        h next c = ⟨[token], [c.Set "ClientID" ti.ClientID],
          next (c.Set "ClientID" ti.ClientID)⟩) ∨
      (¬ granted tokeninfo token required ∧
        h next c = ⟨[token], [], some ErrTokenInvalid⟩) := by
    subst hh
    simp only [hskip, hreq, htok, hlen, if_false, Bool.false_eq_true]
    rcases hti : tokeninfo token with ⟨r, e⟩
    cases e with
    | some e =>
      right
      refine ⟨?_, by simp⟩
      rintro ⟨ti, h1, -⟩
      rw [hti] at h1
      cases h1
    | none =>
      cases r with
      | none =>
        right
        refine ⟨?_, by simp⟩
        rintro ⟨ti, h1, -⟩
        rw [hti] at h1
        cases h1
      | some ti =>
        by_cases hexp : ti.ExpiresIn ≤ 0
        · right
          refine ⟨?_, by simp [hexp]⟩
          rintro ⟨ti', h1, h2, -⟩
          rw [hti] at h1
          cases h1
          omega
        · by_cases hsc : scopesLoop ti.Scopes required = true
          · left
            refine ⟨⟨ti, hti, by omega, (scopesLoop_iff _ _).1 hsc⟩, ti, rfl, by simp [hexp, hsc]⟩
          · right
            refine ⟨?_, by simp [hexp, hsc]⟩
            rintro ⟨ti', h1, -, h3⟩
            rw [hti] at h1
            cases h1
            exact hsc ((scopesLoop_iff _ _).2 h3)
  rcases key with ⟨hg, ti, h1, h2⟩ | ⟨hg, h2⟩
  · refine ⟨?_, fun _ => ⟨ti, h1, h2⟩, fun hn => absurd hg hn⟩
    rw [h2]; simp [hg]
  · refine ⟨?_, fun hg' => absurd hg' hg, fun _ => ⟨h2, rfl⟩⟩
    rw [h2]; simp [hg]

/-- Witness of C1 on the request of `TestScopeValidation`: `read` is required and granted. -/
theorem oauth2_token_decision_witness :
    ((middlewareOf ⟨none, some exampleTokeninfo, some exampleScopes⟩ exampleNext
        exampleContext).nextCalls ≠ [] ↔
      granted exampleTokeninfo "value-not-important" ["read"]) ∧
    (middlewareOf ⟨none, some exampleTokeninfo, some exampleScopes⟩ exampleNext
        exampleContext).nextCalls = [exampleContext.Set "ClientID" "app"] :=
  ⟨(oauth2_token_decision none exampleTokeninfo exampleScopes
      (middlewareOf ⟨none, some exampleTokeninfo, some exampleScopes⟩) exampleNext
      exampleContext ["read"] "value-not-important" rfl rfl rfl (by decide) (by decide)).1,
    by decide⟩

/-- C2: for a request that is not skipped, has no `Authorization` header and whose
`RequiredScopes` lookup succeeds, `next` is invoked if and only if the required scope list is
empty; when it is non-empty the middleware returns the 400 error "Missing or malformed token"
and calls neither `Tokeninfo` nor `next`, whatever `Tokeninfo` is. -/
theorem oauth2_missing_token (skipper : Option (Context → Bool)) (tokeninfo : TokeninfoFunc)
    (scopesFn : ScopesFunc) (h : HandlerFunc → Context → Handled) (next : HandlerFunc)
    (c : Context) (required : List String)
    (hmw : OAuth2WithConfig ⟨skipper, some tokeninfo, some scopesFn⟩ = some h)
    (hskip : skipper.getD DefaultSkipper c = false)
    (hreq : scopesFn c.request.Method c.request.URL = (required, none))
    (hauth : mapGet c.request.Header "Authorization" = none) :
    ((h next c).nextCalls ≠ [] ↔ required = []) ∧
    (required = [] → h next c = ⟨[], [c], next c⟩) ∧
    (required ≠ [] →
      h next c = ⟨[], [], some ErrTokenMissing⟩ ∧
        ErrTokenMissing = .http 400 "Missing or malformed token") := by
  have hh : h = _ := (Option.some.inj hmw).symm
  have htok : extractToken c = ("", some ErrTokenMissing) := by
    simp [extractToken, headerGet, hauth]
  have key : (required = [] ∧ h next c = ⟨[], [c], next c⟩) ∨
      (required ≠ [] ∧ h next c = ⟨[], [], some ErrTokenMissing⟩) := by
    subst hh
    simp only [hskip, hreq, htok, if_false, Bool.false_eq_true]
    cases required with
    | nil => left; exact ⟨rfl, by simp⟩
    | cons r rs => right; exact ⟨by simp, by simp⟩
  rcases key with ⟨h1, h2⟩ | ⟨h1, h2⟩
  · refine ⟨?_, fun _ => h2, fun hn => absurd h1 hn⟩
    rw [h2]; simp [h1]
  · refine ⟨?_, fun he => absurd he h1, fun _ => ⟨h2, rfl⟩⟩
    rw [h2]; simp [h1]

/-- Witness of C2 on the request of `TestTokenMissing`: `read` is required, no header. -/
theorem oauth2_missing_token_witness :
    middlewareOf ⟨none, some exampleTokeninfo, some exampleScopes⟩ exampleNext
      exampleContextNoToken = ⟨[], [], some (.http 400 "Missing or malformed token")⟩ :=
  ((oauth2_missing_token none exampleTokeninfo exampleScopes
      (middlewareOf ⟨none, some exampleTokeninfo, some exampleScopes⟩) exampleNext
      exampleContextNoToken ["read"] rfl rfl rfl rfl).2.2 (by decide)).1

/-- C3: whenever the `RequiredScopes` function returns an error, for a request that is not
skipped, the middleware returns that same error and calls neither `Tokeninfo` nor `next`,
whatever the accompanying scope list and the `Authorization` header are. -/
theorem oauth2_scopes_error (skipper : Option (Context → Bool)) (tokeninfo : TokeninfoFunc)
    (scopesFn : ScopesFunc) (h : HandlerFunc → Context → Handled) (next : HandlerFunc)
    (c : Context) (scopes : List String) (err : GoError)
    (hmw : OAuth2WithConfig ⟨skipper, some tokeninfo, some scopesFn⟩ = some h)
    (hskip : skipper.getD DefaultSkipper c = false)
    (hreq : scopesFn c.request.Method c.request.URL = (scopes, some err)) :
    h next c = ⟨[], [], some err⟩ := by
  have hh : h = _ := (Option.some.inj hmw).symm
  subst hh
  simp only [hskip, hreq, if_false, Bool.false_eq_true]

/-- Witness of C3 on the request of `TestScopesFail`: the lookup fails with a 404. -/
theorem oauth2_scopes_error_witness :
    middlewareOf ⟨none, some exampleTokeninfo, some exampleScopesFail⟩ exampleNext
      exampleContext = ⟨[], [], some (.http 404 "No API")⟩ :=
  oauth2_scopes_error none exampleTokeninfo exampleScopesFail
    (middlewareOf ⟨none, some exampleTokeninfo, some exampleScopesFail⟩) exampleNext
    exampleContext ["read"] (.http 404 "No API") rfl rfl rfl

/-- C4 fails on the code: a response fetched at clock reading 0 with `ExpiresIn` 5 has its
absolute expiry at 5 s; a `Call` at 9 s serves it from the cache without introspection, and
the middleware, which only tests `ExpiresIn <= 0`, calls `next`. -/
theorem oauth2_accepts_after_absolute_expiry :
    (exampleClientWarm.Call (9 * Second) "t").introspections = [] ∧
    (exampleClientWarm.Call (9 * Second) "t").ret =
      (some ⟨"app", ["read"], 5, "", [("read", ())], 0⟩, none) ∧
    (0 : Int) + 5 * Second < 9 * Second ∧
    middlewareOf ⟨none, some (fun tok => (exampleClientWarm.Call (9 * Second) tok).ret),
        some exampleScopes⟩ exampleNext exampleContextT =
      ⟨["t"], [exampleContextT.Set "ClientID" "app"], none⟩ := by
  decide

end mw

namespace path

/-- C5 (amended): in an index built by a sequence of `AddMethodPathScopes` calls,
`FindScopes(method, path)` on an inserted (method, path) succeeds and returns the scope list of
the last insertion with that method at a path equal to `path` up to the names of its
parameter elements. -/
theorem findScopes_inserted (pre post : List (String × String × Scopes)) (m p : String)
    (s : Scopes) (idx : Index)
    (hb : build NewIndex (pre ++ (m, p, s) :: post) = some idx)
    (hlast : ∀ op ∈ post, op.1 = m → pathKey op.2.1 ≠ pathKey p)
    (q : String) (hq : pathKey q = pathKey p) :
    FindScopes idx m q = (s, none) := by
  obtain ⟨hw, hm, -⟩ := build_NewIndex hb
  have hget : mapGet (methodsAt idx.root (pathKey p)) m = some s := by
    rw [hm, methodsAfter_append]
    simp only [methodsAfter, if_true]
    rw [methodsAfter_get_frame _ _ _ _ hlast, mapGet_mapSet, if_pos rfl]
  have hkey : m ∈ mapKeys (methodsAt idx.root (pathKey p)) :=
    (mapGet_isSome_iff _ _).1 (by rw [hget]; rfl)
  obtain ⟨t, ht, htm⟩ := walk_of_methodsAt hkey
  have hfind : findLoop idx.root (split q) = .ok t := by
    apply findLoop_of_walk (pathKey p) (split q) hw ht
    rw [← hq]
    apply follows_self _ hw
    show (walk idx.root (pathKey q)).isSome = true
    rw [hq, ht]; rfl
  unfold FindScopes
  rw [Find_eq, hfind]
  simp only [htm, hget]

/-- C5, as stated, fails: after `GET /a/{id}` with scopes `r` and `GET /a/{x}` with scopes `w`
the lookup of the inserted `GET /a/{id}` returns `w`, not the scope list `r` inserted for it. -/
theorem findScopes_inserted_counterexample :
    ∃ idx, build NewIndex [("GET", "/a/\x7bid\x7d", ["r"]), ("GET", "/a/\x7bx\x7d", ["w"])] =
        some idx ∧
      FindScopes idx "GET" "/a/\x7bid\x7d" = (["w"], none) ∧
      FindScopes idx "GET" "/a/\x7bid\x7d" ≠ (["r"], none) := by
  have hex : (build NewIndex [("GET", "/a/\x7bid\x7d", ["r"]), ("GET", "/a/\x7bx\x7d", ["w"])]).map
      (fun idx => FindScopes idx "GET" "/a/\x7bid\x7d") = some (["w"], none) := by decide
  cases hb : build NewIndex [("GET", "/a/\x7bid\x7d", ["r"]), ("GET", "/a/\x7bx\x7d", ["w"])] with
  | none => rw [hb] at hex; cases hex
  | some idx =>
    rw [hb] at hex
    simp only [Option.map_some', Option.some.injEq] at hex
    refine ⟨idx, rfl, hex, ?_⟩
    rw [hex]
    decide

/-- Witness of C5: the orders template, looked up under another parameter name. -/
theorem findScopes_inserted_witness :
    build NewIndex exampleOps = some exampleIndex ∧
    FindScopes exampleIndex "POST" "/accounts/\x7bid\x7d/orders" = (["write"], none) :=
  ⟨rfl, findScopes_inserted [("GET", "/accounts/\x7baccountNumber\x7d/orders", ["read"])]
    [("GET", "/accounts/\x7baccountNumber\x7d", ["read"]),
     ("GET", "/instruments/lists", ["read"]),
     ("GET", "/instruments/\x7bid\x7d", ["read"])]
    "POST" "/accounts/\x7baccountNumber\x7d/orders" ["write"] exampleIndex rfl (by decide)
    "/accounts/\x7bid\x7d/orders" (by decide)⟩

/-- C6 (amended): in an index built by a sequence of `AddMethodPathScopes` calls, for an
inserted path, and for a concrete path that matches an inserted template element by element
where no static element inserted at the position of a parameter hides it, `FindMethods`
succeeds and returns, without duplicates, exactly the methods inserted at paths equal to the
template up to the names of parameter elements. -/
theorem findMethods_inserted (ops : List (String × String × Scopes)) (idx : Index)
    (hb : build NewIndex ops = some idx) (p q : String)
    (hp : ∃ op ∈ ops, op.2.1 = p)
    (hq : q = p ∨ MatchesTemplate ops [] (split p) (split q)) :
    ∃ ms, FindMethods idx q = (ms, none) ∧ ms.Nodup ∧
      ∀ m, m ∈ ms ↔ ∃ op ∈ ops, op.1 = m ∧ pathKey op.2.1 = pathKey p := by
  obtain ⟨hw, hm, hreach⟩ := build_NewIndex hb
  obtain ⟨hnd, hmem⟩ := methodsAfter_keys (pathKey p) ops [] (by simp [mapKeys])
  obtain ⟨op, hop, hopp⟩ := hp
  have hkey : op.1 ∈ mapKeys (methodsAt idx.root (pathKey p)) := by
    rw [hm, hmem]
    exact Or.inr ⟨op, hop, rfl, by rw [hopp]⟩
  obtain ⟨t, ht, htm⟩ := walk_of_methodsAt hkey
  have hsome : (walk idx.root ((split p).map segKey)).isSome = true := by
    show (walk idx.root (pathKey p)).isSome = true
    rw [ht]; rfl
  have hfind : findLoop idx.root (split q) = .ok t := by
    apply findLoop_of_walk (pathKey p) (split q) hw ht
    rcases hq with rfl | hq
    · exact follows_self _ hw hsome
    · exact follows_of_matchesTemplate hreach _ _ [] hw rfl hsome hq
  refine ⟨mapKeys t.Methods, ?_, ?_, ?_⟩
  · unfold FindMethods
    rw [Find_eq, hfind]
  · rw [htm, hm]; exact hnd
  · intro m
    rw [htm, hm, hmem]
    simp [mapKeys]

/-- C6, as stated, fails: with `GET /a/{x}/c` and `POST /a/b/d` inserted, the concrete path
`/a/b/c` matches the inserted template `/a/{x}/c` element by element and `FindMethods` returns
an error and no methods. -/
theorem findMethods_inserted_counterexample :
    ∃ idx, build NewIndex [("GET", "/a/\x7bx\x7d/c", []), ("POST", "/a/b/d", [])] = some idx ∧
      matchesSegments (split "/a/\x7bx\x7d/c") (split "/a/b/c") = true ∧
      FindMethods idx "/a/b/c" = ([], some "no match for c") := by
  have hex : (build NewIndex [("GET", "/a/\x7bx\x7d/c", []), ("POST", "/a/b/d", [])]).map
      (fun idx => FindMethods idx "/a/b/c") = some ([], some "no match for c") := by decide
  cases hb : build NewIndex [("GET", "/a/\x7bx\x7d/c", []), ("POST", "/a/b/d", [])] with
  | none => rw [hb] at hex; cases hex
  | some idx =>
    rw [hb] at hex
    simp only [Option.map_some', Option.some.injEq] at hex
    exact ⟨idx, rfl, by decide, hex⟩

/-- Witness of C6: a concrete orders path, as in `TestFindMethods`. -/
theorem findMethods_inserted_witness :
    build NewIndex exampleOps = some exampleIndex ∧
    MatchesTemplate exampleOps [] (split "/accounts/\x7baccountNumber\x7d/orders")
      (split "/accounts/1213/orders") ∧
    ∃ ms, FindMethods exampleIndex "/accounts/1213/orders" = (ms, none) ∧ ms.Nodup ∧
      ∀ m, m ∈ ms ↔ ∃ op ∈ exampleOps, op.1 = m ∧
        pathKey op.2.1 = pathKey "/accounts/\x7baccountNumber\x7d/orders" :=
  have hm : MatchesTemplate exampleOps [] (split "/accounts/\x7baccountNumber\x7d/orders")
      (split "/accounts/1213/orders") := by
    have hs1 : split "/accounts/\x7baccountNumber\x7d/orders" =
        ["accounts", "\x7baccountNumber\x7d", "orders"] := by decide
    have hs2 : split "/accounts/1213/orders" = ["accounts", "1213", "orders"] := by decide
    rw [hs1, hs2]
    simp only [MatchesTemplate]
    decide
  ⟨rfl, hm, findMethods_inserted exampleOps exampleIndex rfl
    "/accounts/\x7baccountNumber\x7d/orders" "/accounts/1213/orders"
    ⟨_, List.mem_cons_self _ _, rfl⟩ (Or.inr hm)⟩

/-- C7: `nodes.match` on any list of children, in any order. If some child has the segment as
its name, the first such child is returned, whatever parameter siblings come before or after
it. If no child has that name and some child is a parameter node, a parameter node (the last
one) is returned, for every segment. If neither is the case nothing matches. -/
theorem match_prefers_name (ns : List node) (seg : String) :
    ((∃ c ∈ ns, c.name = seg) →
      ∃ c, nodes_match ns seg = some c ∧ c ∈ ns ∧ c.name = seg ∧
        ns.find? (fun c => c.name == seg) = some c) ∧
    ((∀ c ∈ ns, c.name ≠ seg) → (∃ p ∈ ns, p.param = true) →
      ∃ p, nodes_match ns seg = some p ∧ p ∈ ns ∧ p.param = true ∧
        (ns.filter (fun c => c.param)).getLast? = some p) ∧
    (nodes_match ns seg = none ↔ ∀ c ∈ ns, c.name ≠ seg ∧ c.param = false) := by
  refine ⟨?_, ?_, nodes_match_none_iff ns seg⟩
  · rintro ⟨c, hc, hcn⟩
    rw [nodes_match_spec]
    cases hf : ns.find? (fun c => c.name == seg) with
    | none =>
      have := List.find?_eq_none.1 hf c hc
      simp [hcn] at this
    | some d =>
      exact ⟨d, rfl, List.mem_of_find?_eq_some hf, by simpa using List.find?_some hf, rfl⟩
  · rintro hno ⟨p, hp, hpp⟩
    rw [nodes_match_spec]
    have hf : ns.find? (fun c => c.name == seg) = none := by
      rw [List.find?_eq_none]
      intro c hc
      simpa using hno c hc
    rw [hf]
    cases hl : (ns.filter (fun c => c.param)).getLast? with
    | none =>
      rw [List.getLast?_eq_none_iff] at hl
      have : p ∈ ns.filter (fun c => c.param) := List.mem_filter.2 ⟨hp, hpp⟩
      rw [hl] at this
      cases this
    | some q =>
      have hq := List.mem_filter.1 (List.mem_of_getLast?_eq_some hl)
      exact ⟨q, rfl, hq.1, hq.2, rfl⟩

/-- Witness of C7: the static child wins in both orders, the parameter child matches `00`. -/
theorem match_prefers_name_witness :
    nodes_match [.mk "\x7bid\x7d" true [] [], .mk "lists" false [] []] "lists" =
      some (.mk "lists" false [] []) ∧
    nodes_match [.mk "lists" false [] [], .mk "\x7bid\x7d" true [] []] "lists" =
      some (.mk "lists" false [] []) ∧
    (∃ p, nodes_match [.mk "lists" false [] [], .mk "\x7bid\x7d" true [] []] "00" = some p ∧
      p.param = true) :=
  ⟨rfl, rfl,
    let ⟨p, h1, _, h3, _⟩ :=
      (match_prefers_name [.mk "lists" false [] [], .mk "\x7bid\x7d" true [] []] "00").2.1
        (by decide) ⟨.mk "\x7bid\x7d" true [] [], by simp, rfl⟩
    ⟨p, h1, h3⟩⟩

/-- C8: `FindScopes(method, path)`. When the descent stops at a node none of whose children
has the segment as its name or is a parameter node (a leaf in particular, when the path is
longer than the indexed branch), the result is no scopes and the error "no match for" that
segment. When the path resolves to a node without an entry for `method`, the result is no
scopes and the error "no method path in index", a text different from the no-match error of
every segment of the path. One of these two cases or success always applies. -/
theorem findScopes_errors (idx : Index) (method p : String) :
    (∀ pre e post m, split p = pre ++ e :: post → findLoop idx.root pre = .ok m →
      (∀ c ∈ m.children, c.name ≠ e ∧ c.param = false) →
      FindScopes idx method p = ([], some ("no match for " ++ e))) ∧
    (∀ n, Find idx p = .ok n → mapGet n.Methods method = none →
      FindScopes idx method p = ([], some ("no " ++ method ++ " " ++ p ++ " in index"))) ∧
    (∀ e ∈ split p, "no match for " ++ e ≠ "no " ++ method ++ " " ++ p ++ " in index") ∧
    ((∃ n, Find idx p = .ok n) ∨
      ∃ pre e post m, split p = pre ++ e :: post ∧ findLoop idx.root pre = .ok m ∧
        ∀ c ∈ m.children, c.name ≠ e ∧ c.param = false) := by
  refine ⟨?_, ?_, fun e he => errors_differ method p e (split_length p e he), ?_⟩
  · intro pre e post m hs hpre hno
    have hnone := (nodes_match_none_iff m.children e).2 hno
    unfold FindScopes
    rw [Find_eq, hs, findLoop_append, hpre]
    simp only [findLoop, hnone]
  · intro n hn hget
    unfold FindScopes
    rw [hn]
    simp only [hget]
  · rcases findLoop_total (split p) idx.root with ⟨t, ht⟩ | ⟨pre, e, post, m, h1, h2, h3, -⟩
    · left; exact ⟨t, by rw [Find_eq, ht]⟩
    · right; exact ⟨pre, e, post, m, h1, h2, (nodes_match_none_iff _ _).1 h3⟩

/-- Witness of C8: paths of `TestMatch` and `TestNoMethods` on the example index. -/
theorem findScopes_errors_witness :
    FindScopes exampleIndex "GET" "/instruments/lists/01" = ([], some "no match for 01") ∧
    FindScopes exampleIndex "GET" "/xxx" = ([], some "no match for xxx") ∧
    FindScopes exampleIndex "PUT" "/instruments/00" =
      ([], some "no PUT /instruments/00 in index") :=
  ⟨by decide, by decide,
    match h : Find exampleIndex "/instruments/00" with
    | .ok n => by
      have := (findScopes_errors exampleIndex "PUT" "/instruments/00").2.1 n h
      exact this (by
        have h2 : (Find exampleIndex "/instruments/00").toOption.map
            (fun n => mapGet n.Methods "PUT") = some none := by decide
        rw [h] at h2
        simpa [Except.toOption] using h2)
    | .error e => by
      have h2 : (Find exampleIndex "/instruments/00").toOption.isSome = true := by decide
      rw [h] at h2
      cases h2⟩

end path

namespace mw

/-- C9: `Call(token)` at clock reading `now`. If the cache holds an entry for `token` whose
`Timestamp` plus 10 seconds is strictly after `now`, that entry is returned, no introspection
call is made and the client is unchanged. Otherwise exactly one introspection call is made; on
success the response is returned and stored under `token`, every other cache entry unchanged;
on failure the error is returned and the client, cache included, is unchanged. -/
theorem call_spec (c : TokeninfoClient) (now : Int) (token : String) :
    (∀ ti, c.cache.get token = some ti → now < ti.Timestamp + 10 * Second →
      c.Call now token = ⟨(some ti, none), c, []⟩) ∧
    ((∀ ti, c.cache.get token = some ti → ¬ now < ti.Timestamp + 10 * Second) →
      (c.Call now token).introspections = [token] ∧
      (∀ ti, c.basicCall token = .ok ti →
        (c.Call now token).ret = (some ti, none) ∧
        (c.Call now token).client.cache.get token = some ti ∧
        (∀ k, k ≠ token → (c.Call now token).client.cache.get k = c.cache.get k) ∧
        (c.Call now token).client.url = c.url ∧
        (c.Call now token).client.basicCall = c.basicCall) ∧
      (∀ err, c.basicCall token = .error err →
        (c.Call now token).ret = (none, some err) ∧ (c.Call now token).client = c)) := by
  have hfetch : (c.fetch token).introspections = [token] ∧
      (∀ ti, c.basicCall token = .ok ti →
        (c.fetch token).ret = (some ti, none) ∧
        (c.fetch token).client.cache.get token = some ti ∧
        (∀ k, k ≠ token → (c.fetch token).client.cache.get k = c.cache.get k) ∧
        (c.fetch token).client.url = c.url ∧
        (c.fetch token).client.basicCall = c.basicCall) ∧
      (∀ err, c.basicCall token = .error err →
        (c.fetch token).ret = (none, some err) ∧ (c.fetch token).client = c) := by
    unfold TokeninfoClient.fetch
    cases hb : c.basicCall token with
    | error e =>
      refine ⟨rfl, fun ti h => (by cases h), fun err h => ?_⟩
      cases h
      exact ⟨rfl, rfl⟩
    | ok r =>
      refine ⟨rfl, fun ti h => ?_, fun err h => (by cases h)⟩
      cases h
      refine ⟨rfl, ?_, ?_, rfl, rfl⟩
      · simp [tokeninfoCache.get, tokeninfoCache.set, mapGet_mapSet]
      · intro k hk
        have hk' : ¬ token = k := fun e => hk e.symm
        simp [tokeninfoCache.get, tokeninfoCache.set, mapGet_mapSet, hk']
  constructor
  · intro ti hget hfresh
    unfold TokeninfoClient.Call
    rw [hget]
    simp only [gt_iff_lt, hfresh, if_true]
  · intro hstale
    have hcall : c.Call now token = c.fetch token := by
      unfold TokeninfoClient.Call
      cases hget : c.cache.get token with
      | none => rfl
      | some ti =>
        simp only [gt_iff_lt, hstale ti hget, if_false]
    rw [hcall]
    exact hfetch

/-- Witness of C9: a miss on the empty cache, a hit after 9 s, a refetch after 10 s. -/
theorem call_spec_witness :
    (exampleClient.Call 0 "t").introspections = ["t"] ∧
    (exampleClientWarm.Call (9 * Second) "t") =
      ⟨(some ⟨"app", ["read"], 5, "", [("read", ())], 0⟩, none), exampleClientWarm, []⟩ ∧
    (exampleClientWarm.Call (10 * Second) "t").introspections = ["t"] :=
  ⟨((call_spec exampleClient 0 "t").2 (by intro ti h; cases h)).1,
   (call_spec exampleClientWarm (9 * Second) "t").1 _ rfl (by decide),
   ((call_spec exampleClientWarm (10 * Second) "t").2
      (by intro ti h; cases h; decide)).1⟩

/-- C10 fails on the code for large `ExpiresIn`: an entry received at clock reading 0 with
`ExpiresIn` 9223372037 (about 292 years) expires long after the first pass at one minute, but
`time.Duration(v.ExpiresIn) * time.Second` wraps to a negative duration and the pass deletes
the entry. -/
theorem gcPass_overflow_deletes_live_entry :
    ¬ ((0 : Int) + 9223372037 * Second < Minute) ∧
    (gcPass ⟨[("t", ⟨"app", ["read"], 9223372037, "", [("read", ())], 0⟩)]⟩ Minute).get "t" =
      none := by
  decide

/-- C11 (amended): `extractToken` splits the `Authorization` header at the case-sensitive text
`Bearer` and wants exactly two parts. A header in which `Bearer` occurs once, whatever text
comes before it and also when nothing follows it, yields the whitespace-trimmed text after
`Bearer` as the token. A header without `Bearer` (an absent or empty header, another scheme,
another letter case) and a header in which `Bearer` occurs again after its first occurrence
yield the 400 error "Missing or malformed token". Every header is in one of these cases. -/
theorem extractToken_spec (c : Context) :
    (¬ Occurs "Bearer" (headerGet c.request.Header "Authorization") →
      extractToken c = ("", some ErrTokenMissing)) ∧
    (∀ pre post, FirstOccurrence "Bearer" (headerGet c.request.Header "Authorization") pre post →
      (¬ Occurs "Bearer" post → extractToken c = (TrimSpace post, none)) ∧
      (Occurs "Bearer" post → extractToken c = ("", some ErrTokenMissing))) ∧
    (Occurs "Bearer" (headerGet c.request.Header "Authorization") →
      ∃ pre post, FirstOccurrence "Bearer" (headerGet c.request.Header "Authorization") pre post) ∧
    ErrTokenMissing = .http 400 "Missing or malformed token" := by
  have hsep : "Bearer".data ≠ [] := by decide
  refine ⟨?_, ?_, ?_, rfl⟩
  · intro h
    unfold extractToken
    by_cases he : headerGet c.request.Header "Authorization" = ""
    · simp only [he, if_true]
    · have hlen := (stringsSplit_length_one_iff _ _ hsep).2 h
      simp only [he, if_false, hlen]
      simp
  · intro pre post hf
    have hne : headerGet c.request.Header "Authorization" ≠ "" := by
      intro he
      have := hf.1
      rw [he] at this
      have hl := congrArg List.length this
      simp at hl
      have h6 : "Bearer".data.length = 6 := by decide
      omega
    have hsplit := (stringsSplit_spec _ _ hsep).2 pre post hf
    refine ⟨?_, ?_⟩
    · intro hno
      have hpost := (stringsSplit_spec post "Bearer" hsep).1 hno
      unfold extractToken
      simp only [hne, if_false, hsplit, hpost]
      simp
    · intro hocc
      have hlen : (stringsSplit post "Bearer").length ≠ 1 := fun h1 =>
        (stringsSplit_length_one_iff _ _ hsep).1 h1 hocc
      unfold extractToken
      simp only [hne, if_false, hsplit, List.length_cons]
      rw [if_pos (by omega)]
  · intro hocc
    obtain ⟨pre, post, hl, hmin⟩ := exists_first_occurrence _ _ hocc
    exact ⟨⟨pre⟩, ⟨post⟩, hl, hmin⟩

/-- C11, as stated, fails: text before the word `Bearer` is accepted and its rest is the
token, and the word `Bearer` with nothing after it is accepted with the empty token. -/
theorem extractToken_spec_counterexample :
    extractToken ⟨⟨"GET", "/", [("Authorization", "xBearer abc")]⟩, []⟩ = ("abc", none) ∧
    extractToken ⟨⟨"GET", "/", [("Authorization", "Bearer")]⟩, []⟩ = ("", none) := by
  decide

/-- Witness of C11: the header of `oauth2_test.go`, and a header of another scheme. -/
theorem extractToken_spec_witness :
    extractToken exampleContext = ("value-not-important", none) ∧
    extractToken ⟨⟨"GET", "/", [("Authorization", "Basic abc")]⟩, []⟩ =
      ("", some ErrTokenMissing) :=
  ⟨((extractToken_spec exampleContext).2.1 "" " value-not-important"
      ⟨by decide, fun _ _ _ => Nat.zero_le _⟩).1 (by unfold Occurs; decide),
    (extractToken_spec ⟨⟨"GET", "/", [("Authorization", "Basic abc")]⟩, []⟩).1
      (by unfold Occurs; decide)⟩

/-- C12: an OPTIONS request that is not skipped, whose non-empty `Origin` matches the allow
list and whose non-empty `Access-Control-Request-Method` is in the list the allow-methods
function returns for the path, is answered with status 200 and no body, without a call of
`next`. The response carries `Access-Control-Allow-Origin` with the origin,
`Access-Control-Allow-Methods` with the method, `Access-Control-Allow-Headers` with the
requested headers followed by `,Content-Type`, or `Content-Type` alone when none are requested,
the value `Origin` added to `Vary`, and `Access-Control-Allow-Credentials: true` when the
request has a non-empty `Authorization` header; without one that header is left as it was, and
every other header is left as it was. -/
theorem cors_preflight_allowed (config : CORSConfig) (next : ResponseHandlerFunc) (c : Context)
    (res : Response) (ao allowMethods : List String)
    (hskip : config.Skipper.getD DefaultSkipper c = false)
    (horigin : headerGet c.request.Header "Origin" ≠ "")
    (hao : config.originsFn () = (ao, none))
    (hmatch : originAllowed (headerGet c.request.Header "Origin") ao)
    (hopt : c.request.Method = "OPTIONS")
    (hmethod : headerGet c.request.Header "Access-Control-Request-Method" ≠ "")
    (ham : config.methodsFn c.request.URL = (allowMethods, none))
    (hin : headerGet c.request.Header "Access-Control-Request-Method" ∈ allowMethods) :
    (CORSWithConfig config next c res).err = none ∧
    (CORSWithConfig config next c res).nextCalls = [] ∧
    (CORSWithConfig config next c res).res.Status = 200 ∧
    (CORSWithConfig config next c res).res.Body = res.Body ∧
    mapGet (CORSWithConfig config next c res).res.Header "Access-Control-Allow-Origin" =
      some [headerGet c.request.Header "Origin"] ∧
    mapGet (CORSWithConfig config next c res).res.Header "Access-Control-Allow-Methods" =
      some [headerGet c.request.Header "Access-Control-Request-Method"] ∧
    mapGet (CORSWithConfig config next c res).res.Header "Access-Control-Allow-Headers" =
      some [if headerGet c.request.Header "Access-Control-Request-Headers" = "" then
          "Content-Type"
        else headerGet c.request.Header "Access-Control-Request-Headers" ++ ",Content-Type"] ∧
    mapGet (CORSWithConfig config next c res).res.Header "Vary" =
      some ((mapGet res.Header "Vary").getD [] ++ ["Origin"]) ∧
    mapGet (CORSWithConfig config next c res).res.Header "Access-Control-Allow-Credentials" =
      (if headerGet c.request.Header "Authorization" = "" then
        mapGet res.Header "Access-Control-Allow-Credentials"
      else some ["true"]) ∧
    ∀ k, k ≠ "Access-Control-Allow-Origin" → k ≠ "Access-Control-Allow-Methods" →
      k ≠ "Access-Control-Allow-Headers" → k ≠ "Vary" →
      k ≠ "Access-Control-Allow-Credentials" →
      mapGet (CORSWithConfig config next c res).res.Header k = mapGet res.Header k := by
  have hloop : allowOriginLoop (headerGet c.request.Header "Origin") ao ≠ "" := by
    intro h
    exact (allowOriginLoop_eq_empty_iff horigin ao).1 h hmatch
  have hsl : stringInSlice (headerGet c.request.Header "Access-Control-Request-Method")
      allowMethods = true := (stringInSlice_iff _ _).2 hin
  have hrun : CORSWithConfig config next c res =
      ⟨NoContent
        (((((if headerGet c.request.Header "Authorization" != "" then
            (res.Set "Access-Control-Allow-Origin" (headerGet c.request.Header "Origin")).Set
              "Access-Control-Allow-Credentials" "true"
          else res.Set "Access-Control-Allow-Origin" (headerGet c.request.Header "Origin")).Set
            "Access-Control-Allow-Methods"
            (headerGet c.request.Header "Access-Control-Request-Method")).Set
            "Access-Control-Allow-Headers"
            ((if !(headerGet c.request.Header "Access-Control-Request-Headers" == "") then
              headerGet c.request.Header "Access-Control-Request-Headers" ++ ","
            else headerGet c.request.Header "Access-Control-Request-Headers") ++
              "Content-Type")).Add "Vary" "Origin")) 200, [], none⟩ := by
    unfold CORSWithConfig
    simp only [hskip, horigin, hao, hloop, hopt, hmethod, ham, hsl, if_false, if_true,
      Bool.false_eq_true, Bool.not_true]
  rw [hrun]
  refine ⟨rfl, rfl, rfl, ?_, ?_, ?_, ?_, ?_, ?_, ?_⟩
  · by_cases ha : headerGet c.request.Header "Authorization" = "" <;>
      simp [ha, NoContent, Response.Set, Response.Add]
  · by_cases ha : headerGet c.request.Header "Authorization" = "" <;>
      simp [ha, NoContent, Response.Set, Response.Add, mapGet_mapSet]
  · by_cases ha : headerGet c.request.Header "Authorization" = "" <;>
      simp [ha, NoContent, Response.Set, Response.Add, mapGet_mapSet]
  · by_cases ha : headerGet c.request.Header "Authorization" = "" <;>
    by_cases hh : headerGet c.request.Header "Access-Control-Request-Headers" = "" <;>
      simp [ha, hh, NoContent, Response.Set, Response.Add, mapGet_mapSet, String.append_assoc]
  · by_cases ha : headerGet c.request.Header "Authorization" = "" <;>
      simp [ha, NoContent, Response.Set, Response.Add, mapGet_mapSet]
  · by_cases ha : headerGet c.request.Header "Authorization" = "" <;>
      simp [ha, NoContent, Response.Set, Response.Add, mapGet_mapSet]
  · intro k h1 h2 h3 h4 h5
    by_cases ha : headerGet c.request.Header "Authorization" = "" <;>
      simp [ha, NoContent, Response.Set, Response.Add, mapGet_mapSet, h1.symm, h2.symm,
        h3.symm, h4.symm, h5.symm]

/-- Witness of C12: the preflight request `th01` on the example index. -/
theorem cors_preflight_allowed_witness :
    CORSWithConfig exampleCORS exampleUpstream examplePreflight freshResponse =
      ⟨⟨200, [("Access-Control-Allow-Origin", ["localhost"]),
          ("Access-Control-Allow-Credentials", ["true"]),
          ("Access-Control-Allow-Methods", ["GET"]),
          ("Access-Control-Allow-Headers", ["authorization,Content-Type"]),
          ("Vary", ["Origin"])], ""⟩, [], none⟩ ∧
    mapGet (CORSWithConfig exampleCORS exampleUpstream examplePreflight freshResponse).res.Header
      "Access-Control-Allow-Origin" = some ["localhost"] :=
  ⟨by decide,
    (cors_preflight_allowed exampleCORS exampleUpstream examplePreflight freshResponse ["*"]
      ["GET"] rfl (by decide) rfl ⟨"*", by simp, Or.inl rfl⟩ rfl (by decide) (by decide)
      (by decide)).2.2.2.2.1⟩

/-- C13: a request without an `Origin` header, or whose `Origin` equals none of the allowed
origins while the list holds no `*`, goes to `next` once with the response as it was, and the
result of `next` is returned; this holds for every method and also when the request is
skipped. -/
theorem cors_passthrough (config : CORSConfig) (next : ResponseHandlerFunc) (c : Context)
    (res : Response)
    (h : headerGet c.request.Header "Origin" = "" ∨
      ∃ ao, config.originsFn () = (ao, none) ∧
        ∀ o ∈ ao, o ≠ "*" ∧ o ≠ headerGet c.request.Header "Origin") :
    CORSWithConfig config next c res = ⟨(next c res).1, [(c, res)], (next c res).2⟩ := by
  unfold CORSWithConfig
  by_cases hs : config.Skipper.getD DefaultSkipper c = true
  · simp only [hs, if_true]; rfl
  · simp only [hs, if_false, Bool.false_eq_true]
    by_cases ho : headerGet c.request.Header "Origin" = ""
    · simp only [ho, if_true]; rfl
    · rcases h with h | ⟨ao, hao, hno⟩
      · exact absurd h ho
      · have hloop : allowOriginLoop (headerGet c.request.Header "Origin") ao = "" := by
          rw [allowOriginLoop_eq_empty_iff ho]
          rintro ⟨o, hm, h'⟩
          rcases h' with h' | h'
          · exact (hno o hm).1 h'
          · exact (hno o hm).2 h'
        simp only [ho, if_false, hao, hloop, if_true]
        rfl

/-- Witness of C13: a request without an `Origin` header. -/
theorem cors_passthrough_witness :
    CORSWithConfig exampleCORS exampleUpstream examplePathContext freshResponse =
      ⟨⟨200, [], "upstream1"⟩, [(examplePathContext, freshResponse)], none⟩ :=
  cors_passthrough exampleCORS exampleUpstream examplePathContext freshResponse (Or.inl rfl)

/-- C14: an OPTIONS request that is not skipped and whose non-empty `Origin` matches the allow
list. Without an `Access-Control-Request-Method` header the answer is status 204 with the
headers as they were and no call of `next`; the same holds when the requested method is not
in the list the allow-methods function returns for the path. When the allow-methods function
fails, its error is returned, the response is as it was and `next` is not called. -/
theorem cors_preflight_refused (config : CORSConfig) (next : ResponseHandlerFunc) (c : Context)
    (res : Response) (ao : List String)
    (hskip : config.Skipper.getD DefaultSkipper c = false)
    (horigin : headerGet c.request.Header "Origin" ≠ "")
    (hao : config.originsFn () = (ao, none))
    (hmatch : originAllowed (headerGet c.request.Header "Origin") ao)
    (hopt : c.request.Method = "OPTIONS") :
    (headerGet c.request.Header "Access-Control-Request-Method" = "" →
      CORSWithConfig config next c res = ⟨⟨204, res.Header, res.Body⟩, [], none⟩) ∧
    (headerGet c.request.Header "Access-Control-Request-Method" ≠ "" →
      ∀ allowMethods, config.methodsFn c.request.URL = (allowMethods, none) →
        headerGet c.request.Header "Access-Control-Request-Method" ∉ allowMethods →
        CORSWithConfig config next c res = ⟨⟨204, res.Header, res.Body⟩, [], none⟩) ∧
    (headerGet c.request.Header "Access-Control-Request-Method" ≠ "" →
      ∀ allowMethods err, config.methodsFn c.request.URL = (allowMethods, some err) →
        CORSWithConfig config next c res = ⟨res, [], some err⟩) := by
  have hloop : allowOriginLoop (headerGet c.request.Header "Origin") ao ≠ "" := by
    intro h
    exact (allowOriginLoop_eq_empty_iff horigin ao).1 h hmatch
  refine ⟨?_, ?_, ?_⟩
  · intro hm
    unfold CORSWithConfig
    simp only [hskip, horigin, hao, hloop, hopt, hm, if_false, if_true, Bool.false_eq_true]
    rfl
  · intro hm allowMethods ham hnot
    have hsl : stringInSlice (headerGet c.request.Header "Access-Control-Request-Method")
        allowMethods = false := by
      cases hb : stringInSlice (headerGet c.request.Header "Access-Control-Request-Method")
        allowMethods with
      | false => rfl
      | true => exact absurd ((stringInSlice_iff _ _).1 hb) hnot
    unfold CORSWithConfig
    simp only [hskip, horigin, hao, hloop, hopt, hm, ham, hsl, if_false, if_true,
      Bool.false_eq_true, Bool.not_false]
    rfl
  · intro hm allowMethods err ham
    unfold CORSWithConfig
    simp only [hskip, horigin, hao, hloop, hopt, hm, ham, if_false, if_true, Bool.false_eq_true]

/-- Witness of C14: a preflight for PUT on a path that only has GET, and a preflight for a path
that is not in the index. -/
theorem cors_preflight_refused_witness :
    CORSWithConfig exampleCORS exampleUpstream examplePreflightPut freshResponse =
      ⟨⟨204, [], ""⟩, [], none⟩ ∧
    CORSWithConfig exampleCORS exampleUpstream (examplePreflight.setPath "/doesnotexist")
      freshResponse = ⟨freshResponse, [], some (.http 404 "no match for doesnotexist")⟩ :=
  ⟨(cors_preflight_refused exampleCORS exampleUpstream examplePreflightPut freshResponse ["*"]
      rfl (by decide) rfl ⟨"*", by simp, Or.inl rfl⟩ rfl).2.1 (by decide) ["GET"] (by decide)
      (by decide),
    by decide⟩

/-- C15: a request that is not skipped, is not an OPTIONS request and whose non-empty `Origin`
matches the allow list by equality or by the wildcard. `next` is called once, with a response
that carries `Access-Control-Allow-Origin` with the origin of the request, the value `Origin`
added to `Vary`, and `Access-Control-Allow-Credentials: true` when the request has a non-empty
`Authorization` header (without one that header is as it was); what `next` returns, response
and error, is returned. -/
theorem cors_actual_request (config : CORSConfig) (next : ResponseHandlerFunc) (c : Context)
    (res : Response) (ao : List String)
    (hskip : config.Skipper.getD DefaultSkipper c = false)
    (horigin : headerGet c.request.Header "Origin" ≠ "")
    (hao : config.originsFn () = (ao, none))
    (hmatch : originAllowed (headerGet c.request.Header "Origin") ao)
    (hopt : c.request.Method ≠ "OPTIONS") :
    ∃ res', CORSWithConfig config next c res = ⟨(next c res').1, [(c, res')], (next c res').2⟩ ∧
      res'.Status = res.Status ∧ res'.Body = res.Body ∧
      mapGet res'.Header "Access-Control-Allow-Origin" =
        some [headerGet c.request.Header "Origin"] ∧
      mapGet res'.Header "Vary" = some ((mapGet res.Header "Vary").getD [] ++ ["Origin"]) ∧
      mapGet res'.Header "Access-Control-Allow-Credentials" =
        (if headerGet c.request.Header "Authorization" = "" then
          mapGet res.Header "Access-Control-Allow-Credentials"
        else some ["true"]) ∧
      ∀ k, k ≠ "Access-Control-Allow-Origin" → k ≠ "Vary" →
        k ≠ "Access-Control-Allow-Credentials" → mapGet res'.Header k = mapGet res.Header k := by
  have hloop : allowOriginLoop (headerGet c.request.Header "Origin") ao ≠ "" := by
    intro h
    exact (allowOriginLoop_eq_empty_iff horigin ao).1 h hmatch
  refine ⟨(if headerGet c.request.Header "Authorization" != "" then
      (res.Set "Access-Control-Allow-Origin" (headerGet c.request.Header "Origin")).Set
        "Access-Control-Allow-Credentials" "true"
    else res.Set "Access-Control-Allow-Origin" (headerGet c.request.Header "Origin")).Add
      "Vary" "Origin", ?_, ?_, ?_, ?_, ?_, ?_, ?_⟩
  · unfold CORSWithConfig
    simp only [hskip, horigin, hao, hloop, hopt, if_false, Bool.false_eq_true]
    rfl
  · by_cases ha : headerGet c.request.Header "Authorization" = "" <;>
      simp [ha, Response.Set, Response.Add]
  · by_cases ha : headerGet c.request.Header "Authorization" = "" <;>
      simp [ha, Response.Set, Response.Add]
  · by_cases ha : headerGet c.request.Header "Authorization" = "" <;>
      simp [ha, Response.Set, Response.Add, mapGet_mapSet]
  · by_cases ha : headerGet c.request.Header "Authorization" = "" <;>
      simp [ha, Response.Set, Response.Add, mapGet_mapSet]
  · by_cases ha : headerGet c.request.Header "Authorization" = "" <;>
      simp [ha, Response.Set, Response.Add, mapGet_mapSet]
  · intro k h1 h2 h3
    by_cases ha : headerGet c.request.Header "Authorization" = "" <;>
      simp [ha, Response.Set, Response.Add, mapGet_mapSet, h1.symm, h2.symm, h3.symm]

/-- Witness of C15: the request `th08`, and the same request with a `next` that fails. -/
theorem cors_actual_request_witness :
    CORSWithConfig exampleCORS exampleUpstream exampleCrossOrigin freshResponse =
      ⟨⟨200, [("Access-Control-Allow-Origin", ["localhost"]), ("Vary", ["Origin"])],
        "upstream1"⟩,
        [(exampleCrossOrigin,
          ⟨0, [("Access-Control-Allow-Origin", ["localhost"]), ("Vary", ["Origin"])], ""⟩)],
        none⟩ ∧
    ∃ res', CORSWithConfig exampleCORS (fun _ r => (r, some (.http 404 "Not found")))
        exampleCrossOrigin freshResponse = ⟨res', [(exampleCrossOrigin, res')],
          some (.http 404 "Not found")⟩ ∧
      mapGet res'.Header "Access-Control-Allow-Origin" = some ["localhost"] :=
  ⟨by decide,
    let ⟨res', h1, _, _, h4, _⟩ :=
      cors_actual_request exampleCORS (fun _ r => (r, some (.http 404 "Not found")))
        exampleCrossOrigin freshResponse ["*"] rfl (by decide) rfl ⟨"*", by simp, Or.inl rfl⟩
        (by decide)
    ⟨res', h1, h4⟩⟩

/-- C16: the Path middleware on a request that is not skipped, with path `p`, required
prefix `r` and trimmed prefix `t`. If `r` is not a prefix of `p` the 404 error "Not found" is
returned, `next` is not called and the path is unchanged. Otherwise `next` is called once,
with the path `p` without its leading `t` when `p` starts with `t` and with `p` itself when
it does not, and what `next` returns is returned. -/
theorem path_rewrite (config : PathConfig) (next : HandlerFunc) (c : Context)
    (hskip : config.Skipper.getD DefaultSkipper c = false) :
    (¬ config.RequirePrefix.data <+: c.request.URL.data →
      PathWithConfig config next c = ⟨c, [], some (.http 404 "Not found")⟩) ∧
    (config.RequirePrefix.data <+: c.request.URL.data →
      (∀ rest, c.request.URL.data = config.TrimPrefix.data ++ rest →
        PathWithConfig config next c =
          ⟨c.setPath (String.mk rest), [c.setPath (String.mk rest)],
            next (c.setPath (String.mk rest))⟩) ∧
      (¬ config.TrimPrefix.data <+: c.request.URL.data →
        PathWithConfig config next c = ⟨c, [c], next c⟩)) := by
  refine ⟨?_, ?_⟩
  · intro hr
    have h : HasPrefix c.request.URL config.RequirePrefix = false := by
      unfold HasPrefix
      cases hb : config.RequirePrefix.data.isPrefixOf c.request.URL.data with
      | false => rfl
      | true => exact absurd (List.isPrefixOf_iff_prefix.1 hb) hr
    unfold PathWithConfig
    simp only [hskip, h, if_false, if_true, Bool.false_eq_true, Bool.not_false]
  · intro hr
    have h : HasPrefix c.request.URL config.RequirePrefix = true :=
      List.isPrefixOf_iff_prefix.2 hr
    refine ⟨?_, ?_⟩
    · intro rest hrest
      have ht : TrimPrefix c.request.URL config.TrimPrefix = String.mk rest := by
        unfold TrimPrefix HasPrefix
        rw [if_pos (List.isPrefixOf_iff_prefix.2 ⟨rest, hrest.symm⟩), hrest]
        simp
      unfold PathWithConfig
      simp only [hskip, h, ht, if_false, Bool.false_eq_true, Bool.not_true]
    · intro hnt
      have ht : TrimPrefix c.request.URL config.TrimPrefix = c.request.URL := by
        unfold TrimPrefix HasPrefix
        rw [if_neg]
        intro hb
        exact hnt (List.isPrefixOf_iff_prefix.1 hb)
      have hc : c.setPath c.request.URL = c := rfl
      unfold PathWithConfig
      simp only [hskip, h, ht, hc, if_false, Bool.false_eq_true, Bool.not_true]

/-- Witness of C16: cases 6 and 7 of `TestPath`. -/
theorem path_rewrite_witness :
    PathWithConfig ⟨none, "/api/v1", "/api/v1"⟩ exampleNext examplePathContext =
      ⟨examplePathContext.setPath "/doc/swagger.json",
        [examplePathContext.setPath "/doc/swagger.json"], none⟩ ∧
    PathWithConfig ⟨none, "/api/v1", ""⟩ exampleNext (examplePathContext.setPath "/doc") =
      ⟨examplePathContext.setPath "/doc", [], some (.http 404 "Not found")⟩ :=
  ⟨((path_rewrite ⟨none, "/api/v1", "/api/v1"⟩ exampleNext examplePathContext rfl).2
      (by decide)).1 "/doc/swagger.json".data (by decide),
    (path_rewrite ⟨none, "/api/v1", ""⟩ exampleNext (examplePathContext.setPath "/doc") rfl).1
      (by decide)⟩

end mw

namespace ingress

open mw

/-- C17 fails on the code: the handler asserts the `*echo.HTTPError` of
`github.com/labstack/echo`, while the structured errors of `mw` and `gateway` are values of
`github.com/labstack/echo/v4`. So `ErrTokenMissing`, a structured error with code 400, is
written with status 500 and its error text as the message, on a template that executes
successfully; the same holds for every code and message. A structured error of the package
the handler imports and a plain error are written as the claim says. -/
theorem errorHandler_v4_error_as_500 :
    ErrTokenMissing = .http 400 "Missing or malformed token" ∧
    handlerOf parseFields plainJSON "\x7b\x7b.Status\x7d\x7d \x7b\x7b.Message\x7d\x7d"
      ErrTokenMissing freshResponse =
      ⟨500, [], "500 code=400, message=Missing or malformed token"⟩ ∧
    (∀ (code : Nat) (message : String), errorData (.http code message) =
      ⟨500, "code=" ++ toString code ++ ", message=" ++ message⟩) ∧
    handlerOf parseFields plainJSON "\x7b\x7b.Status\x7d\x7d \x7b\x7b.Message\x7d\x7d"
      (.httpV3 401 "Not allowed") freshResponse = ⟨401, [], "401 Not allowed"⟩ ∧
    handlerOf parseFields plainJSON "\x7b\x7b.Status\x7d\x7d \x7b\x7b.Message\x7d\x7d"
      (.plain "Plain text") freshResponse = ⟨500, [], "500 Plain text"⟩ :=
  ⟨rfl, by decide, fun _ _ => rfl, by decide, by decide⟩

/-- C18 fails on the code: the template `abc{{.ThisNameIsNotDefined}}` parses and fails at
execution after it wrote `abc`, and the body is `abc` followed by the JSON text, not the JSON
text alone. A template that fails before it writes anything, as the one of the test, gives
the JSON text alone. -/
theorem errorHandler_partial_output_before_json :
    handlerOf parseFields plainJSON "abc\x7b\x7b.ThisNameIsNotDefined\x7d\x7d"
      (.httpV3 404 "Not found") freshResponse =
      ⟨404, [], "abc\x7b\"Status\":404,\"Message\":\"Not found\"\x7d"⟩ ∧
    plainJSON ⟨404, "Not found"⟩ = "\x7b\"Status\":404,\"Message\":\"Not found\"\x7d" ∧
    handlerOf parseFields plainJSON "\x7b\x7b.ThisNameIsNotDefined\x7d\x7d"
      (.httpV3 404 "Not found") freshResponse =
      ⟨404, [], "\x7b\"Status\":404,\"Message\":\"Not found\"\x7d"⟩ := by
  decide

end ingress

namespace gateway

open mw ingress

/-- C19 (amended): while no index has been published, the scope and method lookup functions
of the gateway return the plain error "No OpenAPI definition read (yet)." for every method
and path, the OAuth2 middleware returns that error for every request it does not skip, and
the error handler writes it with status 500 and that text as the message: the body is the
output of the template on status 500 and that text when the template executes successfully. -/
theorem no_index_lookup (method url p : String) (parse : TemplateParse) (json : JSONEncode)
    (tmpl : String) (h : GoError → Response → Response) (res : Response)
    (tokeninfo : TokeninfoFunc) (next : HandlerFunc) (c : Context)
    (hh : customHTTPErrorHandler parse json tmpl = .ok h) :
    scopesFn none method url = ([], some (.plain "No OpenAPI definition read (yet).")) ∧
    allowMethodsFn none p = ([], some (.plain "No OpenAPI definition read (yet).")) ∧
    middlewareOf ⟨none, some tokeninfo, some (scopesFn none)⟩ next c =
      ⟨[], [], some (.plain "No OpenAPI definition read (yet).")⟩ ∧
    (h (.plain "No OpenAPI definition read (yet).") res).Status = 500 ∧
    errorData (.plain "No OpenAPI definition read (yet).") =
      ⟨500, "No OpenAPI definition read (yet)."⟩ ∧
    (∀ (t : Template) (out : String), parse tmpl = .ok t →
      t.Execute ⟨500, "No OpenAPI definition read (yet)."⟩ = (out, none) →
      h (.plain "No OpenAPI definition read (yet).") res =
        ⟨500, res.Header, res.Body ++ out⟩) := by
  refine ⟨rfl, rfl, rfl, ?_, rfl, ?_⟩
  · unfold customHTTPErrorHandler at hh
    cases hp : parse tmpl with
    | error e => rw [hp] at hh; cases hh
    | ok t =>
      rw [hp] at hh
      have hh' : h = _ := (Except.ok.inj hh).symm
      subst hh'
      simp only
      split <;> rfl
  · intro t out hparse hexec
    exact errorHandler_success parse json tmpl t h _ res out hparse hh hexec

/-- C19, as stated, fails: the error of the lookup functions without an index is written with
status 500, not 404. -/
theorem no_index_lookup_counterexample :
    (scopesFn none "GET" "/read").2 = some (.plain "No OpenAPI definition read (yet).") ∧
    handlerOf parseFields plainJSON "\x7b\x7b.Status\x7d\x7d \x7b\x7b.Message\x7d\x7d"
      (.plain "No OpenAPI definition read (yet).") freshResponse =
      ⟨500, [], "500 No OpenAPI definition read (yet)."⟩ := by
  decide

/-- Witness of C19 on the template of the test and a request with a bearer token. -/
theorem no_index_lookup_witness :
    middlewareOf ⟨none, some exampleTokeninfo, some (scopesFn none)⟩ exampleNext exampleContext =
      ⟨[], [], some (.plain "No OpenAPI definition read (yet).")⟩ ∧
    (handlerOf parseFields plainJSON "\x7b\x7b.Status\x7d\x7d \x7b\x7b.Message\x7d\x7d"
      (.plain "No OpenAPI definition read (yet).") freshResponse).Status = 500 :=
  ⟨(no_index_lookup "GET" "/" "/" parseFields plainJSON
      "\x7b\x7b.Status\x7d\x7d \x7b\x7b.Message\x7d\x7d"
      (handlerOf parseFields plainJSON "\x7b\x7b.Status\x7d\x7d \x7b\x7b.Message\x7d\x7d")
      freshResponse exampleTokeninfo exampleNext exampleContext rfl).2.2.1,
    by decide⟩

end gateway

namespace openapi

open path

/-- C20 (amended): for a Swagger document for which `newIndexFromSpec` returns an index, a
path of the document that no other path of the document equals up to the names of parameter
elements, and each of the seven operations present under it, `FindScopes(method, path)`
succeeds and returns the `oauth2` scope list of the first security requirement of the
operation without empty strings, and the empty list when the operation has no security
requirement or its first requirement has no `oauth2` key. -/
theorem newIndexFromSpec_scopes (specification : Swagger) (idx : Index)
    (hidx : newIndexFromSpec specification = some idx)
    (p : String) (item : PathItem) (hp : (p, item) ∈ specification.Paths)
    (huniq : ∀ kv ∈ specification.Paths, pathKey kv.1 = pathKey p → kv = (p, item))
    (method : String) (o : Operation) (ho : operationOf item method = some o) :
    FindScopes idx method p = (expectedScopes o, none) := by
  unfold newIndexFromSpec at hidx
  obtain ⟨hw, hm, -⟩ := build_NewIndex hidx
  apply findScopes_of_methodsAt hw
  rw [hm]
  apply methodsAfter_get_same
  · intro x hx h1 h2
    obtain ⟨kv, hkv, o', ho', hxe⟩ := (calls_mem specification x).1 hx
    have hx2 : x.2.1 = kv.1 := by rw [hxe]
    have hkv' := huniq kv hkv (by rw [← hx2]; exact h2)
    subst hkv'
    rw [h1, ho] at ho'
    cases ho'
    rw [hxe]
  · right
    exact ⟨(method, p, expectedScopes o), (calls_mem specification _).2 ⟨(p, item), hp, o, ho, rfl⟩,
      rfl, rfl⟩

/-- C20, as stated, fails: in a document with the paths `/a/{id}` (GET with scope `r`) and
`/a/{x}` (GET with scope `w`) both paths lead to one node; whichever path the iteration
visits last overwrites the scopes of the other. -/
theorem newIndexFromSpec_scopes_counterexample :
    (newIndexFromSpec ⟨[("/a/\x7bid\x7d", getOnly ["r"]), ("/a/\x7bx\x7d", getOnly ["w"])]⟩).map
      (fun idx => FindScopes idx "GET" "/a/\x7bid\x7d") = some (["w"], none) ∧
    (newIndexFromSpec ⟨[("/a/\x7bx\x7d", getOnly ["w"]), ("/a/\x7bid\x7d", getOnly ["r"])]⟩).map
      (fun idx => FindScopes idx "GET" "/a/\x7bx\x7d") = some (["r"], none) ∧
    (operationOf (getOnly ["r"]) "GET").map expectedScopes = some ["r"] ∧
    (operationOf (getOnly ["w"]) "GET").map expectedScopes = some ["w"] := by
  decide

/-- Witness of C20 on `exampleSwagger`: the GET of the orders path. -/
theorem newIndexFromSpec_scopes_witness :
    newIndexFromSpec exampleSwagger = some exampleSwaggerIndex ∧
    FindScopes exampleSwaggerIndex "GET" "/accounts/\x7baccountNumber\x7d/orders" =
      (["read"], none) :=
  ⟨rfl, newIndexFromSpec_scopes exampleSwagger exampleSwaggerIndex rfl
    "/accounts/\x7baccountNumber\x7d/orders"
    ⟨some ⟨[[("oauth2", ["read", ""])]]⟩, none, some ⟨[[("oauth2", ["write"])]]⟩, none, none,
      none, none⟩
    (List.mem_cons_self _ _) (by decide) "GET" ⟨[[("oauth2", ["read", ""])]]⟩ rfl⟩

end openapi

namespace openapi

open mw path

/-- C21: after any sequence of iterations of `Poll` that ran (state `st`), the stored checksum
is all zero when the callback has not been called and the MD5 of the body of its last call
otherwise. In the next iteration the callback is called, once and with the index parsed from
the body, exactly when the fetch succeeded, the MD5 of the body differs from the stored
checksum and the body parses into an index; the checksum then becomes the MD5 of that body.
In every other case that returns, the callback is not called and the checksum stays as it is;
so a failed fetch or a failed parse leaves it unchanged, and the body of the last call is not
published again. The only other case is a runtime fault while the index is built. -/
theorem poll_publishes (md5 : String → Checksum)
    (SpecFromRaw : String → Except GoError (Option Swagger))
    (gets : List (Except GoError String)) (got : Except GoError String) (st : PollState)
    (hrun : Poll md5 SpecFromRaw gets = some st) :
    Poll md5 SpecFromRaw (gets ++ [got]) = pollIteration md5 SpecFromRaw st got ∧
    PollInv md5 SpecFromRaw st ∧
    (Poll md5 SpecFromRaw [] = some ⟨zeroChecksum, []⟩) ∧
    (∀ b idx, got = .ok b → md5 b ≠ st.checksum → parse SpecFromRaw b = some (.ok idx) →
      pollIteration md5 SpecFromRaw st got = some ⟨md5 b, st.published ++ [(b, idx)]⟩) ∧
    ((¬ ∃ b idx, got = .ok b ∧ md5 b ≠ st.checksum ∧ parse SpecFromRaw b = some (.ok idx)) →
      pollIteration md5 SpecFromRaw st got = some st ∨
      (pollIteration md5 SpecFromRaw st got = none ∧
        ∃ b, got = .ok b ∧ md5 b ≠ st.checksum ∧ parse SpecFromRaw b = none)) ∧
    (∀ err, got = .error err → pollIteration md5 SpecFromRaw st got = some st) ∧
    (∀ b err, got = .ok b → parse SpecFromRaw b = some (.error err) →
      pollIteration md5 SpecFromRaw st got = some st) ∧
    (∀ b idx, st.published.getLast? = some (b, idx) → got = .ok b →
      pollIteration md5 SpecFromRaw st got = some st) := by
  have hinv : PollInv md5 SpecFromRaw st :=
    pollLoop_inv md5 SpecFromRaw gets ⟨zeroChecksum, []⟩ st
      ⟨rfl, fun c hc => absurd hc (List.not_mem_nil c)⟩ hrun
  have hcases := pollIteration_cases md5 SpecFromRaw st got
  have hno : (¬ ∃ b idx, got = .ok b ∧ md5 b ≠ st.checksum ∧
      parse SpecFromRaw b = some (.ok idx)) →
      pollIteration md5 SpecFromRaw st got = some st ∨
      (pollIteration md5 SpecFromRaw st got = none ∧
        ∃ b, got = .ok b ∧ md5 b ≠ st.checksum ∧ parse SpecFromRaw b = none) := by
    intro hn
    rcases hcases with ⟨b, idx, h1, h2, h3, -⟩ | ⟨-, h1⟩ | ⟨-, h2, h1⟩
    · exact absurd ⟨b, idx, h1, h2, h3⟩ hn
    · exact Or.inl h1
    · exact Or.inr ⟨h1, h2⟩
  refine ⟨?_, hinv, rfl, ?_, hno, ?_, ?_, ?_⟩
  · unfold Poll at hrun ⊢
    rw [pollLoop_append, hrun]
  · intro b idx hg hcs hp
    subst hg
    simp [pollIteration, hcs, hp]
  · intro err hg
    subst hg
    rfl
  · intro b err hg hp
    subst hg
    by_cases hcs : md5 b = st.checksum <;> simp [pollIteration, hcs, hp]
  · intro b idx hlast hg
    subst hg
    have hcs : md5 b = st.checksum := by
      rw [hinv.1, hlast]
    simp [pollIteration, hcs]

/-- Witness of C21: the document `v1` is fetched twice in a row and published once. -/
theorem poll_publishes_witness :
    Poll exampleMd5 exampleSpecFromRaw [.ok "v1", .ok "v1"] =
      some ⟨exampleMd5 "v1", [("v1", exampleSwaggerIndex)]⟩ := by
  have h := poll_publishes exampleMd5 exampleSpecFromRaw [.ok "v1"] (.ok "v1")
    ⟨exampleMd5 "v1", [("v1", exampleSwaggerIndex)]⟩ rfl
  exact h.1.trans (h.2.2.2.2.2.2.2 "v1" exampleSwaggerIndex rfl rfl)

end openapi

namespace backoff

open mw

/-- C22: a freshly created Backoff with `MaxTries = N` (with `N + 1` a `uint`) returns from `Do`
for every `fn`; `Do` calls `fn` at least once and at most `N + 1` times, every call but the
last one made has failed, when one of the first `N + 1` calls succeeds the last call made is
the first one that succeeds and `Do` returns nil, and when the first `N + 1` calls all fail
`Do` makes exactly these calls and returns the error of the last of them. -/
theorem do_attempts (N : Nat) (d : Int) (fn : BackoffFunc) (fuel : Nat)
    (hN : N + 1 < 2 ^ 64) (hfuel : N + 2 ≤ fuel) :
    ∃ r, (New N d).Do fn fuel = some r ∧ 1 ≤ r.calls ∧ r.calls ≤ N + 1 ∧
      (∀ i, i + 1 < r.calls → fn i ≠ none) ∧
      ((∃ j, j ≤ N ∧ fn j = none) → fn (r.calls - 1) = none ∧ r.err = none) ∧
      ((∀ i, i ≤ N → fn i ≠ none) → r.calls = N + 1 ∧ r.err = fn N ∧ r.err ≠ none) := by
  obtain ⟨k, hk, hfail, hres⟩ := Do_spec fn N d hN 0 fuel (Nat.zero_le _) hfuel
  rcases hres with ⟨h1, h2, h3⟩ | ⟨h1, h3⟩
  · refine ⟨_, h3, ?_, ?_, ?_, ?_, ?_⟩
    · simp
    · show k + 1 ≤ N + 1
      omega
    · intro i hi
      exact hfail i (by simpa using hi)
    · intro _
      exact ⟨by simpa using h2, rfl⟩
    · intro hall
      exact absurd h2 (hall k (by omega))
  · have hk' : k = N + 1 := by omega
    subst hk'
    refine ⟨_, h3, ?_, ?_, ?_, ?_, ?_⟩
    · show 1 ≤ N + 1
      omega
    · exact le_refl _
    · intro i hi
      exact hfail i (by
        have : i + 1 < N + 1 := hi
        omega)
    · rintro ⟨j, hj, hnone⟩
      exact absurd hnone (hfail j (by omega))
    · intro hall
      refine ⟨rfl, ?_, ?_⟩
      · simp
      · simpa using hall N (le_refl _)

/-- Witness of C22 on a row of `TestBackoff`: `MaxTries` 2 and a function that fails three
times make three calls and return the error. -/
theorem do_attempts_witness :
    ∃ r, (New 2 Second).Do (failFirst 3) 4 = some r ∧ 1 ≤ r.calls ∧ r.calls ≤ 2 + 1 ∧
      (∀ i, i + 1 < r.calls → failFirst 3 i ≠ none) ∧
      ((∃ j, j ≤ 2 ∧ failFirst 3 j = none) →
        failFirst 3 (r.calls - 1) = none ∧ r.err = none) ∧
      ((∀ i, i ≤ 2 → failFirst 3 i ≠ none) →
        r.calls = 2 + 1 ∧ r.err = failFirst 3 2 ∧ r.err ≠ none) :=
  do_attempts 2 Second (failFirst 3) 4 (by norm_num) (by norm_num)

end backoff

namespace backoff

open mw

/-- C23 fails on the code: with base duration `2 ^ 55` ns and nine failed attempts the sleeps
after the failures 0 to 7 are the products `2 ^ 55 * 2 ^ k`, and the sleep after failure 8 is
`-2 ^ 63` ns, where the claim gives `2 ^ 55 * 2 ^ 8 = 2 ^ 63` ns: the shift
`b.Duration << m` wraps in the 64 bits of a `time.Duration`. -/
theorem do_sleep_wraps :
    ((New 8 (2 ^ 55)).Do (failFirst 9) 10).map (fun r => (r.calls, r.sleeps)) =
      some (9, [2 ^ 55, 2 ^ 56, 2 ^ 57, 2 ^ 58, 2 ^ 59, 2 ^ 60, 2 ^ 61, 2 ^ 62, -2 ^ 63]) ∧
    (2 : Int) ^ 55 * 2 ^ min 8 8 = 2 ^ 63 ∧
    (-2 ^ 63 : Int) ≠ 2 ^ 63 := by
  decide

end backoff

namespace backoff

open mw

/-- C24 as stated fails on a row of `TestBackoff`: with 99 retries allowed, base 1 s and a
function that fails ten times, the sleeps are 1, 2, …, 256 and once more 256 seconds, 767
seconds in total, while the claimed sum `2^0 + … + 2^min(9,8)` gives 511 seconds. -/
theorem do_total_sleep_counterexample :
    ((New 99 Second).Do (failFirst 10) 101).map (fun r => (r.calls, r.err, r.sleeps.sum)) =
      some (11, none, 767 * Second) ∧
    Second * claimedSum 10 = 511 * Second ∧
    (767 * Second ≠ Second * claimedSum 10) := by
  decide

/-- C24 (amended): a freshly created Backoff with `N` retries allowed (`N + 1` a `uint`) and a
base whose 256-fold is a `time.Duration`, run on a function that fails `M` times
(`1 ≤ M ≤ N + 1`: its first `M` calls fail, and call `M` succeeds when `M ≤ N`), requests `M`
sleeps, `base * 2 ^ min k 8` after failure `k`, in total `base` times the sum of
`2 ^ min k 8` over `k < M`, which is `2^0 + … + 2^min(M-1,8)` plus 256 for each failure
after the ninth. -/
theorem do_total_sleep (N M : Nat) (base : Int) (fn : BackoffFunc) (fuel : Nat)
    (hN : N + 1 < 2 ^ 64) (hfuel : N + 2 ≤ fuel) (hM1 : 1 ≤ M) (hM2 : M ≤ N + 1)
    (hfail : ∀ i, i < M → fn i ≠ none) (hstop : M ≤ N → fn M = none)
    (hlo : -2 ^ 63 ≤ base * 256) (hhi : base * 256 < 2 ^ 63) :
    ∃ r, (New N base).Do fn fuel = some r ∧ r.sleeps.length = M ∧
      (∀ k, k < M → r.sleeps[k]? = some (base * 2 ^ min k 8)) ∧
      r.sleeps.sum = base * cappedSum M ∧
      cappedSum M = claimedSum M + 256 * ((M - 9 : Nat) : Int) ∧
      (M ≤ 9 → r.sleeps.sum = base * claimedSum M) := by
  obtain ⟨k, hk, hfailk, hres⟩ := Do_spec fn N base hN 0 fuel (Nat.zero_le _) hfuel
  have hkM : k = M := by
    rcases hres with ⟨h1, h2, -⟩ | ⟨h1, -⟩
    · rcases Nat.lt_trichotomy k M with h | h | h
      · exact absurd h2 (hfail k h)
      · exact h
      · exact absurd (hstop (by omega)) (hfailk M h)
    · by_contra hne
      have hlt : M < k := by omega
      exact absurd (hstop (by omega)) (hfailk M hlt)
  subst hkM
  have hsl : (List.range k).map (fun i => wrap64 (base * 2 ^ min (0 + i) 8)) =
      (List.range k).map (fun i => base * (2 : Int) ^ min i 8) := by
    refine List.map_congr_left ?_
    intro i _
    rw [Nat.zero_add]
    exact wrap64_of_range (shift_in_range hlo hhi i).1 (shift_in_range hlo hhi i).2
  have hsum : ((List.range k).map (fun i => base * (2 : Int) ^ min i 8)).sum =
      base * cappedSum k := sum_map_mul_left base (fun i => (2 : Int) ^ min i 8) _
  have hclosed := cappedSum_eq k hM1
  have key : ∀ r : DoResult,
      r.sleeps = (List.range k).map (fun i => base * (2 : Int) ^ min i 8) →
      r.sleeps.length = k ∧
      (∀ i, i < k → r.sleeps[i]? = some (base * 2 ^ min i 8)) ∧
      r.sleeps.sum = base * cappedSum k ∧
      cappedSum k = claimedSum k + 256 * ((k - 9 : Nat) : Int) ∧
      (k ≤ 9 → r.sleeps.sum = base * claimedSum k) := by
    intro r hr
    refine ⟨by simp [hr], ?_, by rw [hr, hsum], hclosed, ?_⟩
    · intro i hi
      rw [hr]
      simp [List.getElem?_map, List.getElem?_range hi]
    · intro h9
      have h0 : k - 9 = 0 := by omega
      rw [hr, hsum, hclosed, h0]
      simp
  rcases hres with ⟨-, -, h3⟩ | ⟨-, h3⟩
  · exact ⟨_, h3, key _ hsl⟩
  · exact ⟨_, h3, key _ hsl⟩

/-- Witness of C24 (amended) on the input of the counterexample: ten failures, 767 s. -/
theorem do_total_sleep_witness :
    ∃ r, (New 99 Second).Do (failFirst 10) 101 = some r ∧ r.sleeps.length = 10 ∧
      r.sleeps.sum = Second * cappedSum 10 ∧ cappedSum 10 = 767 := by
  obtain ⟨r, h1, h2, -, h4, -, -⟩ :=
    do_total_sleep 99 10 Second (failFirst 10) 101 (by norm_num) (by norm_num) (by norm_num)
      (by norm_num) (by decide) (by decide) (by decide) (by decide)
  exact ⟨r, h1, h2, h4, by decide⟩

end backoff

namespace mw

/-- C25 fails on the code: with `RequiredScopes` not set the list of required scopes is empty,
so every request that is not skipped is passed to `next` and `Tokeninfo` is never called. A
request without `Authorization` header gets no 400 and a request whose token `Tokeninfo`
rejects gets no 401. -/
theorem oauth2_unset_scopes_requires_no_token :
    middlewareOf ⟨none, some exampleTokeninfo, none⟩ exampleNext exampleContextNoToken =
      ⟨[], [exampleContextNoToken], none⟩ ∧
    middlewareOf ⟨none, some (fun _ => (none, some (.plain "token is not active"))), none⟩
      exampleNext exampleContext = ⟨[], [exampleContext], none⟩ ∧
    (∀ (tokeninfo : TokeninfoFunc) (next : HandlerFunc) (c : Context),
      middlewareOf ⟨none, some tokeninfo, none⟩ next c = ⟨[], [c], next c⟩) := by
  refine ⟨by decide, by decide, ?_⟩
  intro tokeninfo next c
  simp [middlewareOf, OAuth2WithConfig, DefaultSkipper]

end mw

namespace ingress

/-- C26: with `N ≥ 1` configured targets, `K` requests served one after another are all
forwarded, request `i` (from 0) to target `i mod N`; so the target at position `j` handles
`K / N` of them, and one more when `j < K mod N`, which lies between the floor and the ceiling
of `K / N`. -/
theorem roundRobin_forwards (targets : List String) (K : Nat) (hN : 0 < targets.length) :
    ∃ ts, forwards (NewRoundRobinBalancer targets) K = some ts ∧ ts.length = K ∧
      (∀ i, i < K → ts[i]? = targets[i % targets.length]?) ∧
      ∀ j, j < targets.length →
        ((List.range K).filter (fun i => decide (i % targets.length = j))).length =
          K / targets.length + (if j < K % targets.length then 1 else 0) ∧
        K / targets.length ≤
          ((List.range K).filter (fun i => decide (i % targets.length = j))).length ∧
        ((List.range K).filter (fun i => decide (i % targets.length = j))).length ≤
          (K + targets.length - 1) / targets.length := by
  obtain ⟨ts, h1, h2, h3⟩ := forwards_spec targets hN K 0
  refine ⟨ts, h1, h2, ?_, ?_⟩
  · intro i hi
    have := h3 i hi
    rwa [Nat.zero_add] at this
  · intro j hj
    have hc := count_mod targets.length hN j hj K
    refine ⟨hc, by rw [hc]; exact Nat.le_add_right _ _, ?_⟩
    rw [hc]
    by_cases hlt : j < K % targets.length
    · rw [if_pos hlt]
      have hpos : 0 < K % targets.length := by omega
      rw [Nat.le_div_iff_mul_le hN, Nat.add_mul, Nat.one_mul, Nat.mul_comm]
      have h4 := Nat.div_add_mod K targets.length
      omega
    · rw [if_neg hlt, Nat.add_zero]
      exact Nat.div_le_div_right (by omega)

/-- Witness of C26 on the setup of `TestGwHttpGet`: two upstream servers and four requests. -/
theorem roundRobin_forwards_witness :
    ∃ ts, forwards (NewRoundRobinBalancer ["upstream1", "upstream2"]) 4 = some ts ∧
      ts = ["upstream1", "upstream2", "upstream1", "upstream2"] := by
  obtain ⟨ts, h1, -, -, -⟩ :=
    roundRobin_forwards ["upstream1", "upstream2"] 4 (by decide)
  refine ⟨ts, h1, ?_⟩
  have h2 : forwards (NewRoundRobinBalancer ["upstream1", "upstream2"]) 4 =
      some ["upstream1", "upstream2", "upstream1", "upstream2"] := by decide
  rw [h2] at h1
  exact (Option.some.inj h1).symm

end ingress

namespace path

/-- C27 as stated fails twice. `AddMethodPathScopes` does not return on the paths `/`, the
empty path, `/a/` and `/a//b` (the element test `e[0]` faults on an empty element); and with
only `/accounts/{id}` inserted the lookup of `/accounts/` resolves, to the parameter child,
although no node with the empty name exists. -/
theorem empty_segment_lookup_counterexample :
    (AddMethodPathScopes NewIndex "GET" "/" []).isNone = true ∧
    (AddMethodPathScopes NewIndex "GET" "" []).isNone = true ∧
    (AddMethodPathScopes NewIndex "GET" "/a/" []).isNone = true ∧
    (AddMethodPathScopes NewIndex "GET" "/a//b" []).isNone = true ∧
    (build NewIndex [("GET", "/accounts/\x7bid\x7d", ["read"])]).map
      (fun idx => FindScopes idx "GET" "/accounts/") = some (["read"], none) ∧
    (build NewIndex [("GET", "/accounts/\x7bid\x7d", ["read"])]).map
      (fun idx => (Find idx "/accounts/").toOption.map node.name) =
        some (some "\x7bid\x7d") := by
  decide

/-- C27 (amended): in an index built from `NewIndex` by `AddMethodPathScopes` calls that
return, no node has a child with the empty name, and an empty path element is matched by the
parameter child of the node reached so far and by nothing else. So for a non-empty path `p`
the lookup of `p` with a trailing slash resolves exactly when the lookup of `p` resolves to a
node that has a parameter child, and it resolves to that child. -/
theorem empty_segment_lookup (ops : List (String × String × Scopes)) (idx : Index) (p : String)
    (hb : build NewIndex ops = some idx) (hp : p ≠ "") :
    (∀ n, Inside idx.root n → ∀ c ∈ n.children, c.name ≠ "") ∧
    (∀ n c, Inside idx.root n →
      (nodes_match n.children "" = some c ↔ c ∈ n.children ∧ c.param = true)) ∧
    (∀ c, Find idx (p ++ "/") = .ok c ↔
      ∃ n, Find idx p = .ok n ∧ c ∈ n.children ∧ c.param = true) := by
  have hw : WF idx.root := (build_NewIndex hb).1
  refine ⟨fun n hn => WF_name_ne (WF_inside hw hn),
    fun n c hn => match_empty (WF_inside hw hn) c, ?_⟩
  intro c
  rw [Find_eq, Find_eq, split_trailing_slash p hp, findLoop_append]
  cases hf : findLoop idx.root (split p) with
  | error err =>
    simp only
    constructor
    · intro h; cases h
    · rintro ⟨n, h, -⟩; cases h
  | ok n =>
    simp only
    have hwn : WF n := findLoop_WF _ hw hf
    have hone : findLoop n [""] = .ok c ↔ nodes_match n.children "" = some c := by
      simp only [findLoop]
      cases hm : nodes_match n.children "" with
      | none => simp
      | some d => simp
    rw [hone, match_empty hwn]
    constructor
    · intro h
      exact ⟨n, rfl, h⟩
    · rintro ⟨n', h1, h2⟩
      cases h1
      exact h2

/-- Witness of C27 (amended): with `/accounts/{id}` inserted, `/accounts/` resolves to the
parameter node. -/
theorem empty_segment_lookup_witness :
    ∃ idx c, build NewIndex [("GET", "/accounts/\x7bid\x7d", ["read"])] = some idx ∧
      Find idx ("/accounts" ++ "/") = .ok c ∧ c.name = "\x7bid\x7d" ∧ c.param = true :=
  ⟨⟨.mk "" false [.mk "accounts" false [.mk "\x7bid\x7d" true [] [("GET", ["read"])]] []] []⟩,
    .mk "\x7bid\x7d" true [] [("GET", ["read"])], rfl,
    ((empty_segment_lookup [("GET", "/accounts/\x7bid\x7d", ["read"])]
      ⟨.mk "" false [.mk "accounts" false [.mk "\x7bid\x7d" true [] [("GET", ["read"])]] []] []⟩
      "/accounts" rfl (by decide)).2.2 (.mk "\x7bid\x7d" true [] [("GET", ["read"])])).2
      ⟨.mk "accounts" false [.mk "\x7bid\x7d" true [] [("GET", ["read"])]] [], rfl,
        by simp [node.children], rfl⟩,
    rfl, rfl⟩

end path

namespace path

/-- C28: every sequence of `AddPath` and `AddMethodPathScopes` calls on paths without empty
elements, run from `NewIndex`, returns an index in which every node has at most one child
flagged as a parameter and children with pairwise distinct names. In that index, `AddPath` of a
path that equals an added path up to the names of its parameter elements returns the index
unchanged, and `AddMethodPathScopes` of such a path returns an index with the same reachable
positions. -/
theorem index_children_invariant (calls : List IndexCall)
    (hcalls : ∀ call ∈ calls, "" ∉ split call.path) :
    ∃ idx, runCalls NewIndex calls = some idx ∧
      (∀ n, Inside idx.root n →
        (n.children.filter (fun c => c.param)).length ≤ 1 ∧
        (n.children.map node.name).Nodup) ∧
      (∀ call ∈ calls, ∀ q, pathKey q = pathKey call.path →
        AddPath idx q = some idx ∧
        ∀ (m : String) (s : Scopes), ∃ idx', AddMethodPathScopes idx m q s = some idx' ∧
          ∀ ks, (walk idx'.root ks).isSome = (walk idx.root ks).isSome) := by
  obtain ⟨idx, hrun⟩ := runCalls_total calls hcalls NewIndex
  obtain ⟨hw, -, hreach⟩ := runCalls_spec calls WF_NewIndex hrun
  refine ⟨idx, hrun, ?_, ?_⟩
  · intro n hn
    have hwn := WF_inside hw hn
    exact ⟨WF_params hwn, WF_names hwn⟩
  · intro call hc q hq
    exact add_existing hw q (by rw [hq]; exact hreach call hc)

/-- Witness of C28: after `/a/{id}` and `/a/{id}/b` were added, adding `/a/{x}` changes
nothing. -/
theorem index_children_invariant_witness :
    ∃ idx, runCalls NewIndex [.addMethodPathScopes "GET" "/a/\x7bid\x7d" ["r"],
        .addPath "/a/\x7bid\x7d/b"] = some idx ∧
      AddPath idx "/a/\x7bx\x7d" = some idx := by
  obtain ⟨idx, h1, -, h3⟩ := index_children_invariant
    [.addMethodPathScopes "GET" "/a/\x7bid\x7d" ["r"], .addPath "/a/\x7bid\x7d/b"]
    (by decide)
  exact ⟨idx, h1, (h3 (.addMethodPathScopes "GET" "/a/\x7bid\x7d" ["r"]) (by simp)
    "/a/\x7bx\x7d" (by decide)).1⟩

end path

namespace path

/-- C29: `Find` is greedy and never backtracks. When a child of the current node has the name
of the next path element, the search continues in the first such child only, whatever its
result. So with `/a/b/c` and `/a/{x}/d` inserted, the path `/a/b/d` matches the inserted
template `/a/{x}/d` element by element, and `Find`, `FindScopes` and `FindMethods` return the
error `no match for d`. -/
theorem find_is_greedy :
    (∀ (n c : node) (e : String) (es : List String),
      n.children.find? (fun x => x.name == e) = some c →
        findLoop n (e :: es) = findLoop c es) ∧
    ∃ idx, build NewIndex [("GET", "/a/b/c", []), ("GET", "/a/\x7bx\x7d/d", [])] = some idx ∧
      matchesSegments (split "/a/\x7bx\x7d/d") (split "/a/b/d") = true ∧
      errorOf (Find idx "/a/b/d") = some "no match for d" ∧
      FindScopes idx "GET" "/a/b/d" = ([], some "no match for d") ∧
      FindMethods idx "/a/b/d" = ([], some "no match for d") ∧
      FindScopes idx "GET" "/a/\x7bx\x7d/d" = ([], none) ∧
      FindScopes idx "GET" "/a/z/d" = ([], none) := by
  constructor
  · intro n c e es h
    show (match nodes_match n.children e with
      | none => Except.error ("no match for " ++ e)
      | some c => findLoop c es) = findLoop c es
    rw [nodes_match_spec, h]
  · have h1 : (build NewIndex [("GET", "/a/b/c", []), ("GET", "/a/\x7bx\x7d/d", [])]).map
        (fun idx => errorOf (Find idx "/a/b/d")) = some (some "no match for d") := by decide
    have h2 : (build NewIndex [("GET", "/a/b/c", []), ("GET", "/a/\x7bx\x7d/d", [])]).map
        (fun idx => (FindScopes idx "GET" "/a/b/d", FindMethods idx "/a/b/d")) =
        some (([], some "no match for d"), ([], some "no match for d")) := by decide
    have h3 : (build NewIndex [("GET", "/a/b/c", []), ("GET", "/a/\x7bx\x7d/d", [])]).map
        (fun idx => (FindScopes idx "GET" "/a/\x7bx\x7d/d", FindScopes idx "GET" "/a/z/d")) =
        some (([], none), ([], none)) := by decide
    cases hb : build NewIndex [("GET", "/a/b/c", []), ("GET", "/a/\x7bx\x7d/d", [])] with
    | none => rw [hb] at h1; cases h1
    | some idx =>
      rw [hb] at h1 h2 h3
      simp only [Option.map_some', Option.some.injEq, Prod.mk.injEq] at h1 h2 h3
      exact ⟨idx, rfl, by decide, h1, h2.1, h2.2, h3.1, h3.2⟩

end path

namespace backoff

open mw

/-- C30: `Do` never resets the retry counter. For a Backoff with `MaxTries = N` (`N + 1` a
`uint`) and two `Do` calls in a row on the same instance, the first on a fresh instance: after
the first call the counter is the number of its failed calls, the second call makes at most
`N + 1` minus that many calls of its function and makes exactly so many when they all fail, and
when the first call exhausted all `N + 1` attempts the second one calls its function zero times,
requests no sleep and returns nil. -/
theorem do_keeps_retry (N : Nat) (d : Int) (fn1 fn2 : BackoffFunc) (fuel : Nat)
    (hN : N + 1 < 2 ^ 64) (hfuel : N + 2 ≤ fuel) :
    ∃ r1 r2, (New N d).Do fn1 fuel = some r1 ∧ r1.b.Do fn2 fuel = some r2 ∧
      r1.b.MaxTries = N ∧ r1.b.retry = r1.sleeps.length ∧
      (∀ i, i < r1.b.retry → fn1 i ≠ none) ∧
      r2.calls ≤ N + 1 - r1.b.retry ∧
      r2.b.retry = r1.b.retry + r2.sleeps.length ∧
      ((∀ i, fn2 i ≠ none) → r2.calls = N + 1 - r1.b.retry) ∧
      ((∀ i, i ≤ N → fn1 i ≠ none) →
        r1.calls = N + 1 ∧ r1.err = fn1 N ∧ r1.b.retry = N + 1 ∧
        r2 = ⟨r1.b, 0, [], none⟩) := by
  obtain ⟨k, hk, hfail, hres⟩ := Do_spec fn1 N d hN 0 fuel (Nat.zero_le _) hfuel
  have second : ∀ r0, r0 ≤ N + 1 →
      ∃ r2, (⟨N, d, r0⟩ : Backoff).Do fn2 fuel = some r2 ∧
        r2.calls ≤ N + 1 - r0 ∧ r2.b.retry = r0 + r2.sleeps.length ∧
        ((∀ i, fn2 i ≠ none) → r2.calls = N + 1 - r0) ∧
        (r0 = N + 1 → r2 = ⟨⟨N, d, r0⟩, 0, [], none⟩) := by
    intro r0 hr0
    obtain ⟨k2, hk2, hfail2, hres2⟩ := Do_spec fn2 N d hN r0 fuel hr0 hfuel
    rcases hres2 with ⟨h1, h2, h3⟩ | ⟨h1, h3⟩
    · refine ⟨_, h3, ?_, by simp, ?_, ?_⟩
      · show k2 + 1 ≤ N + 1 - r0
        omega
      · intro hall
        exact absurd h2 (hall k2)
      · intro h
        omega
    · refine ⟨_, h3, ?_, ?_, ?_, ?_⟩
      · show k2 ≤ N + 1 - r0
        omega
      · simp
        omega
      · intro _
        show k2 = N + 1 - r0
        omega
      · intro h
        have hk0 : k2 = 0 := by omega
        subst hk0
        subst h
        simp
  rcases hres with ⟨h1, h2, h3⟩ | ⟨h1, h3⟩
  · obtain ⟨r2, hr2, hc, hret, hall, -⟩ := second (0 + k) (by omega)
    refine ⟨_, r2, h3, hr2, rfl, by simp, ?_, hc, hret, hall, ?_⟩
    · intro i hi
      exact hfail i (by simpa using hi)
    · intro hex
      exact absurd h2 (hex k (by omega))
  · obtain ⟨r2, hr2, hc, hret, hall, hzero⟩ := second (N + 1) (le_refl _)
    have hk' : k = N + 1 := by omega
    subst hk'
    refine ⟨_, r2, h3, hr2, rfl, by simp, ?_, hc, hret, hall, ?_⟩
    · intro i hi
      exact hfail i (by simpa using hi)
    · intro _
      refine ⟨rfl, by simp, rfl, hzero rfl⟩

/-- Witness of C30: after a `Do` that used up the three attempts of `MaxTries = 2`, a second
`Do` with a function that would succeed at once does not call it and returns nil. -/
theorem do_keeps_retry_witness :
    ∃ r1 r2, (New 2 Second).Do (failFirst 3) 4 = some r1 ∧
      r1.b.Do (failFirst 0) 4 = some r2 ∧ r1.calls = 3 ∧ r1.b.retry = 3 ∧
      r2.calls = 0 ∧ r2.err = none ∧ r2.sleeps = [] := by
  obtain ⟨r1, r2, h1, h2, -, -, -, -, -, -, h9⟩ :=
    do_keeps_retry 2 Second (failFirst 3) (failFirst 0) 4 (by norm_num) (by norm_num)
  obtain ⟨h3, -, h4, h5⟩ := h9 (by decide)
  refine ⟨r1, r2, h1, h2, h3, h4, ?_, ?_, ?_⟩ <;> rw [h5]

end backoff

end Apigw
